import Mathlib

/-!
Verification of the `dagflowjs` DAG execution engine (`src/index.ts`).

Shallow embedding notes:
* The engine is asynchronous in the source, but every observable order is
  deterministic: `Promise.all` preserves the order of `runnable`, outcomes
  are processed in that order, and per-node metric writes touch disjoint
  keys, so the run is modelled as sequential state passing.
* Wall-clock quantities (`startedAt`, `finishedAt`, `durationMs`, the
  retry `sleep`, and the `timeoutMs` race) are real time and are not
  modelled; a timed-out attempt is just one more failing result of the
  node's work item.  `structuredClone` on plain data is the identity.
* A node's work item is modelled as a function from the attempt index and
  the context snapshot to `Except` (message on failure, patch on success);
  the logger capability and the abort signal are never inspected by the
  core and are omitted.
* Contexts and patches are JavaScript objects with (for concreteness)
  numeric fields, modelled as association lists; `{ ...base, ...patch }`
  replaces overridden keys in place and appends fresh keys.
* JavaScript `Map` / `Set` preserve insertion order; both are modelled as
  lists with update-in-place / append-if-new operations.
* The recursion of `blockDependents` and the planner's `while` loop are
  given explicit fuel; the engine passes fuel large enough that it is
  never exhausted (proved where a claim needs it).
-/

/-- `DagNodeStatus` from the source. -/
inductive DagNodeStatus where
  | success
  | failed
  | skipped
  | blocked
deriving DecidableEq, Repr

/-- `ErrorStrategy` from the source: `"fail" | "skip" | "skip-dependents"`. -/
inductive ErrorStrategy where
  | fail
  | skip
  | skipDependents
deriving DecidableEq, Repr

/-- Association-list lookup (JS `Map.get` / object field read). -/
def alGet {α : Type} (l : List (String × α)) (k : String) : Option α :=
  match l with
  | [] => none
  | (k', v) :: rest => if k' = k then some v else alGet rest k

/-- Association-list update: JS `Map.set` / object field write — replaces an
existing key in place, appends a fresh key. -/
def alSet {α : Type} (l : List (String × α)) (k : String) (v : α) :
    List (String × α) :=
  match l with
  | [] => [(k, v)]
  | (k', v') :: rest =>
    if k' = k then (k', v) :: rest else (k', v') :: alSet rest k v

/-- JS `Set.add`: append the element if it is not already present. -/
def addUnique (l : List String) (x : String) : List String :=
  if l.contains x then l else l ++ [x]

/-- A context / patch value: a plain JS object with numeric fields. -/
abbrev Obj := List (String × Nat)

/-- `mergeContext` from the source: `structuredClone({ ...base, ...patch })`.
Spread semantics: every field of `patch` overrides the same field of `base`
(keeping its position) or is appended. -/
def mergeContext (base patch : Obj) : Obj :=
  patch.foldl (fun acc kv => alSet acc kv.1 kv.2) base

/-- `DagNodeConfig` from the source. -/
structure DagNodeConfig where
  maxRetries : Option Nat := none
  retryDelayMs : Option Nat := none
  onError : Option ErrorStrategy := none

/-- `DagNode` from the source.  `execute` takes the attempt index (the model
of "what the work item does on the i-th attempt") and the context snapshot;
failures carry the error message.  `timeoutMs` is not modelled (real time):
a timeout is one more way for an attempt to produce an error. -/
structure DagNode where
  id : String
  dependsOn : List String := []
  config : Option DagNodeConfig := none
  shouldRun : Option (Obj → Bool) := none
  execute : Nat → Obj → Except String Obj
  validate : Option (Obj → Bool) := none
  cleanup : Option (Obj → Except String Unit) := none

/-- Per-node outcome record (`DagNodeMetrics`); `durationMs` is real time
and is not modelled. -/
structure DagNodeMetrics where
  attempts : Nat
  status : DagNodeStatus
  error : Option String := none
deriving DecidableEq, Repr

/-- Run metrics (`DagMetrics`); the two timestamps are real time and are
not modelled. -/
structure DagMetrics where
  totalNodes : Nat
  successfulNodes : Nat
  failedNodes : Nat
  skippedNodes : Nat
  blockedNodes : Nat
  nodes : List (String × DagNodeMetrics)
deriving DecidableEq, Repr

/-- `metrics.nodes[id] = rec` in the source. -/
def DagMetrics.setNode (m : DagMetrics) (id : String) (rec : DagNodeMetrics) :
    DagMetrics :=
  { m with nodes := alSet m.nodes id rec }

/-- The fresh metrics object built at the top of `execute` (`totalNodes` is
0 there; it is assigned only after the plan has been computed). -/
def freshMetrics : DagMetrics :=
  { totalNodes := 0, successfulNodes := 0, failedNodes := 0,
    skippedNodes := 0, blockedNodes := 0, nodes := [] }

/-- What `runNode` can throw: the internal `SkipSuccessors` marker or a
real error (message). -/
inductive NodeErr where
  | skipSuccessors (nodeId : String)
  | error (msg : String)
deriving DecidableEq, Repr

/-- Plan-time errors thrown by `defaultPlanner` (distinguished here by
constructor; the source distinguishes them by message text). -/
inductive PlanError where
  | dup (id : String)
  | missingDep (id dep : String)
  | selfDep (id : String)
  | cycle (ids : List String)
deriving DecidableEq, Repr

/-- The top-level error carried by a failed run result: either a plan-time
error or the (message of the) error thrown while processing a node. -/
inductive RunError where
  | planError (e : PlanError)
  | nodeError (msg : String)
deriving DecidableEq, Repr

/-- `DagResult` from the source. -/
structure DagResult where
  success : Bool
  context : Obj
  metrics : DagMetrics
  error : Option RunError := none
deriving DecidableEq, Repr

/-- The retry loop of `runNode` (`for i = 0..retries`): run the work item,
return on the first success, remember the last error.  Returns the number
of attempts made together with the final outcome.  `i` is the current
attempt index, `remaining` the number of retries still allowed; the
backoff `sleep` is real time and is not modelled. -/
def attemptLoop (exec : Nat → Except String Obj) (i : Nat) (remaining : Nat)
    (attempts : Nat) : Nat × Except String Obj :=
  match exec i with
  | .ok patch => (attempts + 1, .ok patch)
  | .error e =>
    match remaining with
    | 0 => (attempts + 1, .error e)
    | r + 1 => attemptLoop exec (i + 1) r (attempts + 1)

/-- The retry phase of `runNode`: the attempt loop inside
`try { ... } finally { await node.cleanup?.(ctx) }`.  JS `finally`
semantics: a cleanup failure replaces whatever the `try` block returned or
threw; the metric record written inside the `try` stays. -/
def runNodeAttempts (node : DagNode) (ctx : Obj) (m : DagMetrics) :
    Except NodeErr Obj × DagMetrics :=
  let retries := (node.config.bind DagNodeConfig.maxRetries).getD 0
  let res := attemptLoop (fun i => node.execute i ctx) 0 retries 0
  let m' :=
    match res.2 with
    | .ok _ => m.setNode node.id ⟨res.1, .success, none⟩
    | .error e => m.setNode node.id ⟨res.1, .failed, some e⟩
  let out : Except NodeErr Obj :=
    match res.2 with
    | .ok patch => .ok patch
    | .error e => .error (.error e)
  match node.cleanup with
  | none => (out, m')
  | some cl =>
    match cl ctx with
    | .ok _ => (out, m')
    | .error ce => (.error (.error ce), m')

/-- The validation step of `runNode`: a false validation records a skip and
returns the empty patch (cleanup does not run — the `try` block is never
entered); otherwise the retry phase runs. -/
def runNodeAfterGate (node : DagNode) (ctx : Obj) (m : DagMetrics) :
    Except NodeErr Obj × DagMetrics :=
  match node.validate with
  | some val =>
    if val ctx then runNodeAttempts node ctx m
    else
      (.ok [],
        { m.setNode node.id ⟨0, .skipped, none⟩ with
            skippedNodes := m.skippedNodes + 1 })
  | none => runNodeAttempts node ctx m

/-- `DagEngine.runNode`.  Order of business, as in the source: gate check
(`shouldRun`; a false gate records a skip and throws `SkipSuccessors`
before the `try/finally`, so cleanup does not run), then validation, then
the retry phase. -/
def runNode (node : DagNode) (ctx : Obj) (m : DagMetrics) :
    Except NodeErr Obj × DagMetrics :=
  match node.shouldRun with
  | some gate =>
    if gate ctx then runNodeAfterGate node ctx m
    else
      (.error (.skipSuccessors node.id),
        { m.setNode node.id ⟨0, .skipped, none⟩ with
            skippedNodes := m.skippedNodes + 1 })
  | none => runNodeAfterGate node ctx m

/-- `DagEngine.blockDependents`, with explicit fuel for the recursion (the
engine always supplies enough fuel — one unit per node plus one).  For
every node that depends on `nodeId` and is not yet blocked: mark it
blocked, record a blocked outcome, bump the counter, recurse. -/
def blockDependents (fuel : Nat) (nodeId : String) (nodes : List DagNode)
    (blocked : List String) (m : DagMetrics) : List String × DagMetrics :=
  match fuel with
  | 0 => (blocked, m)
  | fuel + 1 =>
    nodes.foldl
      (fun st node =>
        if node.dependsOn.contains nodeId ∧ ¬ st.1.contains node.id then
          let bl := st.1 ++ [node.id]
          let m' :=
            { st.2.setNode node.id ⟨0, .blocked, none⟩ with
                blockedNodes := st.2.blockedNodes + 1 }
          blockDependents fuel node.id nodes bl m'
        else st)
      (blocked, m)

/-- A JS `Map<string, Set<string>>` / `Map<string, number>` pair: adjacency
(dependency → dependents) and in-degree.  In-degrees are `Int` because the
source decrements with plain `- 1` (a second decrement past zero goes
negative and the `=== 0` push test then fails, exactly as in JS). -/
abbrev Graph := List (String × List String)

/-- The planner's init loop: one adjacency entry and a zero in-degree per
node; a repeated id throws `Duplicate node id`. -/
def plannerInit (nodes : List DagNode) :
    Except PlanError (Graph × List (String × Int)) :=
  nodes.foldlM
    (fun st node =>
      if (alGet st.1 node.id).isSome then .error (.dup node.id)
      else .ok (st.1 ++ [(node.id, [])], st.2 ++ [(node.id, 0)]))
    ([], [])

/-- The planner's build loop for one node: for each declared dependency,
check existence then self-reference, then add the node to the dependency's
dependent set and bump the node's in-degree. -/
def buildDeps (node : DagNode) (st : Graph × List (String × Int)) :
    Except PlanError (Graph × List (String × Int)) :=
  node.dependsOn.foldlM
    (fun st dep =>
      match alGet st.1 dep with
      | none => .error (.missingDep node.id dep)
      | some dependents =>
        if dep = node.id then .error (.selfDep node.id)
        else
          .ok (alSet st.1 dep (addUnique dependents node.id),
            alSet st.2 node.id ((alGet st.2 node.id).getD 0 + 1)))
    st

/-- The body of the build loop (hoisted for the proofs). -/
def depStep (node : DagNode) (st : Graph × List (String × Int))
    (dep : String) : Except PlanError (Graph × List (String × Int)) :=
  match alGet st.1 dep with
  | none => .error (.missingDep node.id dep)
  | some dependents =>
    if dep = node.id then .error (.selfDep node.id)
    else
      .ok (alSet st.1 dep (addUnique dependents node.id),
        alSet st.2 node.id ((alGet st.2 node.id).getD 0 + 1))

/-- The planner's build loop over all nodes. -/
def buildGraph (nodes : List DagNode) (st : Graph × List (String × Int)) :
    Except PlanError (Graph × List (String × Int)) :=
  nodes.foldlM (fun st node => buildDeps node st) st

/-- Processing one popped id inside the Kahn loop: decrement the in-degree
of each of its dependents, enqueueing those that reach exactly zero. -/
def processId (graph : Graph) (st : List (String × Int) × List String)
    (id : String) : List (String × Int) × List String :=
  ((alGet graph id).getD []).foldl
    (fun st next =>
      let d := (alGet st.1 next).getD 0 - 1
      let ind := alSet st.1 next d
      if d = 0 then (ind, st.2 ++ [next]) else (ind, st.2))
    st

/-- The inner body of `processId` (hoisted for the proofs): decrement one
dependent's in-degree and enqueue it when the count reaches exactly 0. -/
def decStep (st : List (String × Int) × List String) (next : String) :
    List (String × Int) × List String :=
  let d := (alGet st.1 next).getD 0 - 1
  let ind := alSet st.1 next d
  if d = 0 then (ind, st.2 ++ [next]) else (ind, st.2)

/-- The Kahn `while (queue.length)` loop, with fuel.  Each iteration drains
the current queue into one batch (appending it to the order) and gathers
the ids whose in-degree reached zero as the next queue.  This matches the
source's single mutable queue: the inner `for` shifts exactly the
`batchSize` ids present at the start of the iteration, and pushes append
behind them. -/
def kahnLoop (graph : Graph) (fuel : Nat) (queue : List String)
    (ind : List (String × Int)) :
    List String × List (List String) × List (String × Int) :=
  match fuel, queue with
  | _, [] => ([], [], ind)
  | 0, _ :: _ => ([], [], ind)
  | fuel + 1, q@(_ :: _) =>
    let st := q.foldl (fun st id => processId graph st id) (ind, [])
    let rest := kahnLoop graph fuel st.2 st.1
    (q ++ rest.1, q :: rest.2.1, rest.2.2)

/-- `DagPlan` from the source. -/
structure DagPlan where
  order : List String
  batches : List (List String)
deriving DecidableEq, Repr

/-- `defaultPlanner` from the source: init, build, Kahn with batching, and
the final cycle check (`order.length !== nodes.length`, reporting the ids
with residual positive in-degree, in map order).  The fuel
`nodes.length + 1` is enough: every loop iteration with a nonempty queue
appends at least one id to the order, and no id is ever enqueued twice. -/
def defaultPlanner (nodes : List DagNode) : Except PlanError DagPlan := do
  let st0 ← plannerInit nodes
  let st ← buildGraph nodes st0
  let queue := st.2.filterMap (fun e => if e.2 = 0 then some e.1 else none)
  let res := kahnLoop st.1 (nodes.length + 1) queue st.2
  if res.1.length ≠ nodes.length then
    .error (.cycle (res.2.2.filterMap
      (fun e => if e.2 > 0 then some e.1 else none)))
  else
    .ok ⟨res.1, res.2.1⟩

/-- `r.node.config?.onError ?? "fail"` — the effective error strategy. -/
def effStrategy (node : DagNode) : ErrorStrategy :=
  (node.config.bind DagNodeConfig.onError).getD .fail

/-- The mutable per-run state threaded through the engine's batch loop. -/
structure RunState where
  ctx : Obj
  completed : List String
  failed : List String
  blocked : List String
  metrics : DagMetrics
deriving Repr

/-- What the batch loop throws: the error message together with the state
at the moment of the throw (the `catch` block in `execute` reads the
mutable `ctx` and `metrics` as they stand then). -/
abbrev Thrown := String × RunState

/-- The loop body of `blockDependents` (hoisted for the proofs): block a
not-yet-blocked dependent and recurse into it. -/
def blockStep (fuel : Nat) (nodeId : String) (nodes : List DagNode)
    (st : List String × DagMetrics) (node : DagNode) :
    List String × DagMetrics :=
  if node.dependsOn.contains nodeId ∧ ¬ st.1.contains node.id then
    blockDependents fuel node.id nodes (st.1 ++ [node.id])
      { st.2.setNode node.id ⟨0, .blocked, none⟩ with
          blockedNodes := st.2.blockedNodes + 1 }
  else st

/-- `this.nodes.get(id)!` — registry lookup by id (first match). -/
def lookupNode (nodes : List DagNode) (id : String) : Option DagNode :=
  nodes.find? (fun n => n.id = id)

/-- The runnable nodes of a batch: resolve ids in the registry and drop the
already-blocked ones. -/
def runnableOf (nodes : List DagNode) (batch : List String)
    (blocked : List String) : List DagNode :=
  (batch.filterMap (lookupNode nodes)).filter
    (fun n => ¬ blocked.contains n.id)

/-- `Promise.all(runnable.map(...))`: run every runnable node against the
same start-of-batch context snapshot, threading the shared metrics object
(each node writes only its own record; counter bumps commute). -/
def runBatchNodes (runnable : List DagNode) (ctx : Obj) (m : DagMetrics) :
    List (DagNode × Except NodeErr Obj) × DagMetrics :=
  runnable.foldl
    (fun acc n =>
      let r := runNode n ctx acc.2
      (acc.1 ++ [(n, r.1)], r.2))
    ([], m)

/-- The `for (const r of results)` policy loop: merge a success patch and
count it, handle `SkipSuccessors` by blocking dependents, and otherwise
consult the error strategy — `fail` throws (aborting the run with the
state as it stands), `skip-dependents` blocks dependents, `skip` moves
on. -/
def processResults (nodes : List DagNode)
    (results : List (DagNode × Except NodeErr Obj)) (st : RunState) :
    Except Thrown RunState :=
  results.foldlM
    (fun st r =>
      match r.2 with
      | .ok patch =>
        .ok { st with
          ctx := mergeContext st.ctx patch,
          completed := addUnique st.completed r.1.id,
          metrics := { st.metrics with
            successfulNodes := st.metrics.successfulNodes + 1 } }
      | .error (.skipSuccessors _) =>
        let bl := blockDependents (nodes.length + 1) r.1.id nodes
          st.blocked st.metrics
        .ok { st with
          completed := addUnique st.completed r.1.id,
          blocked := bl.1, metrics := bl.2 }
      | .error (.error msg) =>
        let st := { st with
          failed := addUnique st.failed r.1.id,
          metrics := { st.metrics with
            failedNodes := st.metrics.failedNodes + 1 } }
        let strategy := effStrategy r.1
        if strategy = .fail then .error (msg, st)
        else if strategy = .skipDependents then
          let bl := blockDependents (nodes.length + 1) r.1.id nodes
            st.blocked st.metrics
          .ok { st with blocked := bl.1, metrics := bl.2 }
        else .ok st)
    st

/-- One iteration of `for (const batch of this.executionPlan.batches)`. -/
def runBatch (nodes : List DagNode) (batch : List String) (st : RunState) :
    Except Thrown RunState :=
  let runnable := runnableOf nodes batch st.blocked
  let res := runBatchNodes runnable st.ctx st.metrics
  processResults nodes res.1 { st with metrics := res.2 }

/-- The whole batch loop; a `fail`-strategy throw short-circuits, so later
batches never run. -/
def runBatches (nodes : List DagNode) (batches : List (List String))
    (st : RunState) : Except Thrown RunState :=
  match batches with
  | [] => .ok st
  | b :: bs =>
    match runBatch nodes b st with
    | .error e => .error e
    | .ok st' => runBatches nodes bs st'

/-- The state at the top of the batch loop: cloned context, empty
completed/failed/blocked sets, and the fresh metrics with `totalNodes` now
set to the registry size (this assignment happens only after the plan has
been computed successfully). -/
def initState (nodes : List DagNode) (initial : Obj) : RunState :=
  { ctx := initial, completed := [], failed := [], blocked := [],
    metrics := { freshMetrics with totalNodes := nodes.length } }

/-- `DagEngine.execute`.  Clone the initial context, build fresh metrics
(`totalNodes` starts at 0), compute the plan inside the `try` (a planner
throw is caught with `totalNodes` still 0), set `totalNodes`, run the
batches, and assemble the result; any throw yields `success = false` with
the context and metrics as they stand at the throw.  The source consults a
cached plan first; the planner is pure, so the cached and fresh plans
coincide and the cache is not modelled. -/
def execute (nodes : List DagNode) (initial : Obj) : DagResult :=
  match defaultPlanner nodes with
  | .error e =>
    { success := false, context := initial, metrics := freshMetrics,
      error := some (.planError e) }
  | .ok plan =>
    match runBatches nodes plan.batches (initState nodes initial) with
    | .ok st =>
      { success := true, context := st.ctx, metrics := st.metrics }
    | .error (msg, st) =>
      { success := false, context := st.ctx, metrics := st.metrics,
        error := some (.nodeError msg) }

/-! ### Derived notions used by the statements -/

/-- The declared dependencies of the node registered under `id`. -/
def depsOf (nodes : List DagNode) (id : String) : List String :=
  match lookupNode nodes id with
  | some n => n.dependsOn
  | none => []

/-- `b` directly depends on `a`: some registered node with id `b` lists `a`
among its dependencies. -/
def DependsOn (nodes : List DagNode) (a b : String) : Prop :=
  ∃ n ∈ nodes, n.id = b ∧ a ∈ n.dependsOn

/-- `b` is a transitive dependent of `a` (a chain of one or more direct
dependencies leads from `a` up to `b`). -/
def TransDependent (nodes : List DagNode) (a b : String) : Prop :=
  Relation.TransGen (DependsOn nodes) a b

/-- A blocked set closed under taking dependents: every registered node one
of whose dependencies is blocked is itself blocked. -/
def BlockedClosed (nodes : List DagNode) (blocked : List String) : Prop :=
  ∀ n ∈ nodes, (∃ d ∈ n.dependsOn, d ∈ blocked) → n.id ∈ blocked

/-- Validity of a node set, as assumed by the claims about the planner: no
duplicate ids, every dependency registered, no self-dependency, and each
node's dependency list free of repetitions (the spec's data model declares
the dependencies of a node to be a *set* of identifiers). -/
def ValidNodeSet (nodes : List DagNode) : Prop :=
  (nodes.map DagNode.id).Nodup ∧
  (∀ n ∈ nodes, ∀ d ∈ n.dependsOn, d ∈ nodes.map DagNode.id) ∧
  (∀ n ∈ nodes, n.id ∉ n.dependsOn) ∧
  (∀ n ∈ nodes, n.dependsOn.Nodup)

/-- Acyclicity of the dependency relation, via a topological numbering:
every dependency has strictly smaller rank than its dependent.  For a
finite graph this is the standard equivalent of "no dependency cycle"
(and `planner_ok_gives_rank` below closes the circle: whenever the
planner succeeds, order positions provide such a numbering). -/
def DagAcyclic (nodes : List DagNode) : Prop :=
  ∃ rank : String → Nat, ∀ n ∈ nodes, ∀ d ∈ n.dependsOn, rank d < rank n.id

/-- A batch outcome the policy loop absorbs without throwing: a success, a
gate skip, or a failure whose strategy is not `fail`. -/
def QuietResult (r : DagNode × Except NodeErr Obj) : Prop :=
  (∃ p, r.2 = .ok p) ∨ (∃ i, r.2 = .error (.skipSuccessors i)) ∨
  (∃ m, r.2 = .error (.error m) ∧ effStrategy r.1 ≠ .fail)

/-- The successful patches among a prefix of batch results, in processing
order. -/
def okPatches (results : List (DagNode × Except NodeErr Obj)) : List Obj :=
  results.filterMap (fun r => match r.2 with | .ok p => some p | _ => none)

/-- The per-run state an `Except`-valued loop ends in, whether it returned
normally or threw (the `catch` block sees the same mutable state). -/
def stateOf (r : Except Thrown RunState) : RunState :=
  match r with
  | .ok st => st
  | .error e => e.2

/-- All nodes that declare `x` as a dependency have their ids in `S`. -/
def DependentsIn (nodes : List DagNode) (x : String) (S : List String) :
    Prop :=
  ∀ n ∈ nodes, x ∈ n.dependsOn → n.id ∈ S

/-- Every blocked node has the blocked outcome record in the metrics. -/
def BlockedRecorded (st : RunState) : Prop :=
  ∀ id ∈ st.blocked, alGet st.metrics.nodes id = some ⟨0, .blocked, none⟩

/-- The engine's standing invariant on the blocked set: no id appears
twice, the set is closed under dependents, every blocked id carries the
blocked outcome record, and the blocked counter equals the set's size
(each node was counted at most — in fact exactly — once). -/
def BlockedInv (nodes : List DagNode) (st : RunState) : Prop :=
  st.blocked.Nodup ∧ BlockedClosed nodes st.blocked ∧ BlockedRecorded st ∧
  st.metrics.blockedNodes = st.blocked.length

/-- State evolution only ever extends the blocked set and never rewrites
the metric record of an already-blocked node. -/
def BlockedStable (st st' : RunState) : Prop :=
  (∃ ext, st'.blocked = st.blocked ++ ext) ∧
  (∀ id ∈ st.blocked,
    alGet st'.metrics.nodes id = alGet st.metrics.nodes id)

/-- Full effect description of one `blockDependents` call relative to the
entry state: some fresh ids `ext` (all of them registered node ids) were
appended to the blocked set, each got the blocked outcome record, the
blocked counter grew by their number, and nothing else changed. -/
def BlockSpec (nodes : List DagNode) (blocked : List String)
    (m : DagMetrics) (r : List String × DagMetrics) : Prop :=
  ∃ ext, r.1 = blocked ++ ext ∧ r.1.Nodup ∧
    (∀ x ∈ ext, x ∈ nodes.map DagNode.id) ∧
    (∀ id, alGet r.2.nodes id =
      if id ∈ ext then some ⟨0, DagNodeStatus.blocked, none⟩
      else alGet m.nodes id) ∧
    r.2.blockedNodes = m.blockedNodes + ext.length ∧
    r.2.totalNodes = m.totalNodes ∧
    r.2.successfulNodes = m.successfulNodes ∧
    r.2.failedNodes = m.failedNodes ∧
    r.2.skippedNodes = m.skippedNodes

/-- How many registered node ids are not yet blocked (the measure showing
the `blockDependents` recursion needs no more fuel than the engine gives
it). -/
def unblockedCount (nodes : List DagNode) (S : List String) : Nat :=
  ((nodes.map DagNode.id).filter (fun x => ¬ S.contains x)).length

/-! ### Concrete node sets used in counterexamples and witnesses -/

/-- A single node whose validation hook rejects. -/
def valFalseNode : DagNode :=
  { id := "v", execute := fun _ _ => .ok [],
    validate := some (fun _ => false) }

/-- A registry whose only node names an unregistered dependency. -/
def planFailNodes : List DagNode :=
  [{ id := "a", dependsOn := ["x"], execute := fun _ _ => .ok [] }]

/-- A node whose work item succeeds but whose cleanup fails. -/
def cleanupFailNode : DagNode :=
  { id := "cl", execute := fun _ _ => .ok [("x", 1)],
    cleanup := some (fun _ => .error "cleanboom") }

/-- A dependency-free node that succeeds with the patch `{a: 1}`. -/
def okPatchNode : DagNode :=
  { id := "a", execute := fun _ _ => .ok [("a", 1)] }

/-- A dependency-free node that always fails (default `fail` strategy). -/
def failNode : DagNode :=
  { id := "f", execute := fun _ _ => .error "boom" }

/-- One batch holding a succeeding node (with a patch) followed by a node
that always fails under the default `fail` strategy. -/
def partialBatchNodes : List DagNode := [okPatchNode, failNode]

/-! ## Basic lemmas on the association-list operations -/

theorem alGet_alSet_self {α : Type} (l : List (String × α)) (k : String)
    (v : α) : alGet (alSet l k v) k = some v := by
  induction l with
  | nil => simp [alSet, alGet]
  | cons hd tl ih =>
    by_cases h : hd.1 = k <;> simp [alSet, alGet, h, ih]

theorem alGet_alSet_ne {α : Type} (l : List (String × α)) (k k' : String)
    (v : α) (h : k ≠ k') : alGet (alSet l k v) k' = alGet l k' := by
  induction l with
  | nil => simp [alSet, alGet, h]
  | cons hd tl ih =>
    rcases hd with ⟨a, b⟩
    by_cases h2 : a = k
    · subst h2
      simp only [alSet, if_pos rfl]
      simp [alGet, h]
    · simp only [alSet, if_neg h2]
      by_cases h3 : a = k' <;> simp [alGet, h3, ih]

theorem mem_addUnique (l : List String) (x y : String) :
    y ∈ addUnique l x ↔ y ∈ l ∨ y = x := by
  by_cases hx : x ∈ l
  · simp only [addUnique]
    rw [if_pos (by simpa using hx)]
    constructor
    · exact Or.inl
    · rintro (hy | rfl)
      · exact hy
      · exact hx
  · simp only [addUnique]
    rw [if_neg (by simpa using hx)]
    simp

theorem addUnique_subset (l : List String) (x : String) :
    l ⊆ addUnique l x := by
  intro y hy
  exact (mem_addUnique l x y).2 (Or.inl hy)

theorem addUnique_nodup (l : List String) (x : String) (h : l.Nodup) :
    (addUnique l x).Nodup := by
  by_cases hx : x ∈ l
  · simp only [addUnique]
    rw [if_pos (by simpa using hx)]
    exact h
  · simp only [addUnique]
    rw [if_neg (by simpa using hx)]
    simp [List.nodup_append, h, hx]

/-! ## Claim C10 — a false validation double-counts the node -/

/-- C10: for every node whose validate hook returns false (and whose gate,
if any, passes), `runNode` records a skipped outcome with zero attempts
and bumps the skipped counter, yet returns the empty patch as a success;
the engine then also bumps the successful counter for the same node, so
the four status counters can sum to more than `totalNodes` (exhibited on a
one-node registry: 1 successful + 1 skipped > 1 total). -/
theorem validate_false_double_counts :
    (∀ (node : DagNode) (ctx : Obj) (m : DagMetrics) (f : Obj → Bool),
      (node.shouldRun = none ∨ ∃ g, node.shouldRun = some g ∧ g ctx = true) →
      node.validate = some f → f ctx = false →
      runNode node ctx m =
        (.ok [], { m.setNode node.id ⟨0, .skipped, none⟩ with
            skippedNodes := m.skippedNodes + 1 })) ∧
    ((execute [valFalseNode] []).metrics.skippedNodes = 1 ∧
     (execute [valFalseNode] []).metrics.successfulNodes = 1 ∧
     (execute [valFalseNode] []).metrics.totalNodes = 1 ∧
     alGet (execute [valFalseNode] []).metrics.nodes "v" =
       some ⟨0, .skipped, none⟩ ∧
     (execute [valFalseNode] []).metrics.successfulNodes +
       (execute [valFalseNode] []).metrics.failedNodes +
       (execute [valFalseNode] []).metrics.skippedNodes +
       (execute [valFalseNode] []).metrics.blockedNodes >
       (execute [valFalseNode] []).metrics.totalNodes) := by
  constructor
  · intro node ctx m f hgate hval hfalse
    rcases hgate with hnone | ⟨g, hg, hgt⟩
    · simp [runNode, hnone, runNodeAfterGate, hval, hfalse]
    · simp [runNode, hg, hgt, runNodeAfterGate, hval, hfalse]
  · refine ⟨by decide, by decide, by decide, by decide, by decide⟩

/-- Witness for C10's hypotheses at a concrete input. -/
theorem validate_false_double_counts_witness :
    runNode valFalseNode [] freshMetrics =
      (.ok [], { freshMetrics.setNode valFalseNode.id ⟨0, .skipped, none⟩ with
          skippedNodes := freshMetrics.skippedNodes + 1 }) :=
  validate_false_double_counts.1 valFalseNode [] freshMetrics
    (fun _ => false) (Or.inl rfl) rfl rfl

/-! ## Claim C8 — a plan failure at the start of `execute` -/

/-- C8 counterexample: when the plan fails, the returned metrics have
`totalNodes = 0`, not the registry size (here 1): `totalNodes` is assigned
only after the planner has returned, and a planner throw skips the
assignment.  The rest of the claim holds: `success = false`, the raised
plan error is carried, the context is the untouched initial context, and
no node ran (no records, all counters zero). -/
theorem plan_failure_totalNodes_cex :
    (execute planFailNodes [("k", 9)]).metrics.totalNodes = 0 ∧
    planFailNodes.length = 1 ∧
    execute planFailNodes [("k", 9)] =
      { success := false, context := [("k", 9)], metrics := freshMetrics,
        error := some (.planError (.missingDep "a" "x")) } := by
  refine ⟨by decide, by decide, by decide⟩

/-- C8 as amended: when plan computation fails, `execute` returns
`success = false`, the raised plan error, the unmodified initial context,
and the untouched fresh metrics — whose `totalNodes` is still 0 (the
assignment `metrics.totalNodes = nodes.length` sits after the planner call
inside the `try`), with zero counters and no per-node records, so no node
was executed. -/
theorem plan_failure_result (nodes : List DagNode) (initial : Obj)
    (e : PlanError) (h : defaultPlanner nodes = .error e) :
    execute nodes initial =
      { success := false, context := initial, metrics := freshMetrics,
        error := some (.planError e) } := by
  unfold execute
  rw [h]

/-- Witness for C8's amended theorem at a concrete input. -/
theorem plan_failure_result_witness :
    execute planFailNodes [("k", 9)] =
      { success := false, context := [("k", 9)], metrics := freshMetrics,
        error := some (.planError (.missingDep "a" "x")) } :=
  plan_failure_result planFailNodes [("k", 9)] (.missingDep "a" "x") rfl

/-! ## Claim C2 — a cleanup failure is escalated -/

/-- C2 counterexample: a node whose work item succeeds but whose cleanup
rejects.  JS `finally` semantics make the cleanup error replace the
returned patch, the engine counts the node as failed, and under the
default `fail` strategy the whole run fails with the cleanup error — while
the node's recorded outcome still says `success`. -/
theorem cleanup_failure_escalates_cex :
    (execute [cleanupFailNode] []).success = false ∧
    (execute [cleanupFailNode] []).error = some (.nodeError "cleanboom") ∧
    (execute [cleanupFailNode] []).metrics.failedNodes = 1 ∧
    alGet (execute [cleanupFailNode] []).metrics.nodes "cl" =
      some ⟨1, .success, none⟩ := by
  refine ⟨by decide, by decide, by decide, by decide⟩

/-- C2 as amended: a failure raised by cleanup does not change the node's
recorded outcome (the metric record written inside the `try` block stays),
but — because the `await` sits in a `finally` block — it replaces the
node's execution result (patch or error) with the cleanup error, which the
engine then processes as a node failure subject to the node's error
strategy; under `fail` it makes the run fail (see the counterexample). -/
theorem cleanup_failure_replaces_result (node : DagNode) (ctx : Obj)
    (m : DagMetrics) (cl : Obj → Except String Unit) (ce : String)
    (h1 : node.cleanup = some cl) (h2 : cl ctx = .error ce) :
    runNodeAttempts node ctx m =
      (.error (.error ce),
        (runNodeAttempts { node with cleanup := none } ctx m).2) := by
  simp only [runNodeAttempts, h1, h2]

/-- Witness for C2's amended theorem at a concrete input. -/
theorem cleanup_failure_replaces_result_witness :
    runNodeAttempts cleanupFailNode [] freshMetrics =
      (.error (.error "cleanboom"),
        (runNodeAttempts { cleanupFailNode with cleanup := none }
          [] freshMetrics).2) :=
  cleanup_failure_replaces_result cleanupFailNode [] freshMetrics
    (fun _ => .error "cleanboom") "cleanboom" rfl rfl

/-! ## Claim C1 — the `fail` strategy aborts the run -/

theorem runBatches_cons_error (nodes : List DagNode) (b : List String)
    (bs : List (List String)) (st : RunState) (e : Thrown)
    (h : runBatch nodes b st = .error e) :
    runBatches nodes (b :: bs) st = .error e := by
  simp [runBatches, h]

theorem execute_of_runBatches_error (nodes : List DagNode) (initial : Obj)
    (plan : DagPlan) (msg : String) (st' : RunState)
    (h1 : defaultPlanner nodes = .ok plan)
    (h2 : runBatches nodes plan.batches (initState nodes initial) =
      .error (msg, st')) :
    execute nodes initial =
      { success := false, context := st'.ctx, metrics := st'.metrics,
        error := some (.nodeError msg) } := by
  simp [execute, h1, h2]

theorem except_error_bind {E A B : Type} (e : E) (f : A → Except E B) :
    (Except.error e >>= f) = Except.error e := rfl

theorem except_ok_bind {E A B : Type} (a : A) (f : A → Except E B) :
    (Except.ok a >>= f : Except E B) = f a := rfl

/-- Processing a batch whose prefix is absorbed quietly and then meets a
failing node with the `fail` strategy throws that node's error, with the
context as merged so far: the start-of-batch context plus the patches of
the successful results processed before the failing one. -/
theorem processResults_fail_throw (nodes : List DagNode)
    (pre : List (DagNode × Except NodeErr Obj)) (nd : DagNode)
    (msg : String) (post : List (DagNode × Except NodeErr Obj))
    (hfail : effStrategy nd = .fail) :
    ∀ st : RunState, (∀ r ∈ pre, QuietResult r) →
    ∃ st', processResults nodes
        (pre ++ (nd, .error (.error msg)) :: post) st = .error (msg, st') ∧
      st'.ctx = (okPatches pre).foldl mergeContext st.ctx := by
  induction pre with
  | nil =>
    intro st _
    refine ⟨{ st with failed := addUnique st.failed nd.id,
                      metrics := { st.metrics with
                        failedNodes := st.metrics.failedNodes + 1 } }, ?_, ?_⟩
    · simp [processResults, List.foldlM_cons, hfail, except_error_bind]
    · simp [okPatches]
  | cons r pre ih =>
    intro st hq
    have hqrest : ∀ x ∈ pre, QuietResult x := fun x hx => hq x (by simp [hx])
    rcases hq r (by simp) with ⟨p, hp⟩ | ⟨i, hi⟩ | ⟨m', hm', hstrat⟩
    · obtain ⟨st', heq, hctx⟩ := ih
        { st with
            ctx := mergeContext st.ctx p,
            completed := addUnique st.completed r.1.id,
            metrics := { st.metrics with
              successfulNodes := st.metrics.successfulNodes + 1 } } hqrest
      refine ⟨st', ?_, ?_⟩
      · simpa [processResults, List.foldlM_cons, hp, except_ok_bind] using heq
      · simpa [okPatches, hp] using hctx
    · obtain ⟨st', heq, hctx⟩ := ih
        { st with
          completed := addUnique st.completed r.1.id,
          blocked := (blockDependents (nodes.length + 1) r.1.id nodes
            st.blocked st.metrics).1,
          metrics := (blockDependents (nodes.length + 1) r.1.id nodes
            st.blocked st.metrics).2 } hqrest
      refine ⟨st', ?_, ?_⟩
      · simpa [processResults, List.foldlM_cons, hi, except_ok_bind] using heq
      · simpa [okPatches, hi] using hctx
    · rcases hs : effStrategy r.1 with _ | _ | _
      · exact absurd hs hstrat
      · obtain ⟨st', heq, hctx⟩ := ih
          { st with
            failed := addUnique st.failed r.1.id,
            metrics := { st.metrics with
              failedNodes := st.metrics.failedNodes + 1 } } hqrest
        refine ⟨st', ?_, ?_⟩
        · simpa [processResults, List.foldlM_cons, hm', hs, except_ok_bind] using heq
        · simpa [okPatches, hm'] using hctx
      · obtain ⟨st', heq, hctx⟩ := ih
          { st with
            failed := addUnique st.failed r.1.id,
            blocked := (blockDependents (nodes.length + 1) r.1.id nodes
              st.blocked { st.metrics with
                failedNodes := st.metrics.failedNodes + 1 }).1,
            metrics := (blockDependents (nodes.length + 1) r.1.id nodes
              st.blocked { st.metrics with
                failedNodes := st.metrics.failedNodes + 1 }).2 } hqrest
        refine ⟨st', ?_, ?_⟩
        · simpa [processResults, List.foldlM_cons, hm', hs, except_ok_bind] using heq
        · simpa [okPatches, hm'] using hctx

/-- C1 counterexample: both nodes share the one and only batch, the second
fails under the default `fail` strategy — yet the result's context contains
the first node's patch, although no batch was fully processed (the claim
promises the context "as merged through the last fully processed batch",
i.e. the untouched initial context `[]`). -/
theorem fail_strategy_partial_batch_cex :
    defaultPlanner partialBatchNodes = .ok ⟨["a", "f"], [["a", "f"]]⟩ ∧
    (execute partialBatchNodes []).success = false ∧
    (execute partialBatchNodes []).error = some (.nodeError "boom") ∧
    (execute partialBatchNodes []).context = [("a", 1)] ∧
    ([("a", 1)] : Obj) ≠ [] := by
  refine ⟨rfl, by decide, by decide, by decide, by decide⟩

/-- C1 as amended: when a node with effective strategy `fail` reaches a
terminal failure, the run aborts immediately — the remaining batches never
run and the result is independent of them — with `success = false` and the
triggering error; the result's context is the context as merged through
the last fully processed batch *plus the patches of the successful results
of the failing batch that were processed before the failing node*. -/
theorem fail_strategy_aborts :
    (∀ (nodes : List DagNode) (b : List String) (bs : List (List String))
      (st : RunState) (e : Thrown), runBatch nodes b st = .error e →
        runBatches nodes (b :: bs) st = .error e) ∧
    (∀ (nodes : List DagNode) (initial : Obj) (plan : DagPlan)
      (msg : String) (st' : RunState), defaultPlanner nodes = .ok plan →
        runBatches nodes plan.batches (initState nodes initial) =
          .error (msg, st') →
        execute nodes initial =
          { success := false, context := st'.ctx, metrics := st'.metrics,
            error := some (.nodeError msg) }) ∧
    (∀ (nodes : List DagNode) (pre : List (DagNode × Except NodeErr Obj))
      (nd : DagNode) (msg : String)
      (post : List (DagNode × Except NodeErr Obj)) (st : RunState),
        (∀ r ∈ pre, QuietResult r) → effStrategy nd = .fail →
        ∃ st', processResults nodes
            (pre ++ (nd, .error (.error msg)) :: post) st =
            .error (msg, st') ∧
          st'.ctx = (okPatches pre).foldl mergeContext st.ctx) :=
  ⟨runBatches_cons_error, execute_of_runBatches_error,
    fun nodes pre nd msg post st hq hf =>
      processResults_fail_throw nodes pre nd msg post hf st hq⟩

/-- Witness for C1's amended theorem at a concrete input. -/
theorem fail_strategy_aborts_witness :
    ∃ st', processResults partialBatchNodes
        ([(okPatchNode, .ok [("a", 1)])] ++
          (failNode, .error (.error "boom")) :: [])
        (initState partialBatchNodes []) = .error ("boom", st') ∧
      st'.ctx = (okPatches [(okPatchNode, .ok [("a", 1)])]).foldl
        mergeContext (initState partialBatchNodes []).ctx :=
  fail_strategy_aborts.2.2 partialBatchNodes [(okPatchNode, .ok [("a", 1)])]
    failNode "boom" [] (initState partialBatchNodes [])
    (by
      intro r hr
      simp only [List.mem_singleton] at hr
      subst hr
      exact Or.inl ⟨[("a", 1)], rfl⟩)
    rfl

/-! ## Lemmas about `blockDependents` -/

theorem blockSpec_refl (nodes : List DagNode) (blocked : List String)
    (m : DagMetrics) (h : blocked.Nodup) :
    BlockSpec nodes blocked m (blocked, m) := by
  refine ⟨[], by simp, by simpa using h, by simp, ?_, by simp, rfl, rfl,
    rfl, rfl⟩
  intro id
  simp

theorem blockSpec_comp (nodes : List DagNode) (blocked : List String)
    (m : DagMetrics) (st : List String × DagMetrics)
    (r : List String × DagMetrics) (h1 : BlockSpec nodes blocked m st)
    (h2 : BlockSpec nodes st.1 st.2 r) :
    BlockSpec nodes blocked m r := by
  obtain ⟨e1, hb1, hn1, hm1, hg1, hc1, ht1, hs1, hf1, hk1⟩ := h1
  obtain ⟨e2, hb2, hn2, hm2, hg2, hc2, ht2, hs2, hf2, hk2⟩ := h2
  refine ⟨e1 ++ e2, ?_, ?_, ?_, ?_, ?_, ?_, ?_, ?_, ?_⟩
  · rw [hb2, hb1, List.append_assoc]
  · exact hn2
  · intro x hx
    rcases List.mem_append.1 hx with hx | hx
    · exact hm1 x hx
    · exact hm2 x hx
  · intro id
    rw [hg2 id]
    by_cases h2' : id ∈ e2
    · simp [h2', List.mem_append]
    · rw [if_neg h2', hg1 id]
      by_cases h1' : id ∈ e1 <;> simp [h1', h2', List.mem_append]
  · rw [hc2, hc1]
    simp [Nat.add_assoc]
  · rw [ht2, ht1]
  · rw [hs2, hs1]
  · rw [hf2, hf1]
  · rw [hk2, hk1]

theorem blockSpec_push (nodes : List DagNode) (blocked : List String)
    (m : DagMetrics) (n : DagNode) (hn : n ∈ nodes)
    (hnb : n.id ∉ blocked) (hnodup : blocked.Nodup) :
    BlockSpec nodes blocked m (blocked ++ [n.id],
      { m.setNode n.id ⟨0, .blocked, none⟩ with
          blockedNodes := m.blockedNodes + 1 }) := by
  refine ⟨[n.id], rfl, ?_, ?_, ?_, by simp, rfl, rfl, rfl, rfl⟩
  · simp [List.nodup_append, hnodup, hnb]
  · intro x hx
    simp only [List.mem_singleton] at hx
    subst hx
    exact List.mem_map_of_mem DagNode.id hn
  · intro id
    by_cases h : id = n.id
    · subst h
      simp [DagMetrics.setNode, alGet_alSet_self]
    · simp only [List.mem_singleton, h, if_false]
      exact alGet_alSet_ne m.nodes n.id id _ (fun h' => h h'.symm)

/-- The core effect lemma: any `blockDependents` call only extends the
blocked set with fresh registered ids, tags exactly those with the blocked
record, and bumps only the blocked counter, by exactly their number. -/
theorem blockDependents_spec (fuel : Nat) :
    ∀ (nid : String) (nodes : List DagNode) (blocked : List String)
      (m : DagMetrics), blocked.Nodup →
      BlockSpec nodes blocked m (blockDependents fuel nid nodes blocked m) := by
  induction fuel with
  | zero =>
    intro nid nodes blocked m h
    exact blockSpec_refl nodes blocked m h
  | succ fuel ih =>
    intro nid nodes blocked m h
    have aux : ∀ ns : List DagNode, (∀ n ∈ ns, n ∈ nodes) →
        ∀ st : List String × DagMetrics, BlockSpec nodes blocked m st →
        BlockSpec nodes blocked m (ns.foldl
          (fun st node =>
            if node.dependsOn.contains nid ∧ ¬ st.1.contains node.id then
              blockDependents fuel node.id nodes (st.1 ++ [node.id])
                { st.2.setNode node.id ⟨0, .blocked, none⟩ with
                    blockedNodes := st.2.blockedNodes + 1 }
            else st) st) := by
      intro ns
      induction ns with
      | nil => intro _ st hst; simpa using hst
      | cons n ns ihn =>
        intro hsub st hst
        have hn : n ∈ nodes := hsub n (by simp)
        have hsub' : ∀ x ∈ ns, x ∈ nodes := fun x hx => hsub x (by simp [hx])
        simp only [List.foldl_cons]
        by_cases hc : n.dependsOn.contains nid ∧ ¬ st.1.contains n.id
        · rw [if_pos hc]
          have hstnodup : st.1.Nodup := by
            obtain ⟨e, hb, hnd, _⟩ := hst
            exact hnd
          have hnotin : n.id ∉ st.1 := by
            have := hc.2
            simpa using this
          have hpush := blockSpec_push nodes st.1 st.2 n hn hnotin hstnodup
          have hrec := ih n.id nodes (st.1 ++ [n.id])
            { st.2.setNode n.id ⟨0, .blocked, none⟩ with
                blockedNodes := st.2.blockedNodes + 1 }
            (by
              obtain ⟨e, hb, hnd, _⟩ := hpush
              simpa [hb] using hnd)
          have hstep : BlockSpec nodes st.1 st.2
              (blockDependents fuel n.id nodes (st.1 ++ [n.id])
                { st.2.setNode n.id ⟨0, .blocked, none⟩ with
                    blockedNodes := st.2.blockedNodes + 1 }) :=
            blockSpec_comp nodes st.1 st.2 _ _ hpush hrec
          exact ihn hsub' _ (blockSpec_comp nodes blocked m st _ hst hstep)
        · rw [if_neg hc]
          exact ihn hsub' st hst
    have h0 : BlockSpec nodes blocked m (blocked, m) :=
      blockSpec_refl nodes blocked m h
    simpa [blockDependents] using
      aux nodes (fun _ hx => hx) (blocked, m) h0

theorem filter_length_mono (p q : String → Bool)
    (h : ∀ x, q x = true → p x = true) :
    ∀ l : List String, (l.filter q).length ≤ (l.filter p).length := by
  intro l
  induction l with
  | nil => simp
  | cons a l ihl =>
    by_cases hq : q a = true
    · simp [List.filter_cons, hq, h a hq, Nat.succ_le_succ ihl]
    · have hq' : q a = false := by simpa using hq
      by_cases hp : p a = true
      · simp only [List.filter_cons, hq', hp]
        simp only [Bool.false_eq_true, if_false, if_true, List.length_cons]
        exact Nat.le_succ_of_le ihl
      · have hp' : p a = false := by simpa using hp
        simp [List.filter_cons, hq', hp', ihl]

theorem filter_length_lt (p q : String → Bool)
    (h : ∀ x, q x = true → p x = true) :
    ∀ l : List String, ∀ y ∈ l, p y = true → q y = false →
      (l.filter q).length < (l.filter p).length := by
  intro l
  induction l with
  | nil => intro y hy; simp at hy
  | cons a l ihl =>
    intro y hy hp hq
    rcases List.mem_cons.1 hy with rfl | hy'
    · simp only [List.filter_cons, hq, hp]
      simp only [Bool.false_eq_true, if_false, if_true, List.length_cons]
      exact Nat.lt_succ_of_le (filter_length_mono p q h l)
    · have hlt := ihl y hy' hp hq
      by_cases hqa : q a = true
      · simp [List.filter_cons, hqa, h a hqa, Nat.succ_lt_succ hlt]
      · have hqa' : q a = false := by simpa using hqa
        by_cases hpa : p a = true
        · simp only [List.filter_cons, hqa', hpa]
          simp only [Bool.false_eq_true, if_false, if_true, List.length_cons]
          exact Nat.lt_succ_of_lt hlt
        · have hpa' : p a = false := by simpa using hpa
          simp [List.filter_cons, hqa', hpa', hlt]

theorem unblockedCount_mono (nodes : List DagNode) (S S' : List String)
    (h : S ⊆ S') : unblockedCount nodes S' ≤ unblockedCount nodes S := by
  apply filter_length_mono
  intro x hx
  simp only [decide_eq_true_eq] at hx ⊢
  intro hmem
  apply hx
  have hxS : x ∈ S := by simpa using hmem
  simpa using h hxS

theorem unblockedCount_push_lt (nodes : List DagNode) (S : List String)
    (y : String) (hy : y ∈ nodes.map DagNode.id) (hnot : y ∉ S) :
    unblockedCount nodes (S ++ [y]) < unblockedCount nodes S := by
  apply filter_length_lt
  · intro x hx
    simp only [decide_eq_true_eq] at hx ⊢
    intro hmem
    apply hx
    have hxS : x ∈ S := by simpa using hmem
    simp [List.mem_append, hxS]
  · exact hy
  · simpa using hnot
  · simp

theorem dependentsIn_mono (nodes : List DagNode) (x : String)
    (S S' : List String) (h : S ⊆ S') (hd : DependentsIn nodes x S) :
    DependentsIn nodes x S' :=
  fun n hn hx => h (hd n hn hx)

theorem blockDependents_succ (fuel : Nat) (nid : String)
    (nodes : List DagNode) (blocked : List String) (m : DagMetrics) :
    blockDependents (fuel + 1) nid nodes blocked m =
      nodes.foldl (blockStep fuel nid nodes) (blocked, m) := rfl

/-- With enough fuel, `blockDependents nid` blocks every direct dependent
of `nid`, and every id it has ever blocked has all of its own dependents
blocked as well. -/
theorem blockDependents_complete (fuel : Nat) :
    ∀ (nid : String) (nodes : List DagNode) (blocked : List String)
      (m : DagMetrics), blocked.Nodup →
      unblockedCount nodes blocked < fuel →
      DependentsIn nodes nid (blockDependents fuel nid nodes blocked m).1 ∧
      (∀ x ∈ (blockDependents fuel nid nodes blocked m).1, x ∈ blocked ∨
        DependentsIn nodes x (blockDependents fuel nid nodes blocked m).1) := by
  induction fuel with
  | zero => intro nid nodes blocked m _ hc; exact absurd hc (by omega)
  | succ fuel ih =>
    intro nid nodes blocked m hnodup hcount
    have aux : ∀ ns : List DagNode, (∀ n ∈ ns, n ∈ nodes) →
        ∀ st : List String × DagMetrics,
          BlockSpec nodes blocked m st →
          (∀ x ∈ st.1, x ∈ blocked ∨ DependentsIn nodes x st.1) →
          (∃ e2, (ns.foldl (blockStep fuel nid nodes) st).1 = st.1 ++ e2) ∧
          (∀ n ∈ ns, n.dependsOn.contains nid →
            n.id ∈ (ns.foldl (blockStep fuel nid nodes) st).1) ∧
          (∀ x ∈ (ns.foldl (blockStep fuel nid nodes) st).1, x ∈ blocked ∨
            DependentsIn nodes x
              (ns.foldl (blockStep fuel nid nodes) st).1) ∧
          BlockSpec nodes blocked m
            (ns.foldl (blockStep fuel nid nodes) st) := by
      intro ns
      induction ns with
      | nil =>
        intro _ st hspec hinv
        exact ⟨⟨[], by simp⟩, by simp, by simpa using hinv, by simpa using hspec⟩
      | cons n ns ihn =>
        intro hsub st hspec hinv
        have hn : n ∈ nodes := hsub n (by simp)
        have hsub' : ∀ x ∈ ns, x ∈ nodes := fun x hx => hsub x (by simp [hx])
        simp only [List.foldl_cons]
        by_cases hc : n.dependsOn.contains nid ∧ ¬ st.1.contains n.id
        · have hstnodup : st.1.Nodup := by
            obtain ⟨e, hb, hnd, _⟩ := hspec
            exact hnd
          have hnotin : n.id ∉ st.1 := by simpa using hc.2
          have hstep_eq : blockStep fuel nid nodes st n =
              blockDependents fuel n.id nodes (st.1 ++ [n.id])
                { st.2.setNode n.id ⟨0, .blocked, none⟩ with
                    blockedNodes := st.2.blockedNodes + 1 } := by
            unfold blockStep
            rw [if_pos hc]
          have hpush := blockSpec_push nodes st.1 st.2 n hn hnotin hstnodup
          have hnodup1 : (st.1 ++ [n.id]).Nodup := by
            obtain ⟨e, hb, hnd, _⟩ := hpush
            simpa [hb] using hnd
          have hsubblocked : blocked ⊆ st.1 := by
            obtain ⟨e, hb, _⟩ := hspec
            intro x hx
            simp [hb, List.mem_append, hx]
          have hcount1 : unblockedCount nodes (st.1 ++ [n.id]) < fuel := by
            have h1 := unblockedCount_mono nodes blocked st.1 hsubblocked
            have h2 := unblockedCount_push_lt nodes st.1 n.id
              (List.mem_map_of_mem DagNode.id hn) hnotin
            omega
          have hrec := ih n.id nodes (st.1 ++ [n.id])
            { st.2.setNode n.id ⟨0, .blocked, none⟩ with
                blockedNodes := st.2.blockedNodes + 1 } hnodup1 hcount1
          have hspec1 := blockDependents_spec fuel n.id nodes (st.1 ++ [n.id])
            { st.2.setNode n.id ⟨0, .blocked, none⟩ with
                blockedNodes := st.2.blockedNodes + 1 } hnodup1
          rw [hstep_eq]
          set st1 := blockDependents fuel n.id nodes (st.1 ++ [n.id])
            { st.2.setNode n.id ⟨0, .blocked, none⟩ with
                blockedNodes := st.2.blockedNodes + 1 } with hst1
          have hmono1 : st.1 ++ [n.id] ⊆ st1.1 := by
            obtain ⟨e, hb, _⟩ := hspec1
            intro x hx
            rcases List.mem_append.1 hx with h | h
            · simp [hb, List.mem_append, h]
            · simp only [List.mem_singleton] at h
              simp [hb, List.mem_append, h]
          have hspec_st1 : BlockSpec nodes blocked m st1 :=
            blockSpec_comp nodes blocked m st st1 hspec
              (blockSpec_comp nodes st.1 st.2 _ st1 hpush hspec1)
          have hinv1 : ∀ x ∈ st1.1, x ∈ blocked ∨
              DependentsIn nodes x st1.1 := by
            intro x hx
            rcases hrec.2 x hx with hx' | hdep
            · rcases List.mem_append.1 hx' with hx'' | hx''
              · rcases hinv x hx'' with hb | hd
                · exact Or.inl hb
                · exact Or.inr (dependentsIn_mono nodes x st.1 st1.1
                    (fun z hz => hmono1 (by simp [List.mem_append, hz])) hd)
              · simp only [List.mem_singleton] at hx''
                subst hx''
                exact Or.inr hrec.1
            · exact Or.inr hdep
          obtain ⟨hext, hpref, hinvf, hspecf⟩ := ihn hsub' st1 hspec_st1 hinv1
          refine ⟨?_, ?_, hinvf, hspecf⟩
          · obtain ⟨e2, he2⟩ := hext
            obtain ⟨e3, hb3, _⟩ := hspec1
            exact ⟨[n.id] ++ e3 ++ e2, by
              rw [he2, hb3]
              simp [List.append_assoc]⟩
          · intro n' hn' hdep
            rcases List.mem_cons.1 hn' with rfl | hn''
            · obtain ⟨e2, he2⟩ := hext
              have : n'.id ∈ st1.1 := hmono1 (by simp)
              rw [he2]
              simp [List.mem_append, this]
            · exact hpref n' hn'' hdep
        · have hstep_eq : blockStep fuel nid nodes st n = st := by
            simp only [blockStep, if_neg hc]
          rw [hstep_eq]
          obtain ⟨hext, hpref, hinvf, hspecf⟩ := ihn hsub' st hspec hinv
          refine ⟨hext, ?_, hinvf, hspecf⟩
          intro n' hn' hdep
          rcases List.mem_cons.1 hn' with rfl | hn''
          · have hin : n'.id ∈ st.1 := by
              by_contra hcon
              exact hc ⟨hdep, by simpa using hcon⟩
            obtain ⟨e2, he2⟩ := hext
            rw [he2]
            simp [List.mem_append, hin]
          · exact hpref n' hn'' hdep
    have h0 := aux nodes (fun _ hx => hx) (blocked, m)
      (blockSpec_refl nodes blocked m hnodup)
      (fun x hx => Or.inl hx)
    rw [blockDependents_succ]
    obtain ⟨_, hpref, hinvf, _⟩ := h0
    refine ⟨?_, hinvf⟩
    intro n hn hdep
    exact hpref n hn (by simpa using hdep)

/-! ## Frame lemmas about `runNode` -/

theorem runNodeAttempts_metrics (node : DagNode) (ctx : Obj)
    (m : DagMetrics) : ∃ rec : DagNodeMetrics,
    (runNodeAttempts node ctx m).2 = m.setNode node.id rec := by
  unfold runNodeAttempts
  rcases hres : (attemptLoop (fun i => node.execute i ctx) 0
      ((node.config.bind DagNodeConfig.maxRetries).getD 0) 0).2 with e | p
  · refine ⟨⟨(attemptLoop (fun i => node.execute i ctx) 0
      ((node.config.bind DagNodeConfig.maxRetries).getD 0) 0).1,
      .failed, some e⟩, ?_⟩
    rcases hcl : node.cleanup with _ | cl
    · simp [hres, hcl]
    · rcases hc : cl ctx with ce | u <;> simp [hres, hcl, hc]
  · refine ⟨⟨(attemptLoop (fun i => node.execute i ctx) 0
      ((node.config.bind DagNodeConfig.maxRetries).getD 0) 0).1,
      .success, none⟩, ?_⟩
    rcases hcl : node.cleanup with _ | cl
    · simp [hres, hcl]
    · rcases hc : cl ctx with ce | u <;> simp [hres, hcl, hc]

theorem runNode_metrics (node : DagNode) (ctx : Obj) (m : DagMetrics) :
    ∃ (rec : DagNodeMetrics) (b : Nat), (runNode node ctx m).2 =
      { m.setNode node.id rec with
          skippedNodes := m.skippedNodes + b } := by
  have hafter : ∀ mm : DagMetrics, ∃ (rec : DagNodeMetrics) (b : Nat),
      (runNodeAfterGate node ctx mm).2 =
        { mm.setNode node.id rec with
            skippedNodes := mm.skippedNodes + b } := by
    intro mm
    unfold runNodeAfterGate
    rcases hv : node.validate with _ | val
    · obtain ⟨rec, hrec⟩ := runNodeAttempts_metrics node ctx mm
      exact ⟨rec, 0, by simp [hrec, DagMetrics.setNode]⟩
    · by_cases hval : val ctx
      · simp only [hval, if_true]
        obtain ⟨rec, hrec⟩ := runNodeAttempts_metrics node ctx mm
        exact ⟨rec, 0, by simp [hrec, DagMetrics.setNode]⟩
      · exact ⟨⟨0, .skipped, none⟩, 1, by simp [hval]⟩
  unfold runNode
  rcases hg : node.shouldRun with _ | gate
  · exact hafter m
  · by_cases hgt : gate ctx
    · simp only [hgt, if_true]
      exact hafter m
    · exact ⟨⟨0, .skipped, none⟩, 1, by simp [hgt]⟩

theorem runNode_frame (node : DagNode) (ctx : Obj) (m : DagMetrics) :
    (∀ id, id ≠ node.id →
      alGet (runNode node ctx m).2.nodes id = alGet m.nodes id) ∧
    (runNode node ctx m).2.blockedNodes = m.blockedNodes ∧
    (runNode node ctx m).2.totalNodes = m.totalNodes ∧
    (runNode node ctx m).2.successfulNodes = m.successfulNodes ∧
    (runNode node ctx m).2.failedNodes = m.failedNodes := by
  obtain ⟨rec, b, h⟩ := runNode_metrics node ctx m
  rw [h]
  refine ⟨?_, rfl, rfl, rfl, rfl⟩
  intro id hid
  simp only [DagMetrics.setNode]
  exact alGet_alSet_ne m.nodes node.id id rec (fun h' => hid h'.symm)

/-- The visible result of `runNode` does not depend on the metrics object
threaded through it (the source mutates `metrics` but only reads `node`
and `ctx`). -/
theorem runNode_fst_indep (node : DagNode) (ctx : Obj)
    (m m' : DagMetrics) : (runNode node ctx m).1 = (runNode node ctx m').1 := by
  have hattempts : ∀ mm mm' : DagMetrics,
      (runNodeAttempts node ctx mm).1 = (runNodeAttempts node ctx mm').1 := by
    intro mm mm'
    unfold runNodeAttempts
    rcases hres : (attemptLoop (fun i => node.execute i ctx) 0
        ((node.config.bind DagNodeConfig.maxRetries).getD 0) 0).2 with p | e <;>
      rcases hcl : node.cleanup with _ | cl <;>
        simp [hres, hcl] <;> rcases hc : cl ctx with u | ce <;> simp [hc]
  have hafter : ∀ mm mm' : DagMetrics,
      (runNodeAfterGate node ctx mm).1 = (runNodeAfterGate node ctx mm').1 := by
    intro mm mm'
    unfold runNodeAfterGate
    rcases hv : node.validate with _ | val
    · exact hattempts mm mm'
    · by_cases hval : val ctx <;> simp [hval, hattempts mm mm']
  unfold runNode
  rcases hg : node.shouldRun with _ | gate
  · exact hafter m m'
  · by_cases hgt : gate ctx <;> simp [hgt, hafter m m']

/-! ## The batch fan-out and the blocked-set invariant -/

theorem runBatchNodes_metrics_eq (ctx : Obj) :
    ∀ (runnable : List DagNode)
      (acc : List (DagNode × Except NodeErr Obj)) (m : DagMetrics),
      (runnable.foldl
        (fun acc n =>
          let r := runNode n ctx acc.2
          (acc.1 ++ [(n, r.1)], r.2)) (acc, m)).2 =
      runnable.foldl (fun mm n => (runNode n ctx mm).2) m := by
  intro runnable
  induction runnable with
  | nil => intro acc m; rfl
  | cons n ns ihn => intro acc m; simp only [List.foldl_cons]; exact ihn _ _

theorem runBatchNodes_frame (runnable : List DagNode) (ctx : Obj)
    (m : DagMetrics) :
    (∀ id, id ∉ runnable.map DagNode.id →
      alGet (runBatchNodes runnable ctx m).2.nodes id = alGet m.nodes id) ∧
    (runBatchNodes runnable ctx m).2.blockedNodes = m.blockedNodes := by
  have h : (runBatchNodes runnable ctx m).2 =
      runnable.foldl (fun mm n => (runNode n ctx mm).2) m :=
    runBatchNodes_metrics_eq ctx runnable [] m
  rw [h]
  clear h
  induction runnable generalizing m with
  | nil => exact ⟨fun id _ => rfl, rfl⟩
  | cons n ns ihn =>
    simp only [List.foldl_cons]
    obtain ⟨hframe, hblocked, _⟩ := runNode_frame n ctx m
    obtain ⟨ihf, ihb⟩ := ihn (runNode n ctx m).2
    refine ⟨?_, by rw [ihb, hblocked]⟩
    intro id hid
    have hidn : id ≠ n.id := by
      intro h'
      exact hid (by simp [h'])
    have hidns : id ∉ ns.map DagNode.id := fun h' => hid (by simp [h'])
    rw [ihf id hidns, hframe id hidn]

theorem blockedStable_refl (st : RunState) : BlockedStable st st :=
  ⟨⟨[], by simp⟩, fun _ _ => rfl⟩

theorem blockedStable_trans (a b c : RunState) (h1 : BlockedStable a b)
    (h2 : BlockedStable b c) : BlockedStable a c := by
  obtain ⟨⟨e1, he1⟩, hr1⟩ := h1
  obtain ⟨⟨e2, he2⟩, hr2⟩ := h2
  refine ⟨⟨e1 ++ e2, by rw [he2, he1, List.append_assoc]⟩, ?_⟩
  intro id hid
  have hidb : id ∈ b.blocked := by rw [he1]; simp [List.mem_append, hid]
  rw [hr2 id hidb, hr1 id hid]

/-- Effect of one `blockDependents` call on an invariant-satisfying run
state: the invariant still holds and old blocked entries are untouched. -/
theorem blockDependents_runState (nodes : List DagNode) (nid : String)
    (st : RunState) (m : DagMetrics) (hinv : BlockedInv nodes st)
    (hm_nodes : ∀ id ∈ st.blocked,
      alGet m.nodes id = alGet st.metrics.nodes id)
    (hm_blocked : m.blockedNodes = st.metrics.blockedNodes) :
    ∀ st' : RunState,
      st'.blocked = (blockDependents (nodes.length + 1) nid nodes
        st.blocked m).1 →
      st'.metrics = (blockDependents (nodes.length + 1) nid nodes
        st.blocked m).2 →
      BlockedInv nodes st' ∧ BlockedStable st st' := by
  intro st' hbl hme
  obtain ⟨hnodup, hclosed, hrec, hcount⟩ := hinv
  obtain ⟨ext, hb, hnd, hmem, hget, hbn, _⟩ :=
    blockDependents_spec (nodes.length + 1) nid nodes st.blocked m hnodup
  have hfuel : unblockedCount nodes st.blocked < nodes.length + 1 := by
    have h1 : unblockedCount nodes st.blocked ≤ (nodes.map DagNode.id).length :=
      List.length_filter_le _ _
    simpa using Nat.lt_succ_of_le (by simpa using h1)
  have hcomp := blockDependents_complete (nodes.length + 1) nid nodes
    st.blocked m hnodup hfuel
  have hdisj : ∀ id ∈ st.blocked, id ∉ ext := by
    intro id hid hmm
    rw [hb] at hnd
    exact (List.disjoint_of_nodup_append hnd) hid hmm
  constructor
  · refine ⟨by rw [hbl]; exact hnd, ?_, ?_, ?_⟩
    · intro n hn hdep
      obtain ⟨d, hd, hdbl⟩ := hdep
      rw [hbl] at hdbl ⊢
      rcases hcomp.2 d hdbl with hdold | hdep'
      · have : n.id ∈ st.blocked := hclosed n hn ⟨d, hd, hdold⟩
        rw [hb]
        simp [List.mem_append, this]
      · exact hdep' n hn hd
    · intro id hid
      rw [hbl] at hid
      rw [hme, hget id]
      rw [hb] at hid
      rcases List.mem_append.1 hid with hold | hnew
      · rw [if_neg (hdisj id hold), hm_nodes id hold]
        exact hrec id hold
      · rw [if_pos hnew]
    · rw [hbl, hme, hbn, hm_blocked, hcount, hb]
      simp
  · refine ⟨⟨ext, by rw [hbl, hb]⟩, ?_⟩
    intro id hid
    rw [hme, hget id, if_neg (hdisj id hid)]
    exact hm_nodes id hid

theorem blockedInv_cosmetic (nodes : List DagNode) (st st' : RunState)
    (hbl : st'.blocked = st.blocked)
    (hn : st'.metrics.nodes = st.metrics.nodes)
    (hc : st'.metrics.blockedNodes = st.metrics.blockedNodes)
    (hinv : BlockedInv nodes st) : BlockedInv nodes st' := by
  obtain ⟨h1, h2, h3, h4⟩ := hinv
  refine ⟨by rw [hbl]; exact h1, by rw [hbl]; exact h2, ?_, ?_⟩
  · intro id hid
    rw [hbl] at hid
    rw [hn]
    exact h3 id hid
  · rw [hbl, hc, h4]

theorem blockedStable_cosmetic (st st' : RunState)
    (hbl : st'.blocked = st.blocked)
    (hn : st'.metrics.nodes = st.metrics.nodes) : BlockedStable st st' :=
  ⟨⟨[], by rw [hbl, List.append_nil]⟩, fun id _ => by rw [hn]⟩

theorem processResults_blockedInv (nodes : List DagNode) :
    ∀ (results : List (DagNode × Except NodeErr Obj)) (st : RunState),
      BlockedInv nodes st →
      BlockedInv nodes (stateOf (processResults nodes results st)) ∧
      BlockedStable st (stateOf (processResults nodes results st)) := by
  intro results
  induction results with
  | nil =>
    intro st hinv
    exact ⟨hinv, blockedStable_refl st⟩
  | cons r rest ihr =>
    intro st hinv
    rcases hr : r.2 with e | p
    case ok =>
      have heq : processResults nodes (r :: rest) st = processResults nodes
          rest { st with
            ctx := mergeContext st.ctx p,
            completed := addUnique st.completed r.1.id,
            metrics := { st.metrics with
              successfulNodes := st.metrics.successfulNodes + 1 } } := by
        simp [processResults, List.foldlM_cons, hr, except_ok_bind]
      have hinv1 : BlockedInv nodes { st with
          ctx := mergeContext st.ctx p,
          completed := addUnique st.completed r.1.id,
          metrics := { st.metrics with
            successfulNodes := st.metrics.successfulNodes + 1 } } :=
        blockedInv_cosmetic nodes st _ rfl rfl rfl hinv
      obtain ⟨hi, hs⟩ := ihr { st with
          ctx := mergeContext st.ctx p,
          completed := addUnique st.completed r.1.id,
          metrics := { st.metrics with
            successfulNodes := st.metrics.successfulNodes + 1 } } hinv1
      rw [heq]
      exact ⟨hi, blockedStable_trans _ _ _
        (blockedStable_cosmetic st _ rfl rfl) hs⟩
    case error =>
      rcases e with i | msg
      · have heq : processResults nodes (r :: rest) st = processResults nodes
            rest { st with
              completed := addUnique st.completed r.1.id,
              blocked := (blockDependents (nodes.length + 1) r.1.id nodes
                st.blocked st.metrics).1,
              metrics := (blockDependents (nodes.length + 1) r.1.id nodes
                st.blocked st.metrics).2 } := by
          simp [processResults, List.foldlM_cons, hr, except_ok_bind]
        obtain ⟨hinv1, hstable1⟩ := blockDependents_runState nodes r.1.id st
          st.metrics hinv (fun _ _ => rfl) rfl
          { st with
            completed := addUnique st.completed r.1.id,
            blocked := (blockDependents (nodes.length + 1) r.1.id nodes
              st.blocked st.metrics).1,
            metrics := (blockDependents (nodes.length + 1) r.1.id nodes
              st.blocked st.metrics).2 } rfl rfl
        obtain ⟨hi, hs⟩ := ihr { st with
            completed := addUnique st.completed r.1.id,
            blocked := (blockDependents (nodes.length + 1) r.1.id nodes
              st.blocked st.metrics).1,
            metrics := (blockDependents (nodes.length + 1) r.1.id nodes
              st.blocked st.metrics).2 } hinv1
        rw [heq]
        exact ⟨hi, blockedStable_trans _ _ _ hstable1 hs⟩
      · rcases hs : effStrategy r.1 with _ | _ | _
        · have heq : processResults nodes (r :: rest) st =
              .error (msg, { st with
                failed := addUnique st.failed r.1.id,
                metrics := { st.metrics with
                  failedNodes := st.metrics.failedNodes + 1 } }) := by
            simp [processResults, List.foldlM_cons, hr, hs, except_error_bind]
          rw [heq]
          refine ⟨blockedInv_cosmetic nodes st _ rfl rfl rfl hinv, ?_⟩
          exact blockedStable_cosmetic st _ rfl rfl
        · have heq : processResults nodes (r :: rest) st = processResults
              nodes rest { st with
                failed := addUnique st.failed r.1.id,
                metrics := { st.metrics with
                  failedNodes := st.metrics.failedNodes + 1 } } := by
            simp [processResults, List.foldlM_cons, hr, hs, except_ok_bind]
          have hinv1 : BlockedInv nodes { st with
              failed := addUnique st.failed r.1.id,
              metrics := { st.metrics with
                failedNodes := st.metrics.failedNodes + 1 } } :=
            blockedInv_cosmetic nodes st _ rfl rfl rfl hinv
          obtain ⟨hi, hs'⟩ := ihr { st with
              failed := addUnique st.failed r.1.id,
              metrics := { st.metrics with
                failedNodes := st.metrics.failedNodes + 1 } } hinv1
          rw [heq]
          exact ⟨hi, blockedStable_trans _ _ _
            (blockedStable_cosmetic st _ rfl rfl) hs'⟩
        · have heq : processResults nodes (r :: rest) st = processResults
              nodes rest { st with
                failed := addUnique st.failed r.1.id,
                blocked := (blockDependents (nodes.length + 1) r.1.id nodes
                  st.blocked { st.metrics with
                    failedNodes := st.metrics.failedNodes + 1 }).1,
                metrics := (blockDependents (nodes.length + 1) r.1.id nodes
                  st.blocked { st.metrics with
                    failedNodes := st.metrics.failedNodes + 1 }).2 } := by
            simp [processResults, List.foldlM_cons, hr, hs, except_ok_bind]
          have hinvm : BlockedInv nodes { st with
              failed := addUnique st.failed r.1.id,
              metrics := { st.metrics with
                failedNodes := st.metrics.failedNodes + 1 } } :=
            blockedInv_cosmetic nodes st _ rfl rfl rfl hinv
          obtain ⟨hinv1, hstable1⟩ := blockDependents_runState nodes r.1.id
            { st with
              failed := addUnique st.failed r.1.id,
              metrics := { st.metrics with
                failedNodes := st.metrics.failedNodes + 1 } }
            { st.metrics with failedNodes := st.metrics.failedNodes + 1 }
            hinvm (fun _ _ => rfl) rfl
            { st with
              failed := addUnique st.failed r.1.id,
              blocked := (blockDependents (nodes.length + 1) r.1.id nodes
                st.blocked { st.metrics with
                  failedNodes := st.metrics.failedNodes + 1 }).1,
              metrics := (blockDependents (nodes.length + 1) r.1.id nodes
                st.blocked { st.metrics with
                  failedNodes := st.metrics.failedNodes + 1 }).2 } rfl rfl
          obtain ⟨hi, hs'⟩ := ihr { st with
              failed := addUnique st.failed r.1.id,
              blocked := (blockDependents (nodes.length + 1) r.1.id nodes
                st.blocked { st.metrics with
                  failedNodes := st.metrics.failedNodes + 1 }).1,
              metrics := (blockDependents (nodes.length + 1) r.1.id nodes
                st.blocked { st.metrics with
                  failedNodes := st.metrics.failedNodes + 1 }).2 } hinv1
          rw [heq]
          refine ⟨hi, blockedStable_trans _ _ _ (blockedStable_trans _ _ _
            (blockedStable_cosmetic st _ rfl rfl) hstable1) hs'⟩

theorem runnableOf_not_blocked (nodes : List DagNode) (batch : List String)
    (blocked : List String) :
    ∀ n ∈ runnableOf nodes batch blocked, n.id ∉ blocked := by
  intro n hn
  have h := (List.mem_filter.1 hn).2
  simpa using h

theorem runBatch_blockedInv (nodes : List DagNode) (batch : List String)
    (st : RunState) (hinv : BlockedInv nodes st) :
    BlockedInv nodes (stateOf (runBatch nodes batch st)) ∧
    BlockedStable st (stateOf (runBatch nodes batch st)) := by
  have heq : runBatch nodes batch st = processResults nodes
      (runBatchNodes (runnableOf nodes batch st.blocked) st.ctx
        st.metrics).1
      { st with metrics := (runBatchNodes (runnableOf nodes batch
        st.blocked) st.ctx st.metrics).2 } := rfl
  obtain ⟨hframe, hblocked⟩ := runBatchNodes_frame
    (runnableOf nodes batch st.blocked) st.ctx st.metrics
  have hpres : ∀ id ∈ st.blocked,
      alGet (runBatchNodes (runnableOf nodes batch st.blocked) st.ctx
        st.metrics).2.nodes id = alGet st.metrics.nodes id := by
    intro id hid
    apply hframe
    intro hmem
    obtain ⟨n, hn, rfl⟩ := List.mem_map.1 hmem
    exact runnableOf_not_blocked nodes batch st.blocked n hn hid
  have hinvm : BlockedInv nodes { st with metrics := (runBatchNodes
      (runnableOf nodes batch st.blocked) st.ctx st.metrics).2 } := by
    obtain ⟨h1, h2, h3, h4⟩ := hinv
    refine ⟨h1, h2, ?_, by simpa [hblocked] using h4⟩
    intro id hid
    have := hpres id hid
    simpa [this] using h3 id hid
  have hstm : BlockedStable st { st with metrics := (runBatchNodes
      (runnableOf nodes batch st.blocked) st.ctx st.metrics).2 } :=
    ⟨⟨[], by simp⟩, hpres⟩
  rw [heq]
  obtain ⟨hi, hs⟩ := processResults_blockedInv nodes _ _ hinvm
  exact ⟨hi, blockedStable_trans _ _ _ hstm hs⟩

theorem runBatches_blockedInv (nodes : List DagNode) :
    ∀ (batches : List (List String)) (st : RunState),
      BlockedInv nodes st →
      BlockedInv nodes (stateOf (runBatches nodes batches st)) ∧
      BlockedStable st (stateOf (runBatches nodes batches st)) := by
  intro batches
  induction batches with
  | nil => intro st hinv; exact ⟨hinv, blockedStable_refl st⟩
  | cons b bs ihb =>
    intro st hinv
    obtain ⟨hi1, hs1⟩ := runBatch_blockedInv nodes b st hinv
    rcases hrb : runBatch nodes b st with e | st'
    · have heq : runBatches nodes (b :: bs) st = .error e := by
        simp [runBatches, hrb]
      rw [heq]
      rw [hrb] at hi1 hs1
      exact ⟨hi1, hs1⟩
    · have heq : runBatches nodes (b :: bs) st = runBatches nodes bs st' := by
        simp [runBatches, hrb]
      rw [heq]
      rw [hrb] at hi1 hs1
      obtain ⟨hi2, hs2⟩ := ihb st' hi1
      exact ⟨hi2, blockedStable_trans _ _ _ hs1 hs2⟩

/-- C9: throughout every run a node is blocked at most once and, once
blocked, is final.  Formally: (1) the engine's blocked-set invariant — no
id appears twice in the blocked set and `blockedNodes` equals its size
(each node's blocked outcome is written and counted at most once), the set
is dependent-closed, and every blocked id carries the blocked outcome
record — is preserved by any sequence of batches, the blocked set only
ever grows, and a node blocked earlier still carries the blocked outcome
record (unchanged status) after any later batches; (2) a blocked node is
never part of a batch's runnable selection; (3) the invariant holds at the
start of every run. -/
theorem blocked_idempotent_and_final :
    (∀ (nodes : List DagNode) (batches : List (List String))
      (st : RunState), BlockedInv nodes st →
      BlockedInv nodes (stateOf (runBatches nodes batches st)) ∧
      (∃ ext, (stateOf (runBatches nodes batches st)).blocked =
        st.blocked ++ ext) ∧
      (∀ id ∈ st.blocked,
        alGet (stateOf (runBatches nodes batches st)).metrics.nodes id =
          some ⟨0, .blocked, none⟩)) ∧
    (∀ (nodes : List DagNode) (batch : List String)
      (blocked : List String),
      ∀ n ∈ runnableOf nodes batch blocked, n.id ∉ blocked) ∧
    (∀ (nodes : List DagNode) (initial : Obj),
      BlockedInv nodes (initState nodes initial)) := by
  refine ⟨?_, runnableOf_not_blocked, ?_⟩
  · intro nodes batches st hinv
    obtain ⟨hi, hext, hrec⟩ := runBatches_blockedInv nodes batches st hinv
    refine ⟨hi, hext, ?_⟩
    intro id hid
    rw [hrec id hid]
    exact hinv.2.2.1 id hid
  · intro nodes initial
    refine ⟨List.nodup_nil, ?_, ?_, rfl⟩
    · intro n _ hd
      obtain ⟨d, _, hdbl⟩ := hd
      exact absurd hdbl (List.not_mem_nil d)
    · intro id hid
      exact absurd hid (List.not_mem_nil id)

/-- Witness for C9's hypotheses at a concrete input. -/
theorem blocked_idempotent_and_final_witness :
    BlockedInv planFailNodes (stateOf (runBatches planFailNodes [["a"]]
      (initState planFailNodes []))) ∧
    (∃ ext, (stateOf (runBatches planFailNodes [["a"]]
      (initState planFailNodes []))).blocked =
        (initState planFailNodes []).blocked ++ ext) ∧
    (∀ id ∈ (initState planFailNodes []).blocked,
      alGet (stateOf (runBatches planFailNodes [["a"]]
        (initState planFailNodes []))).metrics.nodes id =
        some ⟨0, .blocked, none⟩) :=
  blocked_idempotent_and_final.1 planFailNodes [["a"]]
    (initState planFailNodes []) (by
      refine ⟨List.nodup_nil, ?_, ?_, rfl⟩
      · intro n _ hd
        obtain ⟨d, _, hdbl⟩ := hd
        exact absurd hdbl (List.not_mem_nil d)
      · intro id hid
        exact absurd hid (List.not_mem_nil id))

/-! ## Association-list key lemmas for the planner -/

theorem alGet_eq_none_iff {α : Type} (l : List (String × α)) (k : String) :
    alGet l k = none ↔ k ∉ l.map Prod.fst := by
  induction l with
  | nil => simp [alGet]
  | cons hd tl ih =>
    rcases hd with ⟨a, b⟩
    by_cases h : a = k
    · simp [alGet, h]
    · have hne : k ≠ a := fun h' => h h'.symm
      simp [alGet, h, ih, hne]

theorem alGet_isSome_iff {α : Type} (l : List (String × α)) (k : String) :
    (alGet l k).isSome ↔ k ∈ l.map Prod.fst := by
  rcases h : alGet l k with _ | v
  · simpa [h] using (alGet_eq_none_iff l k).1 h
  · simp only [h, Option.isSome_some, true_iff]
    by_contra hk
    rw [(alGet_eq_none_iff l k).2 hk] at h
    exact Option.noConfusion h

theorem alGet_append_of_some {α : Type} (l l' : List (String × α))
    (k : String) (v : α) (h : alGet l k = some v) :
    alGet (l ++ l') k = some v := by
  induction l with
  | nil => simp [alGet] at h
  | cons hd tl ih =>
    rcases hd with ⟨a, b⟩
    simp only [alGet, List.cons_append] at h ⊢
    by_cases hk : a = k
    · rwa [if_pos hk] at h ⊢
    · rw [if_neg hk] at h ⊢
      exact ih h

theorem alGet_append_of_none {α : Type} (l l' : List (String × α))
    (k : String) (h : alGet l k = none) :
    alGet (l ++ l') k = alGet l' k := by
  induction l with
  | nil => simp
  | cons hd tl ih =>
    rcases hd with ⟨a, b⟩
    simp only [alGet, List.cons_append] at h ⊢
    by_cases hk : a = k
    · rw [if_pos hk] at h
      exact Option.noConfusion h
    · rw [if_neg hk] at h ⊢
      exact ih h

theorem alSet_keys_of_mem {α : Type} (l : List (String × α)) (k : String)
    (v : α) (h : k ∈ l.map Prod.fst) :
    (alSet l k v).map Prod.fst = l.map Prod.fst := by
  induction l with
  | nil => simp at h
  | cons hd tl ih =>
    rcases hd with ⟨a, b⟩
    by_cases hk : a = k
    · simp [alSet, hk]
    · have h' : k ∈ tl.map Prod.fst := by
        rcases List.mem_cons.1 h with h1 | h1
        · exact absurd h1.symm hk
        · exact h1
      simp [alSet, hk, ih h']

theorem map_fst_map_nodes {α : Type} (f : DagNode → α) :
    ∀ ns : List DagNode,
      (ns.map (fun x => (x.id, f x))).map Prod.fst = ns.map DagNode.id := by
  intro ns
  induction ns with
  | nil => rfl
  | cons hd tl ih => simp [ih]

theorem alGet_map_nodes {α : Type} (f : DagNode → α) :
    ∀ (ns : List DagNode) (n : DagNode), (ns.map DagNode.id).Nodup →
      n ∈ ns → alGet (ns.map (fun x => (x.id, f x))) n.id = some (f n) := by
  intro ns
  induction ns with
  | nil => intro n _ hn; simp at hn
  | cons hd tl ih =>
    intro n hnd hn
    rcases List.mem_cons.1 hn with rfl | hn'
    · simp [alGet]
    · have hne : hd.id ≠ n.id := by
        intro h
        have hmem : n.id ∈ tl.map DagNode.id :=
          List.mem_map_of_mem DagNode.id hn'
        rw [← h] at hmem
        exact (List.nodup_cons.1 (by simpa using hnd)).1 hmem
      simp only [List.map_cons, alGet, hne, if_false]
      exact ih n (List.nodup_cons.1 (by simpa using hnd)).2 hn'

theorem alGet_map_not_mem {α : Type} (f : DagNode → α) (ns : List DagNode)
    (k : String) (h : k ∉ ns.map DagNode.id) :
    alGet (ns.map (fun x => (x.id, f x))) k = none := by
  rw [alGet_eq_none_iff, map_fst_map_nodes]
  exact h

/-! ## The planner's init phase -/

theorem plannerInit_ok (nodes : List DagNode)
    (h : (nodes.map DagNode.id).Nodup) :
    plannerInit nodes = .ok
      (nodes.map (fun n => (n.id, ([] : List String))),
       nodes.map (fun n => (n.id, (0 : Int)))) := by
  have aux : ∀ (ns : List DagNode) (g : Graph) (i : List (String × Int)),
      (ns.map DagNode.id).Nodup → (∀ n ∈ ns, alGet g n.id = none) →
      ns.foldlM
        (fun st node =>
          if (alGet st.1 node.id).isSome then .error (.dup node.id)
          else .ok (st.1 ++ [(node.id, [])], st.2 ++ [(node.id, 0)]))
        (g, i) =
      (.ok (g ++ ns.map (fun n => (n.id, ([] : List String))),
            i ++ ns.map (fun n => (n.id, (0 : Int)))) :
        Except PlanError (Graph × List (String × Int))) := by
    intro ns
    induction ns with
    | nil =>
      intro g i _ _
      simp only [List.foldlM_nil, List.map_nil, List.append_nil]
      rfl
    | cons n ns ih =>
      intro g i hnd hnone
      have hgn : alGet g n.id = none := hnone n (by simp)
      have hstep : (alGet g n.id).isSome = false := by simp [hgn]
      have hnd' : (ns.map DagNode.id).Nodup :=
        (List.nodup_cons.1 (by simpa using hnd)).2
      have hnone' : ∀ x ∈ ns, alGet (g ++ [(n.id, [])]) x.id = none := by
        intro x hx
        rw [alGet_append_of_none g [(n.id, [])] x.id (hnone x (by simp [hx]))]
        have hne : n.id ≠ x.id := by
          intro he
          have hmem : x.id ∈ ns.map DagNode.id :=
            List.mem_map_of_mem DagNode.id hx
          rw [← he] at hmem
          exact (List.nodup_cons.1 (by simpa using hnd)).1 hmem
        simp [alGet, hne]
      rw [List.foldlM_cons]
      simp only [hstep, Bool.false_eq_true, if_false, except_ok_bind]
      rw [ih (g ++ [(n.id, [])]) (i ++ [(n.id, 0)]) hnd' hnone']
      simp [List.append_assoc]
  have h0 : ∀ n ∈ nodes, alGet ([] : Graph) n.id = none := by
    intro n _
    rfl
  unfold plannerInit
  rw [aux nodes [] [] h h0]
  simp

/-! ## The planner's build phase -/

theorem buildDeps_eq (n : DagNode) (st : Graph × List (String × Int)) :
    buildDeps n st = n.dependsOn.foldlM (depStep n) st := rfl

theorem depStep_ok (n : DagNode) (G : Graph) (I : List (String × Int))
    (d : String) (dl : List String) (hd : alGet G d = some dl)
    (hne : d ≠ n.id) :
    depStep n (G, I) d = .ok (alSet G d (addUnique dl n.id),
      alSet I n.id ((alGet I n.id).getD 0 + 1)) := by
  simp [depStep, hd, hne]

/-- Effect of one node's dependency scan when it succeeds: the node's id is
appended to each of its dependencies' dependent sets, its in-degree grows
by the number of its dependencies, and nothing else changes. -/
theorem buildDeps_ok (n : DagNode) :
    ∀ (ds : List String) (G : Graph) (I : List (String × Int)),
      ds.Nodup → n.id ∉ ds → n.id ∈ I.map Prod.fst →
      (∀ d ∈ ds, ∃ dl, alGet G d = some dl ∧ n.id ∉ dl) →
      ∃ G' I', ds.foldlM (depStep n) (G, I) = .ok (G', I') ∧
        (∀ d, d ∉ ds → alGet G' d = alGet G d) ∧
        (∀ d ∈ ds, ∀ dl, alGet G d = some dl →
          alGet G' d = some (dl ++ [n.id])) ∧
        G'.map Prod.fst = G.map Prod.fst ∧
        (∀ id, id ≠ n.id → alGet I' id = alGet I id) ∧
        (∀ c : Int, alGet I n.id = some c →
          alGet I' n.id = some (c + (ds.length : Int))) ∧
        I'.map Prod.fst = I.map Prod.fst := by
  intro ds
  induction ds with
  | nil =>
    intro G I _ _ _ _
    exact ⟨G, I, rfl, fun d _ => rfl, by simp, rfl, fun id _ => rfl,
      fun c hc => by simpa using hc, rfl⟩
  | cons d ds ih =>
    intro G I hnd hself hkey hpres
    obtain ⟨dl, hdl, hnin⟩ := hpres d (by simp)
    have hne : d ≠ n.id := by
      intro he
      exact hself (by simp [he])
    have hstep := depStep_ok n G I d dl hdl hne
    have haddu : addUnique dl n.id = dl ++ [n.id] := by
      simp only [addUnique]
      rw [if_neg (by simpa using hnin)]
    have hdkey : d ∈ G.map Prod.fst :=
      (alGet_isSome_iff G d).1 (by simp [hdl])
    have hkeysG1 : (alSet G d (addUnique dl n.id)).map Prod.fst =
        G.map Prod.fst := alSet_keys_of_mem G d _ hdkey
    have hkeysI1 : (alSet I n.id ((alGet I n.id).getD 0 + 1)).map Prod.fst =
        I.map Prod.fst := alSet_keys_of_mem I n.id _ hkey
    have hnd' : ds.Nodup := (List.nodup_cons.1 hnd).2
    have hdnotin : d ∉ ds := (List.nodup_cons.1 hnd).1
    have hself' : n.id ∉ ds := fun h => hself (by simp [h])
    have hkey' : n.id ∈ (alSet I n.id ((alGet I n.id).getD 0 + 1)).map
        Prod.fst := by rw [hkeysI1]; exact hkey
    have hpres' : ∀ d' ∈ ds, ∃ dl',
        alGet (alSet G d (addUnique dl n.id)) d' = some dl' ∧
          n.id ∉ dl' := by
      intro d' hd'
      have hne' : d ≠ d' := fun h => hdnotin (h ▸ hd')
      obtain ⟨dl', hdl', hnin'⟩ := hpres d' (by simp [hd'])
      exact ⟨dl', by rw [alGet_alSet_ne G d d' _ hne']; exact hdl', hnin'⟩
    obtain ⟨G', I', hfold, hother, hdeps, hkeysG, hiother, hic, hkeysI⟩ :=
      ih (alSet G d (addUnique dl n.id))
        (alSet I n.id ((alGet I n.id).getD 0 + 1)) hnd' hself' hkey' hpres'
    refine ⟨G', I', ?_, ?_, ?_, ?_, ?_, ?_, ?_⟩
    · rw [List.foldlM_cons, hstep, except_ok_bind, hfold]
    · intro d' hd'
      have hne' : d ≠ d' := fun h => hd' (by simp [h])
      rw [hother d' (fun h => hd' (by simp [h])),
        alGet_alSet_ne G d d' _ hne']
    · intro d' hd' dl0 hdl0
      rcases List.mem_cons.1 hd' with rfl | hd''
      · have : dl0 = dl := by
          rw [hdl0] at hdl
          exact Option.some_inj.1 hdl
        subst this
        rw [hother d' hdnotin, alGet_alSet_self, haddu]
      · have hne' : d ≠ d' := fun h => hdnotin (h ▸ hd'')
        have : alGet (alSet G d (addUnique dl n.id)) d' = some dl0 := by
          rw [alGet_alSet_ne G d d' _ hne']
          exact hdl0
        exact hdeps d' hd'' dl0 this
    · rw [hkeysG, hkeysG1]
    · intro id hid
      rw [hiother id hid, alGet_alSet_ne I n.id id _ (fun h => hid h.symm)]
    · intro c hc
      have h1 : alGet (alSet I n.id ((alGet I n.id).getD 0 + 1)) n.id =
          some (c + 1) := by
        rw [alGet_alSet_self, hc]
        simp
      have := hic (c + 1) h1
      rw [this]
      congr 1
      simp only [List.length_cons]
      push_cast
      ring
    · rw [hkeysI, hkeysI1]

theorem node_id_inj (nodes : List DagNode)
    (h : (nodes.map DagNode.id).Nodup) :
    ∀ m ∈ nodes, ∀ n ∈ nodes, m.id = n.id → m = n :=
  fun m hm n hn => List.inj_on_of_nodup_map h hm hn

/-- Characterization of the build loop on a valid node set: it succeeds,
graph and in-degree maps keep the registry's keys, every dependency's
dependent set holds exactly the ids of the nodes that declare it (without
repetition), and every node's in-degree equals its dependency count. -/
theorem buildGraph_ok (nodes : List DagNode) (hval : ValidNodeSet nodes) :
    ∃ G' I', buildGraph nodes
        (nodes.map (fun n => (n.id, ([] : List String))),
         nodes.map (fun n => (n.id, (0 : Int)))) = .ok (G', I') ∧
      G'.map Prod.fst = nodes.map DagNode.id ∧
      I'.map Prod.fst = nodes.map DagNode.id ∧
      (∀ d ∈ nodes.map DagNode.id, ∃ dl, alGet G' d = some dl ∧
        dl.Nodup ∧ (∀ z, z ∈ dl ↔ ∃ m ∈ nodes, m.id = z ∧
          d ∈ m.dependsOn)) ∧
      (∀ n ∈ nodes, alGet I' n.id = some ((n.dependsOn.length : Int))) := by
  obtain ⟨hids, hreg, hselfh, hdnd⟩ := hval
  have aux : ∀ (rest P : List DagNode), nodes = P ++ rest →
      ∀ (G : Graph) (I : List (String × Int)),
      G.map Prod.fst = nodes.map DagNode.id →
      I.map Prod.fst = nodes.map DagNode.id →
      (∀ d ∈ nodes.map DagNode.id, ∃ dl, alGet G d = some dl ∧ dl.Nodup ∧
        (∀ z, z ∈ dl ↔ ∃ m ∈ P, m.id = z ∧ d ∈ m.dependsOn)) →
      (∀ n ∈ nodes, alGet I n.id = some (if n.id ∈ P.map DagNode.id then
        (n.dependsOn.length : Int) else 0)) →
      ∃ G' I', rest.foldlM (fun st node => buildDeps node st) (G, I) =
        .ok (G', I') ∧
        G'.map Prod.fst = nodes.map DagNode.id ∧
        I'.map Prod.fst = nodes.map DagNode.id ∧
        (∀ d ∈ nodes.map DagNode.id, ∃ dl, alGet G' d = some dl ∧
          dl.Nodup ∧ (∀ z, z ∈ dl ↔ ∃ m ∈ nodes, m.id = z ∧
            d ∈ m.dependsOn)) ∧
        (∀ n ∈ nodes, alGet I' n.id = some ((n.dependsOn.length : Int))) := by
    intro rest
    induction rest with
    | nil =>
      intro P hP G I hGk hIk hGc hIc
      refine ⟨G, I, by
          simp only [List.foldlM_nil]
          rfl, hGk, hIk, ?_, ?_⟩
      · intro d hd
        obtain ⟨dl, h1, h2, h3⟩ := hGc d hd
        refine ⟨dl, h1, h2, ?_⟩
        intro z
        rw [h3 z]
        rw [hP]
        simp
      · intro n hn
        have := hIc n hn
        rw [this]
        have hnP : n.id ∈ P.map DagNode.id := by
          rw [hP] at hn
          simpa using List.mem_map_of_mem DagNode.id (by simpa using hn)
        rw [if_pos hnP]
    | cons n rest' ih =>
      intro P hP G I hGk hIk hGc hIc
      have hn : n ∈ nodes := by rw [hP]; simp
      have hnidI : n.id ∈ I.map Prod.fst := by
        rw [hIk]
        exact List.mem_map_of_mem DagNode.id hn
      have hnotP : n.id ∉ P.map DagNode.id := by
        intro hmem
        rw [hP] at hids
        have h1 : (P.map DagNode.id ++ (n :: rest').map DagNode.id).Nodup :=
          by simpa using hids
        exact (List.disjoint_of_nodup_append h1) hmem (by simp)
      have hpres : ∀ d ∈ n.dependsOn, ∃ dl, alGet G d = some dl ∧
          n.id ∉ dl := by
        intro d hd
        obtain ⟨dl, h1, _, h3⟩ := hGc d (hreg n hn d hd)
        refine ⟨dl, h1, ?_⟩
        intro hz
        obtain ⟨m, hm, hmid, _⟩ := (h3 n.id).1 hz
        exact hnotP (hmid ▸ List.mem_map_of_mem DagNode.id hm)
      obtain ⟨G', I', hfold, hother, hdeps, hkeysG, hiother, hic, hkeysI⟩ :=
        buildDeps_ok n n.dependsOn G I (hdnd n hn) (hselfh n hn) hnidI hpres
      have hGc' : ∀ d ∈ nodes.map DagNode.id, ∃ dl, alGet G' d = some dl ∧
          dl.Nodup ∧ (∀ z, z ∈ dl ↔ ∃ m ∈ P ++ [n], m.id = z ∧
            d ∈ m.dependsOn) := by
        intro d hd
        obtain ⟨dl, h1, h2, h3⟩ := hGc d hd
        by_cases hdn : d ∈ n.dependsOn
        · refine ⟨dl ++ [n.id], hdeps d hdn dl h1, ?_, ?_⟩
          · have hnin : n.id ∉ dl := by
              intro hz
              obtain ⟨m, hm, hmid, _⟩ := (h3 n.id).1 hz
              exact hnotP (hmid ▸ List.mem_map_of_mem DagNode.id hm)
            simp [List.nodup_append, h2, hnin]
          · intro z
            constructor
            · intro hz
              rcases List.mem_append.1 hz with hz | hz
              · obtain ⟨m, hm, hmid, hmd⟩ := (h3 z).1 hz
                exact ⟨m, by simp [hm], hmid, hmd⟩
              · simp only [List.mem_singleton] at hz
                subst hz
                exact ⟨n, by simp, rfl, hdn⟩
            · rintro ⟨m, hm, hmid, hmd⟩
              rcases List.mem_append.1 hm with hm' | hm'
              · exact List.mem_append.2 (Or.inl ((h3 z).2 ⟨m, hm', hmid, hmd⟩))
              · simp only [List.mem_singleton] at hm'
                subst hm'
                subst hmid
                simp
        · refine ⟨dl, by rw [hother d hdn]; exact h1, h2, ?_⟩
          intro z
          rw [h3 z]
          constructor
          · rintro ⟨m, hm, hmid, hmd⟩
            exact ⟨m, by simp [hm], hmid, hmd⟩
          · rintro ⟨m, hm, hmid, hmd⟩
            rcases List.mem_append.1 hm with hm' | hm'
            · exact ⟨m, hm', hmid, hmd⟩
            · simp only [List.mem_singleton] at hm'
              subst hm'
              subst hmid
              exact absurd hmd hdn
      have hIc' : ∀ m ∈ nodes, alGet I' m.id =
          some (if m.id ∈ (P ++ [n]).map DagNode.id then
            (m.dependsOn.length : Int) else 0) := by
        intro m hm
        by_cases hmn : m.id = n.id
        · have hmeq : m = n := node_id_inj nodes hids m hm n hn hmn
          subst hmeq
          have h0 : alGet I m.id = some 0 := by
            rw [hIc m hm, if_neg hnotP]
          rw [hic 0 h0]
          rw [if_pos (by simp)]
          simp
        · rw [hiother m.id hmn, hIc m hm]
          have : m.id ∈ (P ++ [n]).map DagNode.id ↔
              m.id ∈ P.map DagNode.id := by
            simp [hmn]
          rw [if_congr this rfl rfl]
      have hP' : nodes = (P ++ [n]) ++ rest' := by
        rw [hP]
        simp
      obtain ⟨G2, I2, hfold2, hrest⟩ := ih (P ++ [n]) hP' G' I'
        (by rw [hkeysG, hGk]) (by rw [hkeysI, hIk]) hGc' hIc'
      refine ⟨G2, I2, ?_, hrest⟩
      have hbd : buildDeps n (G, I) = .ok (G', I') := by
        rw [buildDeps_eq]
        exact hfold
      rw [List.foldlM_cons]
      show buildDeps n (G, I) >>=
        (fun st' => rest'.foldlM (fun st node => buildDeps node st) st') =
        .ok (G2, I2)
      rw [hbd, except_ok_bind]
      exact hfold2
  have hG0c : ∀ d ∈ nodes.map DagNode.id,
      ∃ dl, alGet (nodes.map (fun n => (n.id, ([] : List String)))) d =
        some dl ∧ dl.Nodup ∧ (∀ z, z ∈ dl ↔ ∃ m ∈ ([] : List DagNode),
          m.id = z ∧ d ∈ m.dependsOn) := by
    intro d hd
    obtain ⟨m, hm, rfl⟩ := List.mem_map.1 hd
    exact ⟨[], alGet_map_nodes _ nodes m hids hm, List.nodup_nil, by simp⟩
  have hI0c : ∀ n ∈ nodes,
      alGet (nodes.map (fun n => (n.id, (0 : Int)))) n.id =
        some (if n.id ∈ ([] : List DagNode).map DagNode.id then
          (n.dependsOn.length : Int) else 0) := by
    intro n hn
    rw [alGet_map_nodes _ nodes n hids hn]
    simp
  obtain ⟨G', I', hfold, hrest⟩ := aux nodes [] rfl
    (nodes.map (fun n => (n.id, ([] : List String))))
    (nodes.map (fun n => (n.id, (0 : Int))))
    (map_fst_map_nodes _ nodes) (map_fst_map_nodes _ nodes) hG0c hI0c
  exact ⟨G', I', hfold, hrest⟩

/-! ## Counting lemmas for the Kahn phase -/

theorem processId_eq (G : Graph) (st : List (String × Int) × List String)
    (a : String) : processId G st a = ((alGet G a).getD []).foldl decStep st := by
  rfl

theorem filter_out_extra (S : List String) (a : String) (l : List String)
    (ha : a ∉ l) :
    l.filter (fun d => ¬ d ∈ S ++ [a]) = l.filter (fun d => ¬ d ∈ S) := by
  apply List.filter_congr
  intro d hd
  have hda : d ≠ a := fun h => ha (h ▸ hd)
  simp [List.mem_append, hda]

theorem filter_len_zero_iff (S l : List String) :
    (l.filter (fun d => ¬ d ∈ S)).length = 0 ↔ l ⊆ S := by
  rw [List.length_eq_zero]
  constructor
  · intro h d hd
    by_contra hdS
    have : d ∈ l.filter (fun d => ¬ d ∈ S) := by
      rw [List.mem_filter]
      exact ⟨hd, by simpa using hdS⟩
    rw [h] at this
    exact absurd this (List.not_mem_nil d)
  · intro h
    rw [List.filter_eq_nil]
    intro d hd
    simpa using h hd

theorem filter_len_pos (S l : List String) (a : String) (hal : a ∈ l)
    (haS : a ∉ S) : 1 ≤ (l.filter (fun d => ¬ d ∈ S)).length := by
  have : a ∈ l.filter (fun d => ¬ d ∈ S) := by
    rw [List.mem_filter]
    exact ⟨hal, by simpa using haS⟩
  exact List.length_pos.2 (fun h => by
    rw [h] at this
    exact absurd this (List.not_mem_nil a))

theorem filter_out_count (S : List String) (a : String) (l : List String)
    (hnd : l.Nodup) (hal : a ∈ l) (haS : a ∉ S) :
    (l.filter (fun d => ¬ d ∈ S ++ [a])).length + 1 =
      (l.filter (fun d => ¬ d ∈ S)).length := by
  have h1 : l.filter (fun d => ¬ d ∈ S ++ [a]) =
      (l.filter (fun d => ¬ d ∈ S)).filter (fun d => d != a) := by
    rw [List.filter_filter]
    apply List.filter_congr
    intro d _
    by_cases hda : d = a
    · subst hda
      simp [List.mem_append]
    · by_cases hdS : d ∈ S <;> simp [List.mem_append, hda, hdS]
  have hL : (l.filter (fun d => ¬ d ∈ S)).Nodup := hnd.filter _
  have haL : a ∈ l.filter (fun d => ¬ d ∈ S) := by
    rw [List.mem_filter]
    exact ⟨hal, by simpa using haS⟩
  rw [h1, ← hL.erase_eq_filter a, List.length_erase_of_mem haL]
  have : 1 ≤ (l.filter (fun d => ¬ d ∈ S)).length :=
    filter_len_pos S l a hal haS
  omega


/-! ## `lookupNode` and `depsOf` -/

theorem lookupNode_of_mem (nodes : List DagNode)
    (hids : (nodes.map DagNode.id).Nodup) (n : DagNode) (hn : n ∈ nodes) :
    lookupNode nodes n.id = some n := by
  unfold lookupNode
  rcases h : nodes.find? (fun x => x.id = n.id) with _ | m
  · rw [List.find?_eq_none] at h
    exact absurd (by simp) (h n hn)
  · have hm := List.find?_some h
    have hmem := List.mem_of_find?_eq_some h
    have hmn : m = n := node_id_inj nodes hids m hmem n hn (by simpa using hm)
    rw [h, hmn]

theorem depsOf_of_mem (nodes : List DagNode)
    (hids : (nodes.map DagNode.id).Nodup) (n : DagNode) (hn : n ∈ nodes) :
    depsOf nodes n.id = n.dependsOn := by
  unfold depsOf
  rw [lookupNode_of_mem nodes hids n hn]

theorem depsOf_not_mem (nodes : List DagNode) (z : String)
    (h : z ∉ nodes.map DagNode.id) : depsOf nodes z = [] := by
  unfold depsOf lookupNode
  rcases hf : nodes.find? (fun x => x.id = z) with _ | m
  · rw [hf]
  · have hm := List.find?_some hf
    have hmem := List.mem_of_find?_eq_some hf
    exact absurd ((by simpa using hm : m.id = z) ▸
      List.mem_map_of_mem DagNode.id hmem) h

theorem mem_depsOf_iff (nodes : List DagNode)
    (hids : (nodes.map DagNode.id).Nodup) (z d : String) :
    d ∈ depsOf nodes z ↔ ∃ m ∈ nodes, m.id = z ∧ d ∈ m.dependsOn := by
  constructor
  · intro hd
    rcases hz : lookupNode nodes z with _ | m
    · unfold depsOf at hd
      rw [hz] at hd
      exact absurd hd (List.not_mem_nil d)
    · have hm := List.find?_some hz
      have hmem := List.mem_of_find?_eq_some hz
      unfold depsOf at hd
      rw [hz] at hd
      exact ⟨m, hmem, by simpa using hm, hd⟩
  · rintro ⟨m, hm, rfl, hd⟩
    rw [depsOf_of_mem nodes hids m hm]
    exact hd

/-- Effect of decrementing the in-degrees of a set of dependents of `a`
(the elements of `er`, each listing `a` among its dependencies): each
touched id's count moves from "relative to `base`" to "relative to
`base ++ [a]`", and exactly the ids whose dependencies are now all in
`base ++ [a]` are appended to the pending queue. -/
theorem decFold_spec (nodes : List DagNode) (a : String)
    (base : List String) (haB : a ∉ base)
    (hdepsnd : ∀ z ∈ nodes.map DagNode.id, (depsOf nodes z).Nodup)
    (NBase : String → Prop)
    (hNB : ∀ z, NBase z → depsOf nodes z ⊆ base) :
    ∀ (er E : List String) (ind : List (String × Int)) (N : List String),
      (E ++ er).Nodup →
      (∀ z ∈ E ++ er, z ∈ nodes.map DagNode.id ∧ a ∈ depsOf nodes z) →
      (∀ z ∈ nodes.map DagNode.id, z ∉ E →
        alGet ind z = some (((depsOf nodes z).filter
          (fun d => ¬ d ∈ base)).length : Int)) →
      (∀ z ∈ E, alGet ind z = some (((depsOf nodes z).filter
        (fun d => ¬ d ∈ base ++ [a])).length : Int)) →
      ind.map Prod.fst = nodes.map DagNode.id →
      (∀ z, z ∈ N ↔ NBase z ∨ (z ∈ E ∧ depsOf nodes z ⊆ base ++ [a])) →
      N.Nodup →
      (∀ z ∈ nodes.map DagNode.id, z ∉ E ++ er →
        alGet (er.foldl decStep (ind, N)).1 z =
          some (((depsOf nodes z).filter
            (fun d => ¬ d ∈ base)).length : Int)) ∧
      (∀ z ∈ E ++ er, alGet (er.foldl decStep (ind, N)).1 z =
        some (((depsOf nodes z).filter
          (fun d => ¬ d ∈ base ++ [a])).length : Int)) ∧
      (er.foldl decStep (ind, N)).1.map Prod.fst = nodes.map DagNode.id ∧
      (∀ z, z ∈ (er.foldl decStep (ind, N)).2 ↔ NBase z ∨
        (z ∈ E ++ er ∧ depsOf nodes z ⊆ base ++ [a])) ∧
      (er.foldl decStep (ind, N)).2.Nodup := by
  intro er
  induction er with
  | nil =>
    intro E ind N hnd hmem h1 h2 hkeys hN hNnd
    refine ⟨?_, ?_, hkeys, ?_, hNnd⟩
    · intro z hz hzE
      exact h1 z hz (by simpa using hzE)
    · intro z hz
      exact h2 z (by simpa using hz)
    · intro z
      simp only [List.foldl_nil]
      rw [hN z]
      simp
  | cons z0 er ih =>
    intro E ind N hnd hmem h1 h2 hkeys hN hNnd
    obtain ⟨hz0id, hz0a⟩ := hmem z0 (by simp)
    have hz0E : z0 ∉ E := by
      intro h
      have h2' : (E ++ z0 :: er).Nodup := hnd
      have := List.disjoint_of_nodup_append h2'
      exact this h (by simp)
    have hc0 : alGet ind z0 = some (((depsOf nodes z0).filter
        (fun d => ¬ d ∈ base)).length : Int) := h1 z0 hz0id hz0E
    have hcount := filter_out_count base a (depsOf nodes z0)
      (hdepsnd z0 hz0id) hz0a haB
    have hdeq : (((depsOf nodes z0).filter
        (fun d => ¬ d ∈ base)).length : Int) - 1 =
        (((depsOf nodes z0).filter
          (fun d => ¬ d ∈ base ++ [a])).length : Int) := by
      omega
    have hstep : decStep (ind, N) z0 =
        (alSet ind z0 (((depsOf nodes z0).filter
          (fun d => ¬ d ∈ base ++ [a])).length : Int),
         if (((depsOf nodes z0).filter
            (fun d => ¬ d ∈ base ++ [a])).length : Int) = 0 then
           N ++ [z0] else N) := by
      simp only [decStep, hc0, Option.getD_some, hdeq]
      by_cases h0 : (((depsOf nodes z0).filter
          (fun d => ¬ d ∈ base ++ [a])).length : Int) = 0
      · rw [if_pos h0, if_pos h0]
      · rw [if_neg h0, if_neg h0]
    have hsub_iff : (((depsOf nodes z0).filter
        (fun d => ¬ d ∈ base ++ [a])).length : Int) = 0 ↔
        depsOf nodes z0 ⊆ base ++ [a] := by
      rw [← filter_len_zero_iff (base ++ [a]) (depsOf nodes z0)]
      omega
    have hndE' : ((E ++ [z0]) ++ er).Nodup := by
      rw [List.append_assoc]
      simpa using hnd
    have hmem' : ∀ z ∈ (E ++ [z0]) ++ er,
        z ∈ nodes.map DagNode.id ∧ a ∈ depsOf nodes z := by
      intro z hz
      apply hmem
      rw [List.append_assoc] at hz
      simpa using hz
    have hkeys1 : (alSet ind z0 (((depsOf nodes z0).filter
        (fun d => ¬ d ∈ base ++ [a])).length : Int)).map Prod.fst =
        nodes.map DagNode.id := by
      rw [alSet_keys_of_mem ind z0 _ (by rw [hkeys]; exact hz0id), hkeys]
    have h1' : ∀ z ∈ nodes.map DagNode.id, z ∉ E ++ [z0] →
        alGet (alSet ind z0 (((depsOf nodes z0).filter
          (fun d => ¬ d ∈ base ++ [a])).length : Int)) z =
          some (((depsOf nodes z).filter
            (fun d => ¬ d ∈ base)).length : Int) := by
      intro z hz hzE
      have hzz0 : z0 ≠ z := fun h => hzE (by simp [h])
      rw [alGet_alSet_ne ind z0 z _ hzz0]
      exact h1 z hz (fun h => hzE (by simp [h]))
    have h2' : ∀ z ∈ E ++ [z0],
        alGet (alSet ind z0 (((depsOf nodes z0).filter
          (fun d => ¬ d ∈ base ++ [a])).length : Int)) z =
          some (((depsOf nodes z).filter
            (fun d => ¬ d ∈ base ++ [a])).length : Int) := by
      intro z hz
      rcases List.mem_append.1 hz with hz | hz
      · have hzz0 : z0 ≠ z := fun h => hz0E (h ▸ hz)
        rw [alGet_alSet_ne ind z0 z _ hzz0]
        exact h2 z hz
      · simp only [List.mem_singleton] at hz
        subst hz
        rw [alGet_alSet_self]
    have hNpush : ∀ z, z ∈ (if (((depsOf nodes z0).filter
        (fun d => ¬ d ∈ base ++ [a])).length : Int) = 0 then
          N ++ [z0] else N) ↔
        NBase z ∨ (z ∈ E ++ [z0] ∧ depsOf nodes z ⊆ base ++ [a]) := by
      intro z
      by_cases hp : (((depsOf nodes z0).filter
          (fun d => ¬ d ∈ base ++ [a])).length : Int) = 0
      · rw [if_pos hp]
        have hsub := hsub_iff.1 hp
        constructor
        · intro hz
          rcases List.mem_append.1 hz with hz | hz
          · rcases (hN z).1 hz with hb | ⟨hE, hs⟩
            · exact Or.inl hb
            · exact Or.inr ⟨by simp [hE], hs⟩
          · simp only [List.mem_singleton] at hz
            subst hz
            exact Or.inr ⟨by simp, hsub⟩
        · rintro (hb | ⟨hE, hs⟩)
          · exact List.mem_append.2 (Or.inl ((hN z).2 (Or.inl hb)))
          · rcases List.mem_append.1 hE with hE | hE
            · exact List.mem_append.2 (Or.inl ((hN z).2 (Or.inr ⟨hE, hs⟩)))
            · simp only [List.mem_singleton] at hE
              subst hE
              simp
      · rw [if_neg hp]
        have hnsub : ¬ depsOf nodes z0 ⊆ base ++ [a] :=
          fun hs => hp (hsub_iff.2 hs)
        rw [hN z]
        constructor
        · rintro (hb | ⟨hE, hs⟩)
          · exact Or.inl hb
          · exact Or.inr ⟨by simp [hE], hs⟩
        · rintro (hb | ⟨hE, hs⟩)
          · exact Or.inl hb
          · rcases List.mem_append.1 hE with hE | hE
            · exact Or.inr ⟨hE, hs⟩
            · simp only [List.mem_singleton] at hE
              subst hE
              exact absurd hs hnsub
    have hN1nd : (if (((depsOf nodes z0).filter
        (fun d => ¬ d ∈ base ++ [a])).length : Int) = 0 then
          N ++ [z0] else N).Nodup := by
      by_cases hp : (((depsOf nodes z0).filter
          (fun d => ¬ d ∈ base ++ [a])).length : Int) = 0
      · rw [if_pos hp]
        have hz0N : z0 ∉ N := by
          intro hz
          rcases (hN z0).1 hz with hb | ⟨hE, _⟩
          · exact absurd (hNB z0 hb hz0a) haB
          · exact hz0E hE
        simp [List.nodup_append, hNnd, hz0N]
      · rw [if_neg hp]
        exact hNnd
    obtain ⟨c1, c2, c3, c4, c5⟩ := ih (E ++ [z0])
      (alSet ind z0 (((depsOf nodes z0).filter
        (fun d => ¬ d ∈ base ++ [a])).length : Int))
      (if (((depsOf nodes z0).filter
        (fun d => ¬ d ∈ base ++ [a])).length : Int) = 0 then
          N ++ [z0] else N)
      hndE' hmem' h1' h2' hkeys1 hNpush hN1nd
    have hfold_eq : (z0 :: er).foldl decStep (ind, N) =
        er.foldl decStep
          (alSet ind z0 (((depsOf nodes z0).filter
            (fun d => ¬ d ∈ base ++ [a])).length : Int),
           if (((depsOf nodes z0).filter
             (fun d => ¬ d ∈ base ++ [a])).length : Int) = 0 then
               N ++ [z0] else N) := by
      rw [List.foldl_cons, hstep]
    have hEapp : E ++ z0 :: er = (E ++ [z0]) ++ er := by simp
    rw [hfold_eq, hEapp]
    exact ⟨c1, c2, c3, c4, c5⟩

/-- Effect of draining one batch `qr` (preceded by the already-drained part
`P` of the same batch) through `processId`: all in-degrees end up relative
to `done ++ (P ++ qr)`, and the pending queue collects exactly the ids
outside `done` and the batch whose dependencies are all inside. -/
theorem processBatch_spec (nodes : List DagNode) (G : Graph)
    (hdepsnd : ∀ z ∈ nodes.map DagNode.id, (depsOf nodes z).Nodup)
    (hG : ∀ d ∈ nodes.map DagNode.id, ∃ dl, alGet G d = some dl ∧
      dl.Nodup ∧ (∀ z, z ∈ dl ↔ z ∈ nodes.map DagNode.id ∧
        d ∈ depsOf nodes z)) :
    ∀ (qr P done : List String) (ind : List (String × Int))
      (N : List String),
      (done ++ (P ++ qr)).Nodup →
      done ⊆ nodes.map DagNode.id → P ++ qr ⊆ nodes.map DagNode.id →
      (∀ z ∈ done, depsOf nodes z ⊆ done) →
      (∀ z ∈ P ++ qr, depsOf nodes z ⊆ done) →
      (∀ z ∈ nodes.map DagNode.id, alGet ind z =
        some (((depsOf nodes z).filter
          (fun d => ¬ d ∈ done ++ P)).length : Int)) →
      ind.map Prod.fst = nodes.map DagNode.id →
      (∀ z, z ∈ N ↔ z ∈ nodes.map DagNode.id ∧
        z ∉ done ++ (P ++ qr) ∧ depsOf nodes z ⊆ done ++ P) →
      N.Nodup →
      (∀ z ∈ nodes.map DagNode.id,
        alGet (qr.foldl (processId G) (ind, N)).1 z =
          some (((depsOf nodes z).filter
            (fun d => ¬ d ∈ done ++ (P ++ qr))).length : Int)) ∧
      (qr.foldl (processId G) (ind, N)).1.map Prod.fst =
        nodes.map DagNode.id ∧
      (∀ z, z ∈ (qr.foldl (processId G) (ind, N)).2 ↔
        z ∈ nodes.map DagNode.id ∧ z ∉ done ++ (P ++ qr) ∧
          depsOf nodes z ⊆ done ++ (P ++ qr)) ∧
      (qr.foldl (processId G) (ind, N)).2.Nodup := by
  intro qr
  induction qr with
  | nil =>
    intro P done ind N hnd hdsub hpsub hdc hpc hind hkeys hN hNnd
    simp only [List.foldl_nil, List.append_nil]
    exact ⟨fun z hz => by simpa using hind z hz, hkeys,
      fun z => by simpa using hN z, hNnd⟩
  | cons a qr ih =>
    intro P done ind N hnd hdsub hpsub hdc hpc hind hkeys hN hNnd
    have haid : a ∈ nodes.map DagNode.id := hpsub (by simp)
    have hadone : a ∉ done := by
      intro h
      exact (List.disjoint_of_nodup_append hnd) h (by simp)
    have haP : a ∉ P := by
      have h1 : (P ++ a :: qr).Nodup := (List.nodup_append.1 hnd).2.1
      intro h
      exact (List.disjoint_of_nodup_append h1) h (by simp)
    have haBase : a ∉ done ++ P := by
      intro h
      rcases List.mem_append.1 h with h | h
      · exact hadone h
      · exact haP h
    obtain ⟨dl, hdl, hdlnd, hdlc⟩ := hG a haid
    have hNform : ∀ z, z ∈ N ↔
        (z ∈ nodes.map DagNode.id ∧ z ∉ done ++ (P ++ a :: qr) ∧
          depsOf nodes z ⊆ done ++ P) ∨
        (z ∈ ([] : List String) ∧
          depsOf nodes z ⊆ (done ++ P) ++ [a]) := by
      intro z
      rw [hN z]
      simp
    obtain ⟨d1, d2, d3, d4, d5⟩ := decFold_spec nodes a (done ++ P) haBase
      hdepsnd
      (fun z => z ∈ nodes.map DagNode.id ∧
        z ∉ done ++ (P ++ a :: qr) ∧ depsOf nodes z ⊆ done ++ P)
      (fun z hz => hz.2.2) dl [] ind N (by simpa using hdlnd)
      (by
        intro z hz
        exact (hdlc z).1 (by simpa using hz))
      (fun z hz _ => hind z hz) (by simp) hkeys hNform hNnd
    have hstep_eq : processId G (ind, N) a = dl.foldl decStep (ind, N) := by
      rw [processId_eq, hdl]
      rfl
    have hind' : ∀ z ∈ nodes.map DagNode.id,
        alGet (dl.foldl decStep (ind, N)).1 z =
          some (((depsOf nodes z).filter
            (fun d => ¬ d ∈ done ++ (P ++ [a]))).length : Int) := by
      intro z hz
      have hassoc : done ++ (P ++ [a]) = (done ++ P) ++ [a] := by simp
      rw [hassoc]
      by_cases hzdl : z ∈ dl
      · simpa using d2 z (by simpa using hzdl)
      · have hza : a ∉ depsOf nodes z := by
          intro h
          exact hzdl ((hdlc z).2 ⟨hz, h⟩)
        rw [filter_out_extra (done ++ P) a (depsOf nodes z) hza]
        exact d1 z hz (by simpa using hzdl)
    have hNc' : ∀ z, z ∈ (dl.foldl decStep (ind, N)).2 ↔
        z ∈ nodes.map DagNode.id ∧ z ∉ done ++ (P ++ a :: qr) ∧
          depsOf nodes z ⊆ done ++ (P ++ [a]) := by
      intro z
      rw [d4 z]
      have hassoc : done ++ (P ++ [a]) = (done ++ P) ++ [a] := by simp
      constructor
      · rintro (⟨hz, hnz, hs⟩ | ⟨hzdl, hs⟩)
        · exact ⟨hz, hnz, by
            rw [hassoc]
            intro d hd
            rcases List.mem_append.1 (hs hd) with h | h <;>
              simp [List.mem_append, h]⟩
        · have hzdl' : z ∈ dl := by simpa using hzdl
          obtain ⟨hz, hza⟩ := (hdlc z).1 hzdl'
          refine ⟨hz, ?_, by rw [hassoc]; exact hs⟩
          intro hmem
          rcases List.mem_append.1 hmem with h | h
          · have := hdc z h hza
            exact hadone this
          · have := hpc z h hza
            exact hadone this
      · rintro ⟨hz, hnz, hs⟩
        rw [hassoc] at hs
        by_cases hza : a ∈ depsOf nodes z
        · exact Or.inr ⟨by simpa using (hdlc z).2 ⟨hz, hza⟩, hs⟩
        · refine Or.inl ⟨hz, hnz, ?_⟩
          intro d hd
          rcases List.mem_append.1 (hs hd) with h | h
          · exact h
          · simp only [List.mem_singleton] at h
            subst h
            exact absurd hd hza
    have hfold : (a :: qr).foldl (processId G) (ind, N) =
        qr.foldl (processId G) (dl.foldl decStep (ind, N)) := by
      rw [List.foldl_cons, hstep_eq]
    have happ : ∀ l : List String, done ++ ((P ++ [a]) ++ l) =
        done ++ (P ++ a :: l) := by
      intro l
      simp
    obtain ⟨e1, e2, e3, e4⟩ := ih (P ++ [a]) done
      (dl.foldl decStep (ind, N)).1 (dl.foldl decStep (ind, N)).2
      (by rw [happ qr]; exact hnd) hdsub
      (by
        intro z hz
        apply hpsub
        rcases List.mem_append.1 hz with h | h
        · rcases List.mem_append.1 h with h | h
          · simp [List.mem_append, h]
          · simp only [List.mem_singleton] at h
            simp [h]
        · simp [List.mem_append, h])
      hdc
      (by
        intro z hz
        apply hpc
        rcases List.mem_append.1 hz with h | h
        · rcases List.mem_append.1 h with h | h
          · simp [List.mem_append, h]
          · simp only [List.mem_singleton] at h
            simp [h]
        · simp [List.mem_append, h])
      hind' d3
      (by
        intro z
        rw [hNc' z, happ qr])
      d5
    rw [hfold]
    refine ⟨?_, e2, ?_, e4⟩
    · intro z hz
      rw [e1 z hz, happ qr]
    · intro z
      rw [e3 z, happ qr]

/-- The conclusions of `kahnLoop_spec` in the terminated state (empty
queue): nothing more is emitted. -/
theorem kahn_done_state (nodes : List DagNode) (done : List String)
    (ind : List (String × Int)) (hnd : done.Nodup)
    (hqi : ∀ id ∈ nodes.map DagNode.id,
      (id ∈ done ∨ id ∈ ([] : List String)) ↔ depsOf nodes id ⊆ done)
    (hind : ∀ id ∈ nodes.map DagNode.id, alGet ind id =
      some (((depsOf nodes id).filter
        (fun d => ¬ d ∈ done)).length : Int))
    (hkeys : ind.map Prod.fst = nodes.map DagNode.id) :
    (done ++ ([] : List String)).Nodup ∧
    ([] : List String) ⊆ nodes.map DagNode.id ∧
    (([] : List (List String)).join = ([] : List String)) ∧
    (∀ k b, (([] : List (List String))).get? k = some b → ∀ id ∈ b,
      depsOf nodes id ⊆ done ++ (([] : List (List String)).take k).join) ∧
    (∀ k, ∀ id ∈ nodes.map DagNode.id,
      depsOf nodes id ⊆ done ++ (([] : List (List String)).take k).join →
      id ∈ done ++ (([] : List (List String)).take (k + 1)).join) ∧
    (∀ id ∈ nodes.map DagNode.id,
      (id ∈ done ++ ([] : List String) ↔
        depsOf nodes id ⊆ done ++ ([] : List String))) ∧
    (∀ id ∈ nodes.map DagNode.id, alGet ind id =
      some (((depsOf nodes id).filter
        (fun d => ¬ d ∈ done ++ ([] : List String))).length : Int)) ∧
    ind.map Prod.fst = nodes.map DagNode.id := by
  refine ⟨by simpa using hnd, by simp, rfl, ?_, ?_, ?_, ?_, hkeys⟩
  · intro k b hb
    simp at hb
  · intro k id hid hdep
    simp only [List.take_nil, List.join_nil, List.append_nil] at hdep ⊢
    rcases (hqi id hid).2 hdep with h | h
    · exact h
    · exact absurd h (List.not_mem_nil id)
  · intro id hid
    simp only [List.append_nil]
    constructor
    · intro h
      exact (hqi id hid).1 (Or.inl h)
    · intro h
      rcases (hqi id hid).2 h with h' | h'
      · exact h'
      · exact absurd h' (List.not_mem_nil id)
  · intro id hid
    simpa using hind id hid

/-- Full invariant of the batched Kahn loop: given a sound batch-boundary
state, the loop emits a duplicate-free order whose batches join to it,
every batch's dependencies lie in earlier batches (beyond `done`), every
batch is maximal, the emitted ids are exactly those whose dependencies got
satisfied, and the final in-degrees count the dependencies still outside
`done` and the order. -/
theorem kahnLoop_spec (nodes : List DagNode)
    (hdepsnd : ∀ z ∈ nodes.map DagNode.id, (depsOf nodes z).Nodup)
    (G : Graph)
    (hG : ∀ d ∈ nodes.map DagNode.id, ∃ dl, alGet G d = some dl ∧
      dl.Nodup ∧ (∀ z, z ∈ dl ↔ z ∈ nodes.map DagNode.id ∧
        d ∈ depsOf nodes z)) :
    ∀ (fuel : Nat) (done queue : List String) (ind : List (String × Int)),
      (done ++ queue).Nodup →
      done ⊆ nodes.map DagNode.id → queue ⊆ nodes.map DagNode.id →
      (∀ z ∈ done, depsOf nodes z ⊆ done) →
      (∀ z ∈ queue, depsOf nodes z ⊆ done) →
      (∀ id ∈ nodes.map DagNode.id,
        (id ∈ done ∨ id ∈ queue) ↔ depsOf nodes id ⊆ done) →
      (∀ id ∈ nodes.map DagNode.id, alGet ind id =
        some (((depsOf nodes id).filter
          (fun d => ¬ d ∈ done)).length : Int)) →
      ind.map Prod.fst = nodes.map DagNode.id →
      nodes.length < fuel + done.length →
      ∀ ord bs indF, kahnLoop G fuel queue ind = (ord, bs, indF) →
      (done ++ ord).Nodup ∧
      ord ⊆ nodes.map DagNode.id ∧
      bs.join = ord ∧
      (∀ k b, bs.get? k = some b → ∀ id ∈ b,
        depsOf nodes id ⊆ done ++ (bs.take k).join) ∧
      (∀ k, ∀ id ∈ nodes.map DagNode.id,
        depsOf nodes id ⊆ done ++ (bs.take k).join →
        id ∈ done ++ (bs.take (k + 1)).join) ∧
      (∀ id ∈ nodes.map DagNode.id,
        (id ∈ done ++ ord ↔ depsOf nodes id ⊆ done ++ ord)) ∧
      (∀ id ∈ nodes.map DagNode.id, alGet indF id =
        some (((depsOf nodes id).filter
          (fun d => ¬ d ∈ done ++ ord)).length : Int)) ∧
      indF.map Prod.fst = nodes.map DagNode.id := by
  intro fuel
  induction fuel with
  | zero =>
    intro done queue ind hnd hdsub hqsub hdc hqc hqi hind hkeys hfuel
    rcases queue with _ | ⟨z, q'⟩
    · intro ord bs indF heq
      simp only [kahnLoop, Prod.mk.injEq] at heq
      obtain ⟨h1, h2, h3⟩ := heq
      subst h1
      subst h2
      subst h3
      exact kahn_done_state nodes done ind (by simpa using hnd) hqi hind
        hkeys
    · exfalso
      have hsub : done ++ z :: q' ⊆ nodes.map DagNode.id := by
        intro x hx
        rcases List.mem_append.1 hx with h | h
        · exact hdsub h
        · exact hqsub h
      have hlen := (List.subperm_of_subset hnd hsub).length_le
      simp only [List.length_append, List.length_cons, List.length_map]
        at hlen
      omega
  | succ fuel ih =>
    intro done queue ind hnd hdsub hqsub hdc hqc hqi hind hkeys hfuel
    rcases queue with _ | ⟨z, q'⟩
    · intro ord bs indF heq
      simp only [kahnLoop, Prod.mk.injEq] at heq
      obtain ⟨h1, h2, h3⟩ := heq
      subst h1
      subst h2
      subst h3
      exact kahn_done_state nodes done ind (by simpa using hnd) hqi hind
        hkeys
    · intro ord bs indF heq
      have hqnd : (done ++ (z :: q')).Nodup := hnd
      have hNnil : ∀ w : String, w ∈ ([] : List String) ↔
          w ∈ nodes.map DagNode.id ∧
          w ∉ done ++ ([] ++ (z :: q')) ∧
          depsOf nodes w ⊆ done ++ ([] : List String) := by
        intro w
        constructor
        · intro hw
          exact absurd hw (List.not_mem_nil w)
        · rintro ⟨hw, hnm, hs⟩
          exfalso
          apply hnm
          have hs' : depsOf nodes w ⊆ done := by simpa using hs
          rcases (hqi w hw).2 hs' with h | h
          · simp [List.mem_append, h]
          · simp [List.mem_append, h]
      obtain ⟨C1, C2, C3, C4⟩ := processBatch_spec nodes G hdepsnd hG
        (z :: q') [] done ind [] (by simpa using hnd) hdsub
        (by simpa using hqsub) hdc (by simpa using hqc)
        (by simpa using hind) hkeys hNnil List.nodup_nil
      have hstp1 : ∀ id ∈ nodes.map DagNode.id,
          alGet ((z :: q').foldl (processId G) (ind, [])).1 id =
            some (((depsOf nodes id).filter
              (fun d => ¬ d ∈ done ++ (z :: q'))).length : Int) := by
        intro id hid
        simpa using C1 id hid
      have hstp2 : ∀ w, w ∈ ((z :: q').foldl (processId G) (ind, [])).2 ↔
          w ∈ nodes.map DagNode.id ∧ w ∉ done ++ (z :: q') ∧
            depsOf nodes w ⊆ done ++ (z :: q') := by
        intro w
        simpa using C3 w
      have hq'sub : ((z :: q').foldl (processId G) (ind, [])).2 ⊆
          nodes.map DagNode.id := by
        intro w hw
        exact ((hstp2 w).1 hw).1
      have hndq : (done ++ (z :: q') ++
          ((z :: q').foldl (processId G) (ind, [])).2).Nodup := by
        rw [List.nodup_append]
        refine ⟨hqnd, C4, ?_⟩
        intro w hw hw2
        exact ((hstp2 w).1 hw2).2.1 hw
      have hd'sub : done ++ (z :: q') ⊆ nodes.map DagNode.id := by
        intro w hw
        rcases List.mem_append.1 hw with h | h
        · exact hdsub h
        · exact hqsub h
      have hd'c : ∀ w ∈ done ++ (z :: q'),
          depsOf nodes w ⊆ done ++ (z :: q') := by
        intro w hw
        rcases List.mem_append.1 hw with h | h
        · intro d hd
          simp [List.mem_append, hdc w h hd]
        · intro d hd
          simp [List.mem_append, hqc w h hd]
      have hq'c : ∀ w ∈ ((z :: q').foldl (processId G) (ind, [])).2,
          depsOf nodes w ⊆ done ++ (z :: q') := by
        intro w hw
        exact ((hstp2 w).1 hw).2.2
      have hqi' : ∀ id ∈ nodes.map DagNode.id,
          (id ∈ done ++ (z :: q') ∨
            id ∈ ((z :: q').foldl (processId G) (ind, [])).2) ↔
          depsOf nodes id ⊆ done ++ (z :: q') := by
        intro id hid
        constructor
        · rintro (h | h)
          · exact hd'c id h
          · exact ((hstp2 id).1 h).2.2
        · intro hs
          by_cases hmem : id ∈ done ++ (z :: q')
          · exact Or.inl hmem
          · exact Or.inr ((hstp2 id).2 ⟨hid, hmem, hs⟩)
      have hfuel' : nodes.length < fuel + (done ++ (z :: q')).length := by
        simp only [List.length_append, List.length_cons]
        omega
      rcases hrec : kahnLoop G fuel
        ((z :: q').foldl (processId G) (ind, [])).2
        ((z :: q').foldl (processId G) (ind, [])).1 with ⟨ord', rest2⟩
      rcases rest2 with ⟨bs', indF'⟩
      obtain ⟨R1, R2, R3, R4, R5, R6, R7, R8⟩ := ih (done ++ (z :: q'))
        ((z :: q').foldl (processId G) (ind, [])).2
        ((z :: q').foldl (processId G) (ind, [])).1
        hndq hd'sub hq'sub hd'c hq'c hqi' hstp1 C2 hfuel' ord' bs' indF'
        hrec
      have hunfold : kahnLoop G (fuel + 1) (z :: q') ind =
          ((z :: q') ++ ord', (z :: q') :: bs', indF') := by
        have hdefn : kahnLoop G (fuel + 1) (z :: q') ind =
            ((z :: q') ++ (kahnLoop G fuel
              ((z :: q').foldl (processId G) (ind, [])).2
              ((z :: q').foldl (processId G) (ind, [])).1).1,
             (z :: q') :: (kahnLoop G fuel
              ((z :: q').foldl (processId G) (ind, [])).2
              ((z :: q').foldl (processId G) (ind, [])).1).2.1,
             (kahnLoop G fuel
              ((z :: q').foldl (processId G) (ind, [])).2
              ((z :: q').foldl (processId G) (ind, [])).1).2.2) := rfl
        rw [hdefn, hrec]
      rw [hunfold] at heq
      simp only [Prod.mk.injEq] at heq
      obtain ⟨h1, h2, h3⟩ := heq
      subst h1
      subst h2
      subst h3
      refine ⟨?_, ?_, ?_, ?_, ?_, ?_, ?_, R8⟩
      · rw [← List.append_assoc]
        exact R1
      · intro w hw
        rcases List.mem_append.1 hw with h | h
        · exact hqsub h
        · exact R2 h
      · simp only [List.join_cons, R3]
      · intro k b hb id hid
        rcases k with _ | k
        · simp only [List.get?_cons_zero, Option.some_inj] at hb
          subst hb
          intro d hd
          simp [List.mem_append, hqc id hid hd]
        · simp only [List.get?_cons_succ] at hb
          intro d hd
          have h2 := R4 k b hb id hid hd
          simp only [List.take_succ_cons, List.join_cons]
          rw [← List.append_assoc]
          exact h2
      · intro k id hid hdep
        rcases k with _ | k
        · have hdep' : depsOf nodes id ⊆ done := by simpa using hdep
          have hmem := (hqi id hid).2 hdep'
          simp only [List.take_succ_cons, List.take_zero, List.join_cons,
            List.join_nil, List.append_nil]
          rcases hmem with h | h
          · simp [List.mem_append, h]
          · simp [List.mem_append, h]
        · have hdep' : depsOf nodes id ⊆
              (done ++ (z :: q')) ++ (bs'.take k).join := by
            intro d hd
            have h2 := hdep hd
            simp only [List.take_succ_cons, List.join_cons] at h2
            rw [← List.append_assoc] at h2
            exact h2
          have h3 := R5 k id hid hdep'
          simp only [List.take_succ_cons, List.join_cons]
          rw [← List.append_assoc]
          exact h3
      · intro id hid
        rw [← List.append_assoc]
        exact R6 id hid
      · intro id hid
        rw [← List.append_assoc]
        exact R7 id hid

/-! ## Planner assembly helpers -/

theorem mem_iff_alGet {α : Type} (l : List (String × α))
    (hnd : (l.map Prod.fst).Nodup) (k : String) (v : α) :
    (k, v) ∈ l ↔ alGet l k = some v := by
  induction l with
  | nil => simp [alGet]
  | cons hd tl ih =>
    rcases hd with ⟨a, b⟩
    have hnd' : (tl.map Prod.fst).Nodup :=
      (List.nodup_cons.1 (by simpa using hnd)).2
    by_cases hk : a = k
    · subst hk
      have hknot : a ∉ tl.map Prod.fst :=
        (List.nodup_cons.1 (by simpa using hnd)).1
      simp only [alGet, if_pos rfl, List.mem_cons, Prod.mk.injEq]
      constructor
      · rintro (⟨_, rfl⟩ | hmem)
        · rfl
        · exact absurd (List.mem_map_of_mem Prod.fst hmem) hknot
      · intro h
        exact Or.inl ⟨trivial, (Option.some_inj.1 h).symm⟩
    · simp only [alGet, if_neg hk, List.mem_cons, Prod.mk.injEq]
      rw [← ih hnd']
      constructor
      · rintro (⟨h, _⟩ | h)
        · exact absurd h.symm hk
        · exact h
      · exact Or.inr

theorem filterMap_if_sublist (p : Int → Prop) [DecidablePred p] :
    ∀ l : List (String × Int),
      (l.filterMap (fun e => if p e.2 then some e.1 else none)).Sublist
        (l.map Prod.fst) := by
  intro l
  induction l with
  | nil => simp
  | cons hd tl ih =>
    rcases hd with ⟨a, b⟩
    by_cases hb : p b
    · simpa [List.filterMap_cons, hb] using ih.cons₂ a
    · simp only [List.filterMap_cons, hb, if_false, List.map_cons]
      exact ih.cons a

theorem mem_filterMap_if (p : Int → Prop) [DecidablePred p]
    (l : List (String × Int)) (z : String) :
    z ∈ l.filterMap (fun e => if p e.2 then some e.1 else none) ↔
      ∃ v, (z, v) ∈ l ∧ p v := by
  rw [List.mem_filterMap]
  constructor
  · rintro ⟨⟨a, v⟩, hmem, hf⟩
    by_cases hp : p v
    · rw [if_pos hp] at hf
      have ha : a = z := Option.some_inj.1 hf
      subst ha
      exact ⟨v, hmem, hp⟩
    · rw [if_neg hp] at hf
      exact Option.noConfusion hf
  · rintro ⟨v, hmem, hp⟩
    exact ⟨(z, v), hmem, by rw [if_pos hp]⟩

theorem buildDeps_keys (n : DagNode) :
    ∀ (ds : List String) (G : Graph) (I : List (String × Int)),
      (∀ d ∈ ds, d ∈ G.map Prod.fst) → n.id ∉ ds →
      n.id ∈ I.map Prod.fst →
      ∃ G' I', ds.foldlM (depStep n) (G, I) = .ok (G', I') ∧
        G'.map Prod.fst = G.map Prod.fst ∧
        I'.map Prod.fst = I.map Prod.fst := by
  intro ds
  induction ds with
  | nil => intro G I _ _ _; exact ⟨G, I, rfl, rfl, rfl⟩
  | cons d ds ih =>
    intro G I hkeys hself hik
    have hdk : d ∈ G.map Prod.fst := hkeys d (by simp)
    obtain ⟨dl, hdl⟩ := Option.isSome_iff_exists.1 ((alGet_isSome_iff G d).2 hdk)
    have hne : d ≠ n.id := fun h => hself (by simp [h])
    have hstep := depStep_ok n G I d dl hdl hne
    have hkG1 : (alSet G d (addUnique dl n.id)).map Prod.fst =
        G.map Prod.fst := alSet_keys_of_mem G d _ hdk
    have hkI1 : (alSet I n.id ((alGet I n.id).getD 0 + 1)).map Prod.fst =
        I.map Prod.fst := alSet_keys_of_mem I n.id _ hik
    obtain ⟨G', I', hfold, hg, hi⟩ := ih (alSet G d (addUnique dl n.id))
      (alSet I n.id ((alGet I n.id).getD 0 + 1))
      (by
        intro d' hd'
        rw [hkG1]
        exact hkeys d' (by simp [hd']))
      (fun h => hself (by simp [h]))
      (by rw [hkI1]; exact hik)
    refine ⟨G', I', ?_, by rw [hg, hkG1], by rw [hi, hkI1]⟩
    rw [List.foldlM_cons, hstep, except_ok_bind, hfold]

theorem buildDeps_missing (n : DagNode) :
    ∀ (ds : List String) (G : Graph) (I : List (String × Int)),
      n.id ∉ ds → (∃ d ∈ ds, d ∉ G.map Prod.fst) →
      ∃ b, ds.foldlM (depStep n) (G, I) = .error (.missingDep n.id b) ∧
        b ∈ ds ∧ b ∉ G.map Prod.fst := by
  intro ds
  induction ds with
  | nil => intro G I _ h; simp at h
  | cons d ds ih =>
    intro G I hself hmiss
    by_cases hdk : d ∈ G.map Prod.fst
    · obtain ⟨dl, hdl⟩ := Option.isSome_iff_exists.1
        ((alGet_isSome_iff G d).2 hdk)
      have hne : d ≠ n.id := fun h => hself (by simp [h])
      have hstep := depStep_ok n G I d dl hdl hne
      have hkG1 : (alSet G d (addUnique dl n.id)).map Prod.fst =
          G.map Prod.fst := alSet_keys_of_mem G d _ hdk
      have hmiss' : ∃ b ∈ ds, b ∉ (alSet G d (addUnique dl n.id)).map
          Prod.fst := by
        obtain ⟨b, hb, hbk⟩ := hmiss
        rcases List.mem_cons.1 hb with rfl | hb'
        · exact absurd hdk hbk
        · exact ⟨b, hb', by rw [hkG1]; exact hbk⟩
      obtain ⟨b, hfold, hbds, hbk⟩ := ih (alSet G d (addUnique dl n.id))
        (alSet I n.id ((alGet I n.id).getD 0 + 1))
        (fun h => hself (by simp [h])) hmiss'
      refine ⟨b, ?_, by simp [hbds], by rw [hkG1] at hbk; exact hbk⟩
      rw [List.foldlM_cons, hstep, except_ok_bind, hfold]
    · have hnone : alGet G d = none :=
        (alGet_eq_none_iff G d).2 hdk
      refine ⟨d, ?_, by simp, hdk⟩
      rw [List.foldlM_cons]
      have hstep : depStep n (G, I) d = .error (.missingDep n.id d) := by
        simp [depStep, hnone]
      rw [hstep, except_error_bind]

theorem buildDeps_self (n : DagNode) :
    ∀ (ds : List String) (G : Graph) (I : List (String × Int)),
      (∀ d ∈ ds, d ∈ G.map Prod.fst) → n.id ∈ ds →
      ds.foldlM (depStep n) (G, I) = .error (.selfDep n.id) := by
  intro ds
  induction ds with
  | nil => intro G I _ h; simp at h
  | cons d ds ih =>
    intro G I hkeys hself
    have hdk : d ∈ G.map Prod.fst := hkeys d (by simp)
    obtain ⟨dl, hdl⟩ := Option.isSome_iff_exists.1
      ((alGet_isSome_iff G d).2 hdk)
    by_cases hdn : d = n.id
    · subst hdn
      rw [List.foldlM_cons]
      have hstep : depStep n (G, I) n.id = .error (.selfDep n.id) := by
        simp [depStep, hdl]
      rw [hstep, except_error_bind]
    · have hstep := depStep_ok n G I d dl hdl hdn
      have hkG1 : (alSet G d (addUnique dl n.id)).map Prod.fst =
          G.map Prod.fst := alSet_keys_of_mem G d _ hdk
      have hself' : n.id ∈ ds := by
        rcases List.mem_cons.1 hself with h | h
        · exact absurd h.symm hdn
        · exact h
      rw [List.foldlM_cons, hstep, except_ok_bind]
      exact ih (alSet G d (addUnique dl n.id))
        (alSet I n.id ((alGet I n.id).getD 0 + 1))
        (by
          intro d' hd'
          rw [hkG1]
          exact hkeys d' (by simp [hd'])) hself'

theorem buildGraph_missing (nodes : List DagNode)
    (hselfree : ∀ n ∈ nodes, n.id ∉ n.dependsOn) :
    ∀ (ns : List DagNode) (G : Graph) (I : List (String × Int)),
      G.map Prod.fst = nodes.map DagNode.id →
      I.map Prod.fst = nodes.map DagNode.id →
      (∀ n ∈ ns, n ∈ nodes) →
      (∃ n ∈ ns, ∃ d ∈ n.dependsOn, d ∉ nodes.map DagNode.id) →
      ∃ a b, ns.foldlM (fun st node => buildDeps node st) (G, I) =
        .error (.missingDep a b) ∧
        ∃ n ∈ ns, n.id = a ∧ b ∈ n.dependsOn ∧
          b ∉ nodes.map DagNode.id := by
  intro ns
  induction ns with
  | nil => intro G I _ _ _ h; simp at h
  | cons n ns ih =>
    intro G I hGk hIk hsub hmiss
    have hn : n ∈ nodes := hsub n (by simp)
    by_cases hmn : ∃ d ∈ n.dependsOn, d ∉ nodes.map DagNode.id
    · obtain ⟨b, hfold, hbds, hbk⟩ := buildDeps_missing n n.dependsOn G I
        (hselfree n hn) (by
          obtain ⟨d, hd, hdk⟩ := hmn
          exact ⟨d, hd, by rw [hGk]; exact hdk⟩)
      refine ⟨n.id, b, ?_, n, by simp, rfl, hbds,
        by rw [hGk] at hbk; exact hbk⟩
      rw [List.foldlM_cons]
      have : buildDeps n (G, I) = .error (.missingDep n.id b) := by
        rw [buildDeps_eq]
        exact hfold
      rw [this, except_error_bind]
    · push_neg at hmn
      obtain ⟨G', I', hfold, hg, hi⟩ := buildDeps_keys n n.dependsOn G I
        (by
          intro d hd
          rw [hGk]
          exact hmn d hd)
        (hselfree n hn)
        (by rw [hIk]; exact List.mem_map_of_mem DagNode.id hn)
      have hmiss' : ∃ m ∈ ns, ∃ d ∈ m.dependsOn,
          d ∉ nodes.map DagNode.id := by
        obtain ⟨m, hm, d, hd, hdk⟩ := hmiss
        rcases List.mem_cons.1 hm with rfl | hm'
        · exact absurd hdk (by simpa using hmn d hd)
        · exact ⟨m, hm', d, hd, hdk⟩
      obtain ⟨a, b, hfold2, m, hm, hma, hbd, hbk⟩ := ih G' I'
        (by rw [hg, hGk]) (by rw [hi, hIk])
        (fun x hx => hsub x (by simp [hx])) hmiss'
      refine ⟨a, b, ?_, m, by simp [hm], hma, hbd, hbk⟩
      rw [List.foldlM_cons]
      have : buildDeps n (G, I) = .ok (G', I') := by
        rw [buildDeps_eq]
        exact hfold
      rw [this, except_ok_bind, hfold2]

theorem buildGraph_self (nodes : List DagNode)
    (hreg : ∀ n ∈ nodes, ∀ d ∈ n.dependsOn, d ∈ nodes.map DagNode.id) :
    ∀ (ns : List DagNode) (G : Graph) (I : List (String × Int)),
      G.map Prod.fst = nodes.map DagNode.id →
      I.map Prod.fst = nodes.map DagNode.id →
      (∀ n ∈ ns, n ∈ nodes) →
      (∃ n ∈ ns, n.id ∈ n.dependsOn) →
      ∃ a, ns.foldlM (fun st node => buildDeps node st) (G, I) =
        .error (.selfDep a) ∧
        ∃ n ∈ ns, n.id = a ∧ a ∈ n.dependsOn := by
  intro ns
  induction ns with
  | nil => intro G I _ _ _ h; simp at h
  | cons n ns ih =>
    intro G I hGk hIk hsub hself
    have hn : n ∈ nodes := hsub n (by simp)
    by_cases hsn : n.id ∈ n.dependsOn
    · have hfold := buildDeps_self n n.dependsOn G I
        (by
          intro d hd
          rw [hGk]
          exact hreg n hn d hd) hsn
      refine ⟨n.id, ?_, n, by simp, rfl, hsn⟩
      rw [List.foldlM_cons]
      have : buildDeps n (G, I) = .error (.selfDep n.id) := by
        rw [buildDeps_eq]
        exact hfold
      rw [this, except_error_bind]
    · obtain ⟨G', I', hfold, hg, hi⟩ := buildDeps_keys n n.dependsOn G I
        (by
          intro d hd
          rw [hGk]
          exact hreg n hn d hd) hsn
        (by rw [hIk]; exact List.mem_map_of_mem DagNode.id hn)
      have hself' : ∃ m ∈ ns, m.id ∈ m.dependsOn := by
        obtain ⟨m, hm, hmd⟩ := hself
        rcases List.mem_cons.1 hm with rfl | hm'
        · exact absurd hmd hsn
        · exact ⟨m, hm', hmd⟩
      obtain ⟨a, hfold2, m, hm, hma, hmd⟩ := ih G' I'
        (by rw [hg, hGk]) (by rw [hi, hIk])
        (fun x hx => hsub x (by simp [hx])) hself'
      refine ⟨a, ?_, m, by simp [hm], hma, hmd⟩
      rw [List.foldlM_cons]
      have : buildDeps n (G, I) = .ok (G', I') := by
        rw [buildDeps_eq]
        exact hfold
      rw [this, except_ok_bind, hfold2]

theorem list_exists_min (l : List String) (f : String → Nat) (h : l ≠ []) :
    ∃ a ∈ l, ∀ b ∈ l, f a ≤ f b := by
  obtain ⟨a, ha, hmin⟩ := Finset.exists_min_image l.toFinset f (by
    simpa [Finset.nonempty_iff_ne_empty, List.toFinset_eq_empty_iff] using h)
  exact ⟨a, by simpa using ha, fun b hb => hmin b (by simpa using hb)⟩

/-- The planner on a valid node set: success yields a duplicate-free
order that permutes the registry's ids, batches joining to the order with
dependencies strictly in earlier batches and each batch maximal; it
succeeds on every acyclic set; and its only failure mode is a cycle error
whose (duplicate-free, nonempty) id list is closed under "has an
unresolved dependency": every listed id has a dependency in the list. -/
theorem defaultPlanner_master (nodes : List DagNode)
    (hval : ValidNodeSet nodes) :
    (∀ plan, defaultPlanner nodes = .ok plan →
      plan.order.Nodup ∧ plan.order.Perm (nodes.map DagNode.id) ∧
      plan.batches.join = plan.order ∧
      (∀ k b, plan.batches.get? k = some b → ∀ id ∈ b,
        depsOf nodes id ⊆ (plan.batches.take k).join) ∧
      (∀ k, ∀ id ∈ nodes.map DagNode.id,
        depsOf nodes id ⊆ (plan.batches.take k).join →
        id ∈ (plan.batches.take (k + 1)).join)) ∧
    (DagAcyclic nodes → ∃ plan, defaultPlanner nodes = .ok plan) ∧
    (∀ e, defaultPlanner nodes = .error e → ∃ l, e = .cycle l ∧
      l.Nodup ∧ l ≠ [] ∧ (∀ z ∈ l, z ∈ nodes.map DagNode.id ∧
        ∃ d ∈ depsOf nodes z, d ∈ l)) := by
  obtain ⟨hids, hreg, hselfree, hdnd⟩ := hval
  have hdepsnd : ∀ z ∈ nodes.map DagNode.id, (depsOf nodes z).Nodup := by
    intro z hz
    obtain ⟨n, hn, rfl⟩ := List.mem_map.1 hz
    rw [depsOf_of_mem nodes hids n hn]
    exact hdnd n hn
  have hdepsreg : ∀ z ∈ nodes.map DagNode.id,
      depsOf nodes z ⊆ nodes.map DagNode.id := by
    intro z hz
    obtain ⟨n, hn, rfl⟩ := List.mem_map.1 hz
    rw [depsOf_of_mem nodes hids n hn]
    exact hreg n hn
  have hinit := plannerInit_ok nodes hids
  obtain ⟨Gf, If, hbuild, hGk, hIk, hGc, hIc⟩ := buildGraph_ok nodes
    ⟨hids, hreg, hselfree, hdnd⟩
  have hGc' : ∀ d ∈ nodes.map DagNode.id, ∃ dl, alGet Gf d = some dl ∧
      dl.Nodup ∧ (∀ z, z ∈ dl ↔ z ∈ nodes.map DagNode.id ∧
        d ∈ depsOf nodes z) := by
    intro d hd
    obtain ⟨dl, h1, h2, h3⟩ := hGc d hd
    refine ⟨dl, h1, h2, ?_⟩
    intro z
    rw [h3 z]
    constructor
    · rintro ⟨m, hm, rfl, hmd⟩
      exact ⟨List.mem_map_of_mem _ hm,
        by rw [depsOf_of_mem nodes hids m hm]; exact hmd⟩
    · rintro ⟨hz, hdz⟩
      obtain ⟨m, hm, rfl⟩ := List.mem_map.1 hz
      exact ⟨m, hm, rfl,
        by rwa [depsOf_of_mem nodes hids m hm] at hdz⟩
  have hIknd : (If.map Prod.fst).Nodup := by rw [hIk]; exact hids
  have hq0mem : ∀ z, z ∈ If.filterMap
      (fun e => if e.2 = 0 then some e.1 else none) ↔
      z ∈ nodes.map DagNode.id ∧ depsOf nodes z = [] := by
    intro z
    rw [mem_filterMap_if (fun v => v = 0) If z]
    constructor
    · rintro ⟨v, hv, rfl⟩
      have hzk : z ∈ nodes.map DagNode.id := by
        rw [← hIk]
        exact List.mem_map_of_mem Prod.fst hv
      obtain ⟨n, hn, rfl⟩ := List.mem_map.1 hzk
      have hget := (mem_iff_alGet If hIknd n.id 0).1 hv
      rw [hIc n hn] at hget
      have hlen : (n.dependsOn.length : Int) = 0 :=
        (Option.some_inj.1 hget)
      have hnil : n.dependsOn = [] :=
        List.length_eq_zero.1 (by exact_mod_cast hlen)
      exact ⟨hzk, by rw [depsOf_of_mem nodes hids n hn]; exact hnil⟩
    · rintro ⟨hz, hdeps⟩
      obtain ⟨n, hn, rfl⟩ := List.mem_map.1 hz
      have hdeps' : n.dependsOn = [] := by
        rwa [depsOf_of_mem nodes hids n hn] at hdeps
      refine ⟨0, ?_, rfl⟩
      rw [mem_iff_alGet If hIknd, hIc n hn, hdeps']
      simp
  have hq0nd : (If.filterMap
      (fun e => if e.2 = 0 then some e.1 else none)).Nodup :=
    (filterMap_if_sublist (fun v => v = 0) If).nodup hIknd
  have hq0sub : If.filterMap (fun e => if e.2 = 0 then some e.1 else none) ⊆
      nodes.map DagNode.id := by
    intro z hz
    exact ((hq0mem z).1 hz).1
  have hind0 : ∀ id ∈ nodes.map DagNode.id, alGet If id =
      some (((depsOf nodes id).filter
        (fun d => ¬ d ∈ ([] : List String))).length : Int) := by
    intro id hid
    obtain ⟨n, hn, rfl⟩ := List.mem_map.1 hid
    rw [hIc n hn, depsOf_of_mem nodes hids n hn]
    have hfe : (n.dependsOn.filter
        (fun d => ¬ d ∈ ([] : List String))) = n.dependsOn :=
      List.filter_eq_self.2 (fun a _ => by simp)
    rw [hfe]
  rcases hkres : kahnLoop Gf (nodes.length + 1)
    (If.filterMap (fun e => if e.2 = 0 then some e.1 else none)) If
    with ⟨ord, bs, indF⟩
  obtain ⟨K1, K2, K3, K4, K5, K6, K7, K8⟩ := kahnLoop_spec nodes hdepsnd
    Gf hGc' (nodes.length + 1) []
    (If.filterMap (fun e => if e.2 = 0 then some e.1 else none)) If
    (by simpa using hq0nd) (by simp) hq0sub (by simp)
    (by
      intro z hz
      rw [((hq0mem z).1 hz).2]
      simp)
    (by
      intro id hid
      constructor
      · rintro (h | h)
        · exact absurd h (List.not_mem_nil id)
        · rw [((hq0mem id).1 h).2]
          simp
      · intro hs
        refine Or.inr ((hq0mem id).2 ⟨hid, ?_⟩)
        rw [← List.subset_nil]
        exact hs)
    hind0 hIk (by omega) ord bs indF hkres
  have hordnd : ord.Nodup := by simpa using K1
  have hordiff : ∀ id ∈ nodes.map DagNode.id,
      (id ∈ ord ↔ depsOf nodes id ⊆ ord) := by
    intro id hid
    simpa using K6 id hid
  have hplanner_eq : defaultPlanner nodes =
      (if ord.length ≠ nodes.length then
        .error (.cycle (indF.filterMap
          (fun e => if e.2 > 0 then some e.1 else none)))
      else .ok ⟨ord, bs⟩) := by
    simp only [defaultPlanner, hinit, except_ok_bind, hbuild, hkres]
  have hlen_of_all : (∀ z ∈ nodes.map DagNode.id, z ∈ ord) →
      ord.length = nodes.length := by
    intro hall
    have h1 := (List.subperm_of_subset hordnd K2).length_le
    have h2 := (List.subperm_of_subset hids hall).length_le
    simp only [List.length_map] at h1 h2
    omega
  refine ⟨?_, ?_, ?_⟩
  · intro plan hok
    rw [hplanner_eq] at hok
    by_cases hlen : ord.length = nodes.length
    · rw [if_neg (by simpa using hlen)] at hok
      obtain rfl : DagPlan.mk ord bs = plan := Option.some_inj.1
        (congrArg (fun r => match r with
          | Except.ok p => some p
          | Except.error _ => none) hok)
      have hperm : ord.Perm (nodes.map DagNode.id) :=
        (List.subperm_of_subset hordnd K2).perm_of_length_le
          (by simp [hlen])
      refine ⟨hordnd, hperm, K3, ?_, ?_⟩
      · intro k b hb id hid
        have := K4 k b hb id hid
        simpa using this
      · intro k id hid hdep
        have := K5 k id hid (by simpa using hdep)
        simpa using this
    · rw [if_pos (by simpa using hlen)] at hok
      exact Except.noConfusion hok
  · rintro ⟨rank, hrank⟩
    have hlen : ord.length = nodes.length := by
      apply hlen_of_all
      by_contra hnot
      push_neg at hnot
      obtain ⟨z1, hz1, hz1n⟩ := hnot
      have hSne : (nodes.map DagNode.id).filter
          (fun z => ¬ z ∈ ord) ≠ [] := by
        intro hS
        have : z1 ∈ (nodes.map DagNode.id).filter (fun z => ¬ z ∈ ord) := by
          rw [List.mem_filter]
          exact ⟨hz1, by simpa using hz1n⟩
        rw [hS] at this
        exact absurd this (List.not_mem_nil z1)
      obtain ⟨z0, hz0S, hz0min⟩ := list_exists_min _ rank hSne
      have hz0 := List.mem_filter.1 hz0S
      have hz0id : z0 ∈ nodes.map DagNode.id := hz0.1
      have hz0no : z0 ∉ ord := by simpa using hz0.2
      have hnsub : ¬ depsOf nodes z0 ⊆ ord := by
        intro hs
        exact hz0no ((hordiff z0 hz0id).2 hs)
      obtain ⟨d, hd, hdno⟩ : ∃ d ∈ depsOf nodes z0, d ∉ ord := by
        by_contra hc
        push_neg at hc
        exact hnsub fun a ha => hc a ha
      have hdid : d ∈ nodes.map DagNode.id := hdepsreg z0 hz0id hd
      have hdS : d ∈ (nodes.map DagNode.id).filter
          (fun z => ¬ z ∈ ord) := by
        rw [List.mem_filter]
        exact ⟨hdid, by simpa using hdno⟩
      have hle := hz0min d hdS
      obtain ⟨n, hn, rfl⟩ := List.mem_map.1 hz0id
      rw [depsOf_of_mem nodes hids n hn] at hd
      have := hrank n hn d hd
      omega
    exact ⟨⟨ord, bs⟩, by rw [hplanner_eq, if_neg (by simpa using hlen)]⟩
  · intro e herr
    rw [hplanner_eq] at herr
    by_cases hlen : ord.length = nodes.length
    · rw [if_neg (by simpa using hlen)] at herr
      exact Except.noConfusion herr
    · rw [if_pos (by simpa using hlen)] at herr
      have hindFnd : (indF.map Prod.fst).Nodup := by
        rw [K8]
        exact hids
      have hK7 : ∀ id ∈ nodes.map DagNode.id, alGet indF id =
          some (((depsOf nodes id).filter
            (fun d => ¬ d ∈ ord)).length : Int) := by
        intro id hid
        simpa using K7 id hid
      have hlmem : ∀ z, z ∈ indF.filterMap
          (fun e => if e.2 > 0 then some e.1 else none) ↔
          z ∈ nodes.map DagNode.id ∧ z ∉ ord := by
        intro z
        rw [mem_filterMap_if (fun v => v > 0) indF z]
        constructor
        · rintro ⟨v, hv, hvpos⟩
          have hzk : z ∈ nodes.map DagNode.id := by
            rw [← K8]
            exact List.mem_map_of_mem Prod.fst hv
          have hget := (mem_iff_alGet indF hindFnd z v).1 hv
          rw [hK7 z hzk] at hget
          have hveq : v = (((depsOf nodes z).filter
              (fun d => ¬ d ∈ ord)).length : Int) :=
            (Option.some_inj.1 hget.symm)
          refine ⟨hzk, ?_⟩
          intro hzord
          have hsub : depsOf nodes z ⊆ ord := (hordiff z hzk).1 hzord
          have : ((depsOf nodes z).filter
              (fun d => ¬ d ∈ ord)).length = 0 :=
            (filter_len_zero_iff ord (depsOf nodes z)).2 hsub
          rw [hveq, this] at hvpos
          simp at hvpos
        · rintro ⟨hz, hzno⟩
          refine ⟨(((depsOf nodes z).filter
            (fun d => ¬ d ∈ ord)).length : Int), ?_, ?_⟩
          · rw [mem_iff_alGet indF hindFnd]
            exact hK7 z hz
          · have hnsub : ¬ depsOf nodes z ⊆ ord := by
              intro hs
              exact hzno ((hordiff z hz).2 hs)
            have : ((depsOf nodes z).filter
                (fun d => ¬ d ∈ ord)).length ≠ 0 := by
              intro h0
              exact hnsub ((filter_len_zero_iff ord (depsOf nodes z)).1 h0)
            omega
      refine ⟨indF.filterMap
        (fun e => if e.2 > 0 then some e.1 else none),
        (Except.error.injEq .. ▸ herr).symm ▸ rfl, ?_, ?_, ?_⟩
      · exact ((filterMap_if_sublist (fun v => v > 0) indF).nodup hindFnd)
      · have hex : ∃ z ∈ nodes.map DagNode.id, z ∉ ord := by
          by_contra hnot
          push_neg at hnot
          exact hlen (hlen_of_all hnot)
        obtain ⟨z, hz, hzno⟩ := hex
        exact List.ne_nil_of_mem ((hlmem z).2 ⟨hz, hzno⟩)
      · intro z hzl
        obtain ⟨hz, hzno⟩ := (hlmem z).1 hzl
        refine ⟨hz, ?_⟩
        have hnsub : ¬ depsOf nodes z ⊆ ord := by
          intro hs
          exact hzno ((hordiff z hz).2 hs)
        obtain ⟨d, hd, hdno⟩ : ∃ d ∈ depsOf nodes z, d ∉ ord := by
          by_contra hc
          push_neg at hc
          exact hnsub fun a ha => hc a ha
        exact ⟨d, hd, (hlmem d).2 ⟨hdepsreg z hz hd, hdno⟩⟩

theorem mem_join_drop (bs : List (List String)) (k : Nat)
    (b : List String) (h : bs.get? k = some b) (a : String) (ha : a ∈ b) :
    a ∈ (bs.drop k).join := by
  rw [List.get?_eq_getElem?] at h
  obtain ⟨hk, hbk⟩ := List.getElem?_eq_some.1 h
  rw [List.drop_eq_getElem_cons hk, hbk]
  exact List.mem_join.2 ⟨b, List.mem_cons_self b _, ha⟩

theorem indexOf_lt_of_split (l1 l2 : List String) (a b : String)
    (hnd : (l1 ++ l2).Nodup) (ha : a ∈ l1) (hb : b ∈ l2) :
    (l1 ++ l2).indexOf a < (l1 ++ l2).indexOf b := by
  rw [List.nodup_append] at hnd
  have hbn : b ∉ l1 := fun hb1 => hnd.2.2 hb1 hb
  rw [List.indexOf_append_of_mem ha, List.indexOf_append_of_not_mem hbn]
  have := List.indexOf_lt_length.2 ha
  omega

/-- A successful plan on a valid node set: the order permutes the ids and
places every node strictly after each of its dependencies. -/
theorem planner_ok_spec (nodes : List DagNode) (hval : ValidNodeSet nodes)
    (plan : DagPlan) (hok : defaultPlanner nodes = .ok plan) :
    plan.order.Perm (nodes.map DagNode.id) ∧
    (∀ n ∈ nodes, ∀ d ∈ n.dependsOn,
      plan.order.indexOf d < plan.order.indexOf n.id) := by
  obtain ⟨hPok, _, _⟩ := defaultPlanner_master nodes hval
  obtain ⟨hnd, hperm, hjoin, htopo, _⟩ := hPok plan hok
  refine ⟨hperm, ?_⟩
  intro n hn d hd
  have hnid : n.id ∈ plan.order :=
    hperm.mem_iff.2 (List.mem_map_of_mem DagNode.id hn)
  obtain ⟨k, b, hkb, hnb⟩ : ∃ k b, plan.batches.get? k = some b ∧
      n.id ∈ b := by
    have hj : n.id ∈ plan.batches.join := by rw [hjoin]; exact hnid
    obtain ⟨b, hb, hnb⟩ := List.mem_join.1 hj
    obtain ⟨k, hk⟩ := List.get?_of_mem hb
    exact ⟨k, b, hk, hnb⟩
  have hdget : d ∈ depsOf nodes n.id := by
    rw [depsOf_of_mem nodes hval.1 n hn]
    exact hd
  have hdin : d ∈ (plan.batches.take k).join := htopo k b hkb n.id hnb hdget
  have hnidin : n.id ∈ (plan.batches.drop k).join :=
    mem_join_drop plan.batches k b hkb n.id hnb
  have hsplit : plan.order =
      (plan.batches.take k).join ++ (plan.batches.drop k).join := by
    rw [← hjoin, ← List.join_append, List.take_append_drop]
  rw [hsplit]
  exact indexOf_lt_of_split _ _ d n.id (hsplit ▸ hnd) hdin hnidin

/-- Converse of the acyclicity encoding: a successful plan yields a
topological numbering (order positions), so `DagAcyclic` is exactly the
condition under which the planner can order the nodes. -/
theorem planner_ok_gives_rank (nodes : List DagNode)
    (hval : ValidNodeSet nodes) (plan : DagPlan)
    (hok : defaultPlanner nodes = .ok plan) : DagAcyclic nodes := by
  obtain ⟨_, hidx⟩ := planner_ok_spec nodes hval plan hok
  exact ⟨fun s => plan.order.indexOf s, hidx⟩

/-- C3: on every valid acyclic node set the planner succeeds, its order
lists each registered id exactly once (a permutation of the ids), and the
order is topological: every node's position is strictly after the
positions of all of its dependencies. -/
theorem planner_topological_order (nodes : List DagNode)
    (hval : ValidNodeSet nodes) (hacyc : DagAcyclic nodes) :
    ∃ plan, defaultPlanner nodes = .ok plan ∧
      plan.order.Perm (nodes.map DagNode.id) ∧
      ∀ n ∈ nodes, ∀ d ∈ n.dependsOn,
        plan.order.indexOf d < plan.order.indexOf n.id := by
  obtain ⟨_, hPacyc, _⟩ := defaultPlanner_master nodes hval
  obtain ⟨plan, hok⟩ := hPacyc hacyc
  obtain ⟨hperm, hidx⟩ := planner_ok_spec nodes hval plan hok
  exact ⟨plan, hok, hperm, hidx⟩

/-- A two-node chain listed dependent-first: `b` depends on `a`. -/
def topoA : DagNode := { id := "a", execute := fun _ _ => .ok [] }

def topoB : DagNode :=
  { id := "b", dependsOn := ["a"], execute := fun _ _ => .ok [] }

def topoNodes : List DagNode := [topoB, topoA]

theorem planner_topological_order_witness :
    ∃ plan, defaultPlanner topoNodes = .ok plan ∧
      plan.order.Perm (topoNodes.map DagNode.id) ∧
      ∀ n ∈ topoNodes, ∀ d ∈ n.dependsOn,
        plan.order.indexOf d < plan.order.indexOf n.id :=
  planner_topological_order topoNodes
    ⟨by decide, by decide, by decide, by decide⟩
    ⟨fun s => if s = "b" then 1 else 0, by decide⟩

theorem mem_join_take (bs : List (List String)) (k : Nat) (d : String)
    (h : d ∈ (bs.take k).join) :
    ∃ j, j < k ∧ ∃ b, bs.get? j = some b ∧ d ∈ b := by
  obtain ⟨b, hb, hd⟩ := List.mem_join.1 h
  obtain ⟨j, hj⟩ := List.get?_of_mem hb
  have hjlen : j < (bs.take k).length := (List.get?_eq_some.1 hj).1
  have hjk : j < k := lt_of_lt_of_le hjlen (by simp)
  rw [List.get?_take hjk] at hj
  exact ⟨j, hjk, b, hj, hd⟩

theorem mem_take_join (bs : List (List String)) (j k : Nat) (hjk : j < k)
    (b : List String) (hj : bs.get? j = some b) (d : String) (hd : d ∈ b) :
    d ∈ (bs.take k).join := by
  refine List.mem_join.2 ⟨b, ?_, hd⟩
  exact List.get?_mem (by rw [List.get?_take hjk]; exact hj)

theorem join_nodup_disjoint (bs : List (List String))
    (hnd : bs.join.Nodup) (j k : Nat) (hjk : j < k)
    (bj bk : List String) (hj : bs.get? j = some bj)
    (hk : bs.get? k = some bk) : ∀ x ∈ bj, x ∉ bk := by
  intro x hxj hxk
  have hx1 : x ∈ (bs.take k).join := mem_take_join bs j k hjk bj hj x hxj
  have hx2 : x ∈ (bs.drop k).join := mem_join_drop bs k bk hk x hxk
  have hsplit : bs.join = (bs.take k).join ++ (bs.drop k).join := by
    rw [← List.join_append, List.take_append_drop]
  rw [hsplit, List.nodup_append] at hnd
  exact hnd.2.2 hx1 hx2

/-- Every (transitive) dependency of a node in batch `k` of a successful
plan sits in some strictly earlier batch. -/
theorem planner_transdep_earlier (nodes : List DagNode)
    (hval : ValidNodeSet nodes) (plan : DagPlan)
    (hok : defaultPlanner nodes = .ok plan) :
    ∀ id d, TransDependent nodes d id → ∀ k b,
      plan.batches.get? k = some b → id ∈ b →
      ∃ j, j < k ∧ ∃ b', plan.batches.get? j = some b' ∧ d ∈ b' := by
  obtain ⟨hPok, _, _⟩ := defaultPlanner_master nodes hval
  obtain ⟨hnd, hperm, hjoin, htopo, _⟩ := hPok plan hok
  have hstep : ∀ c id, DependsOn nodes c id → ∀ k b,
      plan.batches.get? k = some b → id ∈ b →
      ∃ j, j < k ∧ ∃ b', plan.batches.get? j = some b' ∧ c ∈ b' := by
    rintro c id ⟨n, hn, rfl, hc⟩ k b hkb hid
    have hcdeps : c ∈ depsOf nodes n.id := by
      rw [depsOf_of_mem nodes hval.1 n hn]
      exact hc
    exact mem_join_take plan.batches k c (htopo k b hkb n.id hid hcdeps)
  intro id d htd
  induction htd with
  | single hr =>
    intro k b hkb hid
    exact hstep _ _ hr k b hkb hid
  | tail _ hr ih =>
    intro k b hkb hid
    obtain ⟨j, hjk, b', hj, hcb'⟩ := hstep _ _ hr k b hkb hid
    obtain ⟨i, hij, b'', hi, hdb''⟩ := ih j b' hj hcb'
    exact ⟨i, lt_trans hij hjk, b'', hi, hdb''⟩

/-- C4: on every valid acyclic node set the planner succeeds with
batches that concatenate to the order, place every dependency of a batch-k
node in a strictly earlier batch (hence no node shares a batch with any of
its transitive dependencies), and are maximal: batch `k` holds every id
all of whose dependencies lie in batches `0..k-1` and that is not already
placed. -/
theorem planner_batches_correct (nodes : List DagNode)
    (hval : ValidNodeSet nodes) (hacyc : DagAcyclic nodes) :
    ∃ plan, defaultPlanner nodes = .ok plan ∧
      plan.batches.join = plan.order ∧
      (∀ k b, plan.batches.get? k = some b → ∀ id ∈ b,
        ∀ d ∈ depsOf nodes id,
          ∃ j, j < k ∧ ∃ b', plan.batches.get? j = some b' ∧ d ∈ b') ∧
      (∀ k b, plan.batches.get? k = some b → ∀ id ∈ b,
        ∀ d, TransDependent nodes d id → d ∉ b) ∧
      (∀ k, ∀ id ∈ nodes.map DagNode.id,
        depsOf nodes id ⊆ (plan.batches.take k).join →
        id ∈ (plan.batches.take (k + 1)).join) := by
  obtain ⟨hPok, hPacyc, _⟩ := defaultPlanner_master nodes hval
  obtain ⟨plan, hok⟩ := hPacyc hacyc
  obtain ⟨hnd, hperm, hjoin, htopo, hmax⟩ := hPok plan hok
  have htrans := planner_transdep_earlier nodes hval plan hok
  refine ⟨plan, hok, hjoin, ?_, ?_, hmax⟩
  · intro k b hkb id hid d hd
    exact mem_join_take plan.batches k d (htopo k b hkb id hid hd)
  · intro k b hkb id hid d htd hdb
    obtain ⟨j, hjk, b', hj, hdb'⟩ := htrans id d htd k b hkb hid
    have hjnd : plan.batches.join.Nodup := by rw [hjoin]; exact hnd
    exact join_nodup_disjoint plan.batches hjnd j k hjk b' b hj hkb d hdb' hdb

theorem planner_batches_correct_witness :
    ∃ plan, defaultPlanner topoNodes = .ok plan ∧
      plan.batches.join = plan.order ∧
      (∀ k b, plan.batches.get? k = some b → ∀ id ∈ b,
        ∀ d ∈ depsOf topoNodes id,
          ∃ j, j < k ∧ ∃ b', plan.batches.get? j = some b' ∧ d ∈ b') ∧
      (∀ k b, plan.batches.get? k = some b → ∀ id ∈ b,
        ∀ d, TransDependent topoNodes d id → d ∉ b) ∧
      (∀ k, ∀ id ∈ topoNodes.map DagNode.id,
        depsOf topoNodes id ⊆ (plan.batches.take k).join →
        id ∈ (plan.batches.take (k + 1)).join) :=
  planner_batches_correct topoNodes
    ⟨by decide, by decide, by decide, by decide⟩
    ⟨fun s => if s = "b" then 1 else 0, by decide⟩

theorem defaultPlanner_missing (nodes : List DagNode)
    (hids : (nodes.map DagNode.id).Nodup)
    (hselfree : ∀ n ∈ nodes, n.id ∉ n.dependsOn)
    (hmiss : ∃ n ∈ nodes, ∃ d ∈ n.dependsOn, d ∉ nodes.map DagNode.id) :
    ∃ a b, defaultPlanner nodes = .error (.missingDep a b) ∧
      ∃ n ∈ nodes, n.id = a ∧ b ∈ n.dependsOn ∧
        b ∉ nodes.map DagNode.id := by
  have hinit := plannerInit_ok nodes hids
  obtain ⟨a, b, herr, hw⟩ := buildGraph_missing nodes hselfree nodes
    (nodes.map (fun n => (n.id, ([] : List String))))
    (nodes.map (fun n => (n.id, (0 : Int))))
    (map_fst_map_nodes _ nodes) (map_fst_map_nodes _ nodes)
    (fun n hn => hn) hmiss
  refine ⟨a, b, ?_, hw⟩
  have hbuild : buildGraph nodes
      (nodes.map (fun n => (n.id, ([] : List String))),
       nodes.map (fun n => (n.id, (0 : Int)))) =
      .error (.missingDep a b) := herr
  simp only [defaultPlanner, hinit, except_ok_bind, hbuild,
    except_error_bind]

theorem defaultPlanner_self (nodes : List DagNode)
    (hids : (nodes.map DagNode.id).Nodup)
    (hreg : ∀ n ∈ nodes, ∀ d ∈ n.dependsOn, d ∈ nodes.map DagNode.id)
    (hself : ∃ n ∈ nodes, n.id ∈ n.dependsOn) :
    ∃ a, defaultPlanner nodes = .error (.selfDep a) ∧
      ∃ n ∈ nodes, n.id = a ∧ a ∈ n.dependsOn := by
  have hinit := plannerInit_ok nodes hids
  obtain ⟨a, herr, hw⟩ := buildGraph_self nodes hreg nodes
    (nodes.map (fun n => (n.id, ([] : List String))))
    (nodes.map (fun n => (n.id, (0 : Int))))
    (map_fst_map_nodes _ nodes) (map_fst_map_nodes _ nodes)
    (fun n hn => hn) hself
  refine ⟨a, ?_, hw⟩
  have hbuild : buildGraph nodes
      (nodes.map (fun n => (n.id, ([] : List String))),
       nodes.map (fun n => (n.id, (0 : Int)))) =
      .error (.selfDep a) := herr
  simp only [defaultPlanner, hinit, except_ok_bind, hbuild,
    except_error_bind]

/-- A single node that both depends on itself and names a missing
dependency, the missing one listed first. -/
def selfMissNode : DagNode :=
  { id := "a", dependsOn := ["x", "a"], execute := fun _ _ => .ok [] }

def selfMissNodes : List DagNode := [selfMissNode]

/-- C5 counterexample: a node set containing a self-dependency for which
the planner does NOT fail with the self-dependency error — the node also
names a missing dependency that the scan encounters first, so the
missing-dependency error preempts the self-dependency one. -/
theorem planner_self_preempted_cex :
    (∃ n ∈ selfMissNodes, n.id ∈ n.dependsOn) ∧
    defaultPlanner selfMissNodes = .error (.missingDep "a" "x") ∧
    ∀ z, defaultPlanner selfMissNodes ≠ .error (.selfDep z) := by
  have h : defaultPlanner selfMissNodes = .error (.missingDep "a" "x") :=
    rfl
  refine ⟨⟨selfMissNode, by simp [selfMissNodes], by decide⟩, h, ?_⟩
  intro z hz
  rw [h] at hz
  simp at hz

/-- C5 as amended: with duplicate-free ids, the planner fails with a
missing-dependency error when some node names an unregistered dependency
and no node depends on itself; it fails with a self-dependency error when
some node depends on itself and every dependency is registered (when both
defects are present, the scan order decides which error wins); on a valid
node set any failure is a cycle error naming a nonempty duplicate-free
list of unordered ids each of which has a dependency in the list; and on a
valid acyclic node set it does not fail. -/
theorem planner_error_contract (nodes : List DagNode)
    (hids : (nodes.map DagNode.id).Nodup) :
    ((∀ n ∈ nodes, n.id ∉ n.dependsOn) →
      (∃ n ∈ nodes, ∃ d ∈ n.dependsOn, d ∉ nodes.map DagNode.id) →
      ∃ a b, defaultPlanner nodes = .error (.missingDep a b) ∧
        ∃ n ∈ nodes, n.id = a ∧ b ∈ n.dependsOn ∧
          b ∉ nodes.map DagNode.id) ∧
    ((∀ n ∈ nodes, ∀ d ∈ n.dependsOn, d ∈ nodes.map DagNode.id) →
      (∃ n ∈ nodes, n.id ∈ n.dependsOn) →
      ∃ a, defaultPlanner nodes = .error (.selfDep a) ∧
        ∃ n ∈ nodes, n.id = a ∧ a ∈ n.dependsOn) ∧
    (ValidNodeSet nodes →
      ∀ e, defaultPlanner nodes = .error e → ∃ l, e = .cycle l ∧
        l.Nodup ∧ l ≠ [] ∧ ∀ z ∈ l, z ∈ nodes.map DagNode.id ∧
          ∃ d ∈ depsOf nodes z, d ∈ l) ∧
    (ValidNodeSet nodes → DagAcyclic nodes →
      ∃ plan, defaultPlanner nodes = .ok plan) := by
  refine ⟨?_, ?_, ?_, ?_⟩
  · intro hselfree hmiss
    exact defaultPlanner_missing nodes hids hselfree hmiss
  · intro hreg hself
    exact defaultPlanner_self nodes hids hreg hself
  · intro hval
    exact (defaultPlanner_master nodes hval).2.2
  · intro hval hacyc
    exact (defaultPlanner_master nodes hval).2.1 hacyc

theorem planner_error_contract_witness :
    ((∀ n ∈ planFailNodes, n.id ∉ n.dependsOn) →
      (∃ n ∈ planFailNodes, ∃ d ∈ n.dependsOn,
        d ∉ planFailNodes.map DagNode.id) →
      ∃ a b, defaultPlanner planFailNodes = .error (.missingDep a b) ∧
        ∃ n ∈ planFailNodes, n.id = a ∧ b ∈ n.dependsOn ∧
          b ∉ planFailNodes.map DagNode.id) ∧
    ((∀ n ∈ planFailNodes, ∀ d ∈ n.dependsOn,
        d ∈ planFailNodes.map DagNode.id) →
      (∃ n ∈ planFailNodes, n.id ∈ n.dependsOn) →
      ∃ a, defaultPlanner planFailNodes = .error (.selfDep a) ∧
        ∃ n ∈ planFailNodes, n.id = a ∧ a ∈ n.dependsOn) ∧
    (ValidNodeSet planFailNodes →
      ∀ e, defaultPlanner planFailNodes = .error e → ∃ l, e = .cycle l ∧
        l.Nodup ∧ l ≠ [] ∧ ∀ z ∈ l, z ∈ planFailNodes.map DagNode.id ∧
          ∃ d ∈ depsOf planFailNodes z, d ∈ l) ∧
    (ValidNodeSet planFailNodes → DagAcyclic planFailNodes →
      ∃ plan, defaultPlanner planFailNodes = .ok plan) :=
  planner_error_contract planFailNodes (by decide)

theorem attemptLoop_all_fail (exec : Nat → Except String Obj)
    (f : Nat → String) (h : ∀ j, exec j = .error (f j)) :
    ∀ remaining i attempts, attemptLoop exec i remaining attempts =
      (attempts + remaining + 1, .error (f (i + remaining))) := by
  intro remaining
  induction remaining with
  | zero => intro i attempts; simp [attemptLoop, h i]
  | succ r ih =>
    intro i attempts
    have h1 : attempts + 1 + r + 1 = attempts + (r + 1) + 1 := by omega
    have h2 : i + 1 + r = i + (r + 1) := by omega
    have hstep : attemptLoop exec i (r + 1) attempts =
        attemptLoop exec (i + 1) r (attempts + 1) := by
      rw [attemptLoop.eq_def, h i]
    rw [hstep, ih (i + 1) (attempts + 1), h1, h2]

/-- A gate-free, validation-free, cleanup-free node whose work item fails
on every attempt: `runNode` makes `maxRetries + 1` attempts, records a
failed outcome carrying the last attempt's message, and throws it. -/
theorem runNode_always_fail (nd : DagNode) (f : Nat → String)
    (hexec : ∀ i c, nd.execute i c = .error (f i))
    (hg : nd.shouldRun = none) (hv : nd.validate = none)
    (hc : nd.cleanup = none) (ctx : Obj) (m : DagMetrics) :
    runNode nd ctx m =
      (.error (.error (f ((nd.config.bind DagNodeConfig.maxRetries).getD 0))),
       m.setNode nd.id
         ⟨(nd.config.bind DagNodeConfig.maxRetries).getD 0 + 1, .failed,
          some (f ((nd.config.bind DagNodeConfig.maxRetries).getD 0))⟩) := by
  have hloop := attemptLoop_all_fail (fun i => nd.execute i ctx) f
    (fun j => hexec j ctx) ((nd.config.bind DagNodeConfig.maxRetries).getD 0)
    0 0
  simp only [runNode, hg, runNodeAfterGate, hv, runNodeAttempts, hloop, hc,
    Nat.zero_add]

/-- A gate-free, validation-free, cleanup-free node whose work item always
succeeds: `runNode` returns its first patch after one attempt. -/
theorem runNode_benign_ok (n : DagNode)
    (hg : n.shouldRun = none) (hv : n.validate = none)
    (hc : n.cleanup = none) (hexec : ∀ i c, ∃ p, n.execute i c = .ok p)
    (ctx : Obj) (m : DagMetrics) :
    ∃ p, runNode n ctx m = (.ok p, m.setNode n.id ⟨1, .success, none⟩) := by
  obtain ⟨p, hp⟩ := hexec 0 ctx
  have hloop : attemptLoop (fun i => n.execute i ctx) 0
      ((n.config.bind DagNodeConfig.maxRetries).getD 0) 0 = (1, .ok p) := by
    unfold attemptLoop
    rw [hp]
  refine ⟨p, ?_⟩
  simp only [runNode, hg, runNodeAfterGate, hv, runNodeAttempts, hloop, hc]

theorem lookupNode_mem (nodes : List DagNode) (id : String) (n : DagNode)
    (h : lookupNode nodes id = some n) : n ∈ nodes ∧ n.id = id := by
  unfold lookupNode at h
  exact ⟨List.mem_of_find?_eq_some h, by simpa using List.find?_some h⟩

theorem runBatchNodes_fst_aux (ctx : Obj) :
    ∀ (runnable : List DagNode)
      (acc : List (DagNode × Except NodeErr Obj)) (m m0 : DagMetrics),
      (runnable.foldl
        (fun acc n =>
          let r := runNode n ctx acc.2
          (acc.1 ++ [(n, r.1)], r.2)) (acc, m)).1 =
      acc ++ runnable.map (fun n => (n, (runNode n ctx m0).1)) := by
  intro runnable
  induction runnable with
  | nil => intro acc m m0; simp
  | cons n ns ih =>
    intro acc m m0
    simp only [List.foldl_cons, List.map_cons]
    rw [ih (acc ++ [(n, (runNode n ctx m).1)]) (runNode n ctx m).2 m0,
      runNode_fst_indep n ctx m m0]
    simp

/-- The result list of a batch run: each runnable node paired with its own
(metrics-independent) outcome, in batch order. -/
theorem runBatchNodes_fst (runnable : List DagNode) (ctx : Obj)
    (m : DagMetrics) : (runBatchNodes runnable ctx m).1 =
      runnable.map (fun n => (n, (runNode n ctx m).1)) := by
  unfold runBatchNodes
  rw [runBatchNodes_fst_aux ctx runnable [] m m]
  simp

theorem foldl_runNode_alGet (ctx : Obj) (id : String) :
    ∀ (l : List DagNode) (m : DagMetrics), (∀ x ∈ l, x.id ≠ id) →
      alGet (l.foldl (fun mm n => (runNode n ctx mm).2) m).nodes id =
      alGet m.nodes id := by
  intro l
  induction l with
  | nil => intro m _; rfl
  | cons n ns ih =>
    intro m h
    simp only [List.foldl_cons]
    rw [ih (runNode n ctx m).2 (fun x hx => h x (by simp [hx]))]
    exact (runNode_frame n ctx m).1 id (fun he => h n (by simp) he.symm)

theorem foldl_runNode_totalNodes (ctx : Obj) :
    ∀ (l : List DagNode) (m : DagMetrics),
      (l.foldl (fun mm n => (runNode n ctx mm).2) m).totalNodes =
      m.totalNodes := by
  intro l
  induction l with
  | nil => intro m; rfl
  | cons n ns ih =>
    intro m
    simp only [List.foldl_cons]
    rw [ih (runNode n ctx m).2]
    exact (runNode_frame n ctx m).2.2.1

theorem processResults_all_ok (nodes : List DagNode) :
    ∀ (results : List (DagNode × Except NodeErr Obj)) (st : RunState),
      (∀ r ∈ results, ∃ p, r.2 = .ok p) →
      ∃ st', processResults nodes results st = .ok st' ∧
        st'.blocked = st.blocked ∧
        st'.metrics.nodes = st.metrics.nodes ∧
        st'.metrics.totalNodes = st.metrics.totalNodes := by
  intro results
  induction results with
  | nil => intro st _; exact ⟨st, rfl, rfl, rfl, rfl⟩
  | cons r rs ih =>
    intro st h
    obtain ⟨p, hp⟩ := h r (by simp)
    obtain ⟨st', heq, hbl, hnodes, htot⟩ := ih
      { st with
          ctx := mergeContext st.ctx p,
          completed := addUnique st.completed r.1.id,
          metrics := { st.metrics with
            successfulNodes := st.metrics.successfulNodes + 1 } }
      (fun x hx => h x (by simp [hx]))
    refine ⟨st', ?_, hbl, hnodes, htot⟩
    simpa [processResults, List.foldlM_cons, hp, except_ok_bind] using heq

theorem processResults_pre_ok_fail (nodes : List DagNode) (nd : DagNode)
    (msg : String) (hfail : effStrategy nd = .fail) :
    ∀ (pre : List (DagNode × Except NodeErr Obj))
      (post : List (DagNode × Except NodeErr Obj)) (st : RunState),
      (∀ r ∈ pre, ∃ p, r.2 = .ok p) →
      ∃ st', processResults nodes
          (pre ++ (nd, .error (.error msg)) :: post) st =
          .error (msg, st') ∧
        st'.metrics.nodes = st.metrics.nodes ∧
        st'.metrics.totalNodes = st.metrics.totalNodes := by
  intro pre
  induction pre with
  | nil =>
    intro post st _
    refine ⟨{ st with failed := addUnique st.failed nd.id,
                      metrics := { st.metrics with
                        failedNodes := st.metrics.failedNodes + 1 } },
      ?_, rfl, rfl⟩
    simp [processResults, List.foldlM_cons, hfail, except_error_bind]
  | cons r pre ih =>
    intro post st h
    obtain ⟨p, hp⟩ := h r (by simp)
    obtain ⟨st', heq, hnodes, htot⟩ := ih post
      { st with
          ctx := mergeContext st.ctx p,
          completed := addUnique st.completed r.1.id,
          metrics := { st.metrics with
            successfulNodes := st.metrics.successfulNodes + 1 } }
      (fun x hx => h x (by simp [hx]))
    refine ⟨st', ?_, hnodes, htot⟩
    simpa [processResults, List.foldlM_cons, hp, except_ok_bind] using heq

theorem runBatch_all_ok (nodes : List DagNode) (b : List String)
    (st : RunState)
    (h : ∀ n, n ∈ runnableOf nodes b st.blocked →
      n.shouldRun = none ∧ n.validate = none ∧ n.cleanup = none ∧
      ∀ i c, ∃ p, n.execute i c = .ok p) :
    ∃ st', runBatch nodes b st = .ok st' ∧ st'.blocked = st.blocked ∧
      st'.metrics.totalNodes = st.metrics.totalNodes := by
  have hallok : ∀ r ∈ (runBatchNodes (runnableOf nodes b st.blocked)
      st.ctx st.metrics).1, ∃ p, r.2 = .ok p := by
    rw [runBatchNodes_fst (runnableOf nodes b st.blocked) st.ctx st.metrics]
    intro r hr
    obtain ⟨n, hn, rfl⟩ := List.mem_map.1 hr
    obtain ⟨hg, hv, hc, hex⟩ := h n hn
    obtain ⟨p, hp⟩ := runNode_benign_ok n hg hv hc hex st.ctx st.metrics
    exact ⟨p, by simp [hp]⟩
  obtain ⟨st', heq, hbl, hnodes, htot⟩ := processResults_all_ok nodes
    (runBatchNodes (runnableOf nodes b st.blocked) st.ctx st.metrics).1
    { st with metrics :=
        (runBatchNodes (runnableOf nodes b st.blocked) st.ctx st.metrics).2 }
    hallok
  refine ⟨st', ?_, by rw [hbl], ?_⟩
  · simpa [runBatch] using heq
  · rw [htot]
    show (runBatchNodes (runnableOf nodes b st.blocked)
      st.ctx st.metrics).2.totalNodes = st.metrics.totalNodes
    rw [show (runBatchNodes (runnableOf nodes b st.blocked)
        st.ctx st.metrics).2 =
      (runnableOf nodes b st.blocked).foldl
        (fun mm n => (runNode n st.ctx mm).2) st.metrics from
      runBatchNodes_metrics_eq st.ctx (runnableOf nodes b st.blocked) []
        st.metrics]
    exact foldl_runNode_totalNodes st.ctx (runnableOf nodes b st.blocked)
      st.metrics

theorem runBatches_pre_ok (nodes : List DagNode) :
    ∀ (pres rest : List (List String)) (st : RunState),
      (∀ b ∈ pres, ∀ n, n ∈ b.filterMap (lookupNode nodes) →
        n.shouldRun = none ∧ n.validate = none ∧ n.cleanup = none ∧
        ∀ i c, ∃ p, n.execute i c = .ok p) →
      ∃ st2, runBatches nodes (pres ++ rest) st =
          runBatches nodes rest st2 ∧
        st2.blocked = st.blocked ∧
        st2.metrics.totalNodes = st.metrics.totalNodes := by
  intro pres
  induction pres with
  | nil => intro rest st _; exact ⟨st, rfl, rfl, rfl⟩
  | cons b pres ih =>
    intro rest st h
    have hb : ∀ n, n ∈ runnableOf nodes b st.blocked →
        n.shouldRun = none ∧ n.validate = none ∧ n.cleanup = none ∧
        ∀ i c, ∃ p, n.execute i c = .ok p := by
      intro n hn
      have hn' := hn
      simp only [runnableOf, List.mem_filter] at hn'
      exact h b (by simp) n hn'.1
    obtain ⟨st', hok, hbl, htot⟩ := runBatch_all_ok nodes b st hb
    obtain ⟨st2, heq, hbl2, htot2⟩ := ih rest st'
      (fun b' hb' => h b' (by simp [hb']))
    refine ⟨st2, ?_, by rw [hbl2, hbl], by rw [htot2, htot]⟩
    rw [List.cons_append,
      show runBatches nodes (b :: (pres ++ rest)) st =
        runBatches nodes (pres ++ rest) st' by simp [runBatches, hok]]
    exact heq

theorem runBatchNodes_record_fail (preN postN : List DagNode)
    (nd : DagNode) (f : Nat → String)
    (hexec : ∀ i c, nd.execute i c = .error (f i))
    (hg : nd.shouldRun = none) (hv : nd.validate = none)
    (hc : nd.cleanup = none) (hpost : ∀ x ∈ postN, x.id ≠ nd.id)
    (ctx : Obj) (m : DagMetrics) :
    alGet ((runBatchNodes (preN ++ nd :: postN) ctx m).2).nodes nd.id =
      some ⟨(nd.config.bind DagNodeConfig.maxRetries).getD 0 + 1, .failed,
        some (f ((nd.config.bind DagNodeConfig.maxRetries).getD 0))⟩ := by
  rw [show (runBatchNodes (preN ++ nd :: postN) ctx m).2 =
      (preN ++ nd :: postN).foldl
        (fun mm n => (runNode n ctx mm).2) m from
    runBatchNodes_metrics_eq ctx (preN ++ nd :: postN) [] m]
  rw [List.foldl_append]
  simp only [List.foldl_cons]
  rw [foldl_runNode_alGet ctx nd.id postN _ hpost]
  rw [runNode_always_fail nd f hexec hg hv hc ctx
    (preN.foldl (fun mm n => (runNode n ctx mm).2) m)]
  simp [DagMetrics.setNode, alGet_alSet_self]

/-- C6: in a run whose other nodes are quiet (no gates, no validation, no
cleanup, always-succeeding work items), a node under the `fail` strategy
whose work item fails on every attempt makes `execute` return
`success = false` carrying the message of the last thrown error, and the
node's recorded attempts equal exactly `maxRetries + 1` (`maxRetries`
defaulting to 0). -/
theorem always_failing_node_run (nodes : List DagNode)
    (hval : ValidNodeSet nodes) (plan : DagPlan)
    (hok : defaultPlanner nodes = .ok plan)
    (nd : DagNode) (hnd : nd ∈ nodes) (hfail : effStrategy nd = .fail)
    (f : Nat → String) (hexec : ∀ i c, nd.execute i c = .error (f i))
    (hg : nd.shouldRun = none) (hv : nd.validate = none)
    (hc : nd.cleanup = none)
    (hothers : ∀ n ∈ nodes, n.id ≠ nd.id →
      n.shouldRun = none ∧ n.validate = none ∧ n.cleanup = none ∧
      ∀ i c, ∃ p, n.execute i c = .ok p)
    (initial : Obj) :
    (execute nodes initial).success = false ∧
    (execute nodes initial).error = some (.nodeError
      (f ((nd.config.bind DagNodeConfig.maxRetries).getD 0))) ∧
    alGet (execute nodes initial).metrics.nodes nd.id =
      some ⟨(nd.config.bind DagNodeConfig.maxRetries).getD 0 + 1, .failed,
        some (f ((nd.config.bind DagNodeConfig.maxRetries).getD 0))⟩ := by
  have hids := hval.1
  obtain ⟨hPok, -, -⟩ := defaultPlanner_master nodes hval
  obtain ⟨hordnd, hperm, hjoin, -, -⟩ := hPok plan hok
  have hndord : nd.id ∈ plan.order :=
    hperm.mem_iff.2 (List.mem_map_of_mem DagNode.id hnd)
  have hndjoin : nd.id ∈ plan.batches.join := by rw [hjoin]; exact hndord
  obtain ⟨b, hbmem, hndb⟩ := List.mem_join.1 hndjoin
  obtain ⟨bsPre, bsPost, hbs⟩ := List.append_of_mem hbmem
  have hjnd : plan.batches.join.Nodup := by rw [hjoin]; exact hordnd
  rw [hbs] at hjnd
  have hjnd' : (bsPre.join ++ (b ++ bsPost.join)).Nodup := by
    simpa using hjnd
  rw [List.nodup_append] at hjnd'
  obtain ⟨-, hmidnd, hdisj⟩ := hjnd'
  rw [List.nodup_append] at hmidnd
  obtain ⟨hbnd, -, -⟩ := hmidnd
  have hndnotpre : nd.id ∉ bsPre.join :=
    fun hmem => hdisj hmem (List.mem_append_left _ hndb)
  have hpreben : ∀ b' ∈ bsPre, ∀ n, n ∈ b'.filterMap (lookupNode nodes) →
      n.shouldRun = none ∧ n.validate = none ∧ n.cleanup = none ∧
      ∀ i c, ∃ p, n.execute i c = .ok p := by
    intro b' hb' n hnmem
    obtain ⟨id, hid, hlk⟩ := List.mem_filterMap.1 hnmem
    obtain ⟨hnnodes, hnid⟩ := lookupNode_mem nodes id n hlk
    refine hothers n hnnodes ?_
    rw [hnid]
    intro hideq
    exact hndnotpre (hideq ▸ (List.mem_join.2 ⟨b', hb', hid⟩))
  obtain ⟨st2, hpre, hbl2, htot2⟩ := runBatches_pre_ok nodes bsPre
    (b :: bsPost) (initState nodes initial) hpreben
  have hbl2' : st2.blocked = [] := by simpa [initState] using hbl2
  obtain ⟨pre, post, hbsplit⟩ := List.append_of_mem hndb
  rw [hbsplit] at hbnd
  rw [List.nodup_append] at hbnd
  obtain ⟨-, hconsnd, hdisj2⟩ := hbnd
  have hndnotpre2 : nd.id ∉ pre :=
    fun h => hdisj2 h (List.mem_cons_self nd.id post)
  have hndnotpost : nd.id ∉ post := by
    rw [List.nodup_cons] at hconsnd
    exact hconsnd.1
  have hlkup := lookupNode_of_mem nodes hids nd hnd
  have hfiltid : ∀ l : List DagNode,
      l.filter (fun n => ¬ ([] : List String).contains n.id) = l :=
    fun l => List.filter_eq_self.2 (fun a _ => by simp)
  have hrunnable : runnableOf nodes b st2.blocked =
      pre.filterMap (lookupNode nodes) ++
        nd :: post.filterMap (lookupNode nodes) := by
    rw [hbl2']
    show (b.filterMap (lookupNode nodes)).filter
      (fun n => ¬ ([] : List String).contains n.id) = _
    rw [hfiltid, hbsplit]
    simp [List.filterMap_append, List.filterMap_cons, hlkup]
  have hndrun := runNode_always_fail nd f hexec hg hv hc st2.ctx st2.metrics
  have hres1 : (runBatchNodes (runnableOf nodes b st2.blocked)
      st2.ctx st2.metrics).1 =
      (pre.filterMap (lookupNode nodes)).map
        (fun n => (n, (runNode n st2.ctx st2.metrics).1)) ++
      (nd, .error (.error
        (f ((nd.config.bind DagNodeConfig.maxRetries).getD 0)))) ::
      (post.filterMap (lookupNode nodes)).map
        (fun n => (n, (runNode n st2.ctx st2.metrics).1)) := by
    rw [runBatchNodes_fst, hrunnable]
    simp [List.map_append, List.map_cons, hndrun]
  have hpreok : ∀ r ∈ (pre.filterMap (lookupNode nodes)).map
      (fun n => (n, (runNode n st2.ctx st2.metrics).1)),
      ∃ p, r.2 = .ok p := by
    intro r hr
    obtain ⟨n, hnmem, rfl⟩ := List.mem_map.1 hr
    obtain ⟨id, hid, hlk⟩ := List.mem_filterMap.1 hnmem
    obtain ⟨hnnodes, hnid⟩ := lookupNode_mem nodes id n hlk
    have hidne : n.id ≠ nd.id := by
      rw [hnid]
      intro h
      exact hndnotpre2 (h ▸ hid)
    obtain ⟨hg', hv', hc', hex'⟩ := hothers n hnnodes hidne
    obtain ⟨p, hp⟩ := runNode_benign_ok n hg' hv' hc' hex' st2.ctx st2.metrics
    exact ⟨p, by simp [hp]⟩
  obtain ⟨st', herr, hnodes', htot'⟩ := processResults_pre_ok_fail nodes nd
    (f ((nd.config.bind DagNodeConfig.maxRetries).getD 0)) hfail
    ((pre.filterMap (lookupNode nodes)).map
      (fun n => (n, (runNode n st2.ctx st2.metrics).1)))
    ((post.filterMap (lookupNode nodes)).map
      (fun n => (n, (runNode n st2.ctx st2.metrics).1)))
    { st2 with metrics := (runBatchNodes (runnableOf nodes b st2.blocked)
        st2.ctx st2.metrics).2 }
    hpreok
  have hrb : runBatch nodes b st2 = .error
      (f ((nd.config.bind DagNodeConfig.maxRetries).getD 0), st') := by
    show processResults nodes
      (runBatchNodes (runnableOf nodes b st2.blocked)
        st2.ctx st2.metrics).1
      { st2 with metrics := (runBatchNodes (runnableOf nodes b st2.blocked)
          st2.ctx st2.metrics).2 } = _
    rw [hres1]
    exact herr
  have hpostne : ∀ x ∈ post.filterMap (lookupNode nodes), x.id ≠ nd.id := by
    intro x hx
    obtain ⟨id, hid, hlk⟩ := List.mem_filterMap.1 hx
    obtain ⟨-, hxid⟩ := lookupNode_mem nodes id x hlk
    rw [hxid]
    intro h
    exact hndnotpost (h ▸ hid)
  have hrec : alGet ((runBatchNodes (runnableOf nodes b st2.blocked)
      st2.ctx st2.metrics).2).nodes nd.id =
      some ⟨(nd.config.bind DagNodeConfig.maxRetries).getD 0 + 1, .failed,
        some (f ((nd.config.bind DagNodeConfig.maxRetries).getD 0))⟩ := by
    rw [hrunnable]
    exact runBatchNodes_record_fail (pre.filterMap (lookupNode nodes))
      (post.filterMap (lookupNode nodes)) nd f hexec hg hv hc hpostne
      st2.ctx st2.metrics
  have hstnodes : alGet st'.metrics.nodes nd.id =
      some ⟨(nd.config.bind DagNodeConfig.maxRetries).getD 0 + 1, .failed,
        some (f ((nd.config.bind DagNodeConfig.maxRetries).getD 0))⟩ := by
    rw [hnodes']
    exact hrec
  have hrbs : runBatches nodes plan.batches (initState nodes initial) =
      .error (f ((nd.config.bind DagNodeConfig.maxRetries).getD 0), st') := by
    rw [hbs, hpre]
    exact runBatches_cons_error nodes b bsPost st2 _ hrb
  have hexe := execute_of_runBatches_error nodes initial plan
    (f ((nd.config.bind DagNodeConfig.maxRetries).getD 0)) st' hok hrbs
  rw [hexe]
  exact ⟨rfl, rfl, hstnodes⟩

/-- A retrying node (maxRetries = 2) whose work item always fails. -/
def retryFailNode : DagNode :=
  { id := "f", config := some { maxRetries := some 2 },
    execute := fun _ _ => .error "boom" }

def retryFailNodes : List DagNode := [retryFailNode]

theorem always_failing_node_run_witness :
    (execute retryFailNodes []).success = false ∧
    (execute retryFailNodes []).error = some (.nodeError "boom") ∧
    alGet (execute retryFailNodes []).metrics.nodes "f" =
      some ⟨3, .failed, some "boom"⟩ :=
  always_failing_node_run retryFailNodes
    ⟨by decide, by decide, by decide, by decide⟩ ⟨["f"], [["f"]]⟩ rfl
    retryFailNode (by simp [retryFailNodes]) rfl
    (fun _ => "boom") (fun _ _ => rfl) rfl rfl rfl
    (by
      intro n hn hne
      simp only [retryFailNodes, List.mem_singleton] at hn
      subst hn
      exact absurd rfl hne)
    []

/-- A false gate short-circuits `runNode` before the `try/finally`: it
records a skipped outcome with zero attempts, bumps the skipped counter,
and throws `SkipSuccessors` — validation, the work item, and cleanup are
never consulted (the equation holds whatever those fields are). -/
theorem runNode_gate_false (node : DagNode) (gate : Obj → Bool) (ctx : Obj)
    (m : DagMetrics) (hg : node.shouldRun = some gate)
    (hgate : gate ctx = false) :
    runNode node ctx m = (.error (.skipSuccessors node.id),
      { m.setNode node.id ⟨0, .skipped, none⟩ with
          skippedNodes := m.skippedNodes + 1 }) := by
  simp [runNode, hg, hgate]

theorem runnableOf_id_mem (nodes : List DagNode) (batch : List String)
    (blocked : List String) :
    ∀ n ∈ runnableOf nodes batch blocked, n.id ∈ batch := by
  intro n hn
  have h := (List.mem_filter.1 hn).1
  obtain ⟨id, hid, hlk⟩ := List.mem_filterMap.1 h
  obtain ⟨-, hnid⟩ := lookupNode_mem nodes id n hlk
  rw [hnid]
  exact hid

theorem runBatch_all_ok_pres (nodes : List DagNode) (b : List String)
    (st : RunState)
    (h : ∀ n, n ∈ runnableOf nodes b st.blocked →
      n.shouldRun = none ∧ n.validate = none ∧ n.cleanup = none ∧
      ∀ i c, ∃ p, n.execute i c = .ok p) :
    ∃ st', runBatch nodes b st = .ok st' ∧ st'.blocked = st.blocked ∧
      ∀ id, (id ∈ st.blocked ∨ id ∉ b) →
        alGet st'.metrics.nodes id = alGet st.metrics.nodes id := by
  have hallok : ∀ r ∈ (runBatchNodes (runnableOf nodes b st.blocked)
      st.ctx st.metrics).1, ∃ p, r.2 = .ok p := by
    rw [runBatchNodes_fst (runnableOf nodes b st.blocked) st.ctx st.metrics]
    intro r hr
    obtain ⟨n, hn, rfl⟩ := List.mem_map.1 hr
    obtain ⟨hg, hv, hc, hex⟩ := h n hn
    obtain ⟨p, hp⟩ := runNode_benign_ok n hg hv hc hex st.ctx st.metrics
    exact ⟨p, by simp [hp]⟩
  obtain ⟨st', heq, hbl, hnodes, -⟩ := processResults_all_ok nodes
    (runBatchNodes (runnableOf nodes b st.blocked) st.ctx st.metrics).1
    { st with metrics :=
        (runBatchNodes (runnableOf nodes b st.blocked) st.ctx st.metrics).2 }
    hallok
  refine ⟨st', by simpa [runBatch] using heq, by rw [hbl], ?_⟩
  intro id hid
  rw [hnodes]
  show alGet (runBatchNodes (runnableOf nodes b st.blocked)
    st.ctx st.metrics).2.nodes id = alGet st.metrics.nodes id
  apply (runBatchNodes_frame (runnableOf nodes b st.blocked)
    st.ctx st.metrics).1
  intro hmem
  obtain ⟨n, hn, rfl⟩ := List.mem_map.1 hmem
  rcases hid with hid | hid
  · exact runnableOf_not_blocked nodes b st.blocked n hn hid
  · exact hid (runnableOf_id_mem nodes b st.blocked n hn)

theorem runBatches_all_ok_pres (nodes : List DagNode) :
    ∀ (bs : List (List String)) (st : RunState),
      (∀ b ∈ bs, ∀ n, n ∈ b.filterMap (lookupNode nodes) →
        n.shouldRun = none ∧ n.validate = none ∧ n.cleanup = none ∧
        ∀ i c, ∃ p, n.execute i c = .ok p) →
      ∃ st2, runBatches nodes bs st = .ok st2 ∧
        st2.blocked = st.blocked ∧
        ∀ id, (id ∈ st.blocked ∨ (∀ b ∈ bs, id ∉ b)) →
          alGet st2.metrics.nodes id = alGet st.metrics.nodes id := by
  intro bs
  induction bs with
  | nil => intro st _; exact ⟨st, rfl, rfl, fun id _ => rfl⟩
  | cons b bs ih =>
    intro st h
    have hb : ∀ n, n ∈ runnableOf nodes b st.blocked →
        n.shouldRun = none ∧ n.validate = none ∧ n.cleanup = none ∧
        ∀ i c, ∃ p, n.execute i c = .ok p := by
      intro n hn
      have hn' := hn
      simp only [runnableOf, List.mem_filter] at hn'
      exact h b (by simp) n hn'.1
    obtain ⟨st', hok, hbl, hpres⟩ := runBatch_all_ok_pres nodes b st hb
    obtain ⟨st2, heq, hbl2, hpres2⟩ := ih st'
      (fun b' hb' => h b' (by simp [hb']))
    refine ⟨st2, ?_, by rw [hbl2, hbl], ?_⟩
    · rw [show runBatches nodes (b :: bs) st = runBatches nodes bs st' by
        simp [runBatches, hok]]
      exact heq
    · intro id hid
      have hid' : id ∈ st'.blocked ∨ ∀ b' ∈ bs, id ∉ b' := by
        rcases hid with hid | hid
        · exact Or.inl (hbl ▸ hid)
        · exact Or.inr (fun b' hb' => hid b' (by simp [hb']))
      rw [hpres2 id hid']
      apply hpres
      rcases hid with hid | hid
      · exact Or.inl hid
      · exact Or.inr (hid b (by simp))

theorem runBatchNodes_record_of (preN postN : List DagNode) (nd : DagNode)
    (rec : DagNodeMetrics) (ctx : Obj)
    (hrun : ∀ mm : DagMetrics,
      alGet (runNode nd ctx mm).2.nodes nd.id = some rec)
    (hpost : ∀ x ∈ postN, x.id ≠ nd.id) (m : DagMetrics) :
    alGet ((runBatchNodes (preN ++ nd :: postN) ctx m).2).nodes nd.id =
      some rec := by
  rw [show (runBatchNodes (preN ++ nd :: postN) ctx m).2 =
      (preN ++ nd :: postN).foldl
        (fun mm n => (runNode n ctx mm).2) m from
    runBatchNodes_metrics_eq ctx (preN ++ nd :: postN) [] m]
  rw [List.foldl_append]
  simp only [List.foldl_cons]
  rw [foldl_runNode_alGet ctx nd.id postN _ hpost]
  exact hrun (preN.foldl (fun mm n => (runNode n ctx mm).2) m)

theorem processResults_skip_mid (nodes : List DagNode) (nd : DagNode) :
    ∀ (pre post : List (DagNode × Except NodeErr Obj)) (st : RunState),
      (∀ r ∈ pre, ∃ p, r.2 = .ok p) → (∀ r ∈ post, ∃ p, r.2 = .ok p) →
      ∃ st' m1, processResults nodes
          (pre ++ (nd, .error (.skipSuccessors nd.id)) :: post) st =
          .ok st' ∧
        m1.nodes = st.metrics.nodes ∧
        st'.blocked =
          (blockDependents (nodes.length + 1) nd.id nodes
            st.blocked m1).1 ∧
        st'.metrics.nodes =
          (blockDependents (nodes.length + 1) nd.id nodes
            st.blocked m1).2.nodes := by
  intro pre
  induction pre with
  | nil =>
    intro post st _ hpost
    obtain ⟨st', heq, hbl, hnodes, -⟩ := processResults_all_ok nodes post
      { st with
          completed := addUnique st.completed nd.id,
          blocked := (blockDependents (nodes.length + 1) nd.id nodes
            st.blocked st.metrics).1,
          metrics := (blockDependents (nodes.length + 1) nd.id nodes
            st.blocked st.metrics).2 } hpost
    refine ⟨st', st.metrics, ?_, rfl, ?_, ?_⟩
    · simpa [processResults, List.foldlM_cons, except_ok_bind] using heq
    · rw [hbl]
    · rw [hnodes]
  | cons r pre ih =>
    intro post st h hpost
    obtain ⟨p, hp⟩ := h r (by simp)
    obtain ⟨st', m1, heq, hm1, hbl, hnodes⟩ := ih post
      { st with
          ctx := mergeContext st.ctx p,
          completed := addUnique st.completed r.1.id,
          metrics := { st.metrics with
            successfulNodes := st.metrics.successfulNodes + 1 } }
      (fun x hx => h x (by simp [hx])) hpost
    refine ⟨st', m1, ?_, hm1, hbl, hnodes⟩
    simpa [processResults, List.foldlM_cons, hp, except_ok_bind] using heq

theorem blockDependents_sound (fuel : Nat) :
    ∀ (nid : String) (nodes : List DagNode) (blocked : List String)
      (m : DagMetrics),
      ∀ x ∈ (blockDependents fuel nid nodes blocked m).1,
        x ∈ blocked ∨ TransDependent nodes nid x := by
  induction fuel with
  | zero => intro nid nodes blocked m x hx; exact Or.inl hx
  | succ fuel ih =>
    intro nid nodes blocked m
    rw [blockDependents_succ]
    have aux : ∀ ns : List DagNode, (∀ n ∈ ns, n ∈ nodes) →
        ∀ st : List String × DagMetrics,
        (∀ x ∈ st.1, x ∈ blocked ∨ TransDependent nodes nid x) →
        ∀ x ∈ (ns.foldl (blockStep fuel nid nodes) st).1,
          x ∈ blocked ∨ TransDependent nodes nid x := by
      intro ns
      induction ns with
      | nil => intro _ st hst x hx; exact hst x hx
      | cons n ns ihn =>
        intro hsub st hst
        simp only [List.foldl_cons]
        apply ihn (fun a ha => hsub a (by simp [ha]))
        intro x hx
        unfold blockStep at hx
        by_cases hcond : n.dependsOn.contains nid ∧ ¬ st.1.contains n.id
        · rw [if_pos hcond] at hx
          have hdep : DependsOn nodes nid n.id :=
            ⟨n, hsub n (by simp), rfl, by simpa using hcond.1⟩
          rcases ih n.id nodes (st.1 ++ [n.id]) _ x hx with hx' | hx'
          · rcases List.mem_append.1 hx' with hx'' | hx''
            · exact hst x hx''
            · have hxn : x = n.id := by simpa using hx''
              subst hxn
              exact Or.inr (Relation.TransGen.single hdep)
          · exact Or.inr (Relation.TransGen.trans
              (Relation.TransGen.single hdep) hx')
        · rw [if_neg hcond] at hx
          exact hst x hx
    exact aux nodes (fun n hn => hn) (blocked, m) (fun x hx => Or.inl hx)

theorem transdep_in_closed (nodes : List DagNode) (S : List String)
    (a : String) (h1 : DependentsIn nodes a S)
    (h2 : ∀ x ∈ S, DependentsIn nodes x S) :
    ∀ d, TransDependent nodes a d → d ∈ S := by
  intro d htd
  induction htd with
  | single hr =>
    obtain ⟨n, hn, rfl, hdep⟩ := hr
    exact h1 n hn hdep
  | tail hc hr ih =>
    obtain ⟨n, hn, rfl, hdep⟩ := hr
    exact h2 _ ih n hn hdep

/-- Along a chain of (transitive) dependencies, order positions strictly
increase; in particular no id is its own transitive dependent. -/
theorem planner_transdep_indexOf (nodes : List DagNode)
    (hval : ValidNodeSet nodes) (plan : DagPlan)
    (hok : defaultPlanner nodes = .ok plan) :
    ∀ d z, TransDependent nodes d z →
      plan.order.indexOf d < plan.order.indexOf z := by
  obtain ⟨-, hidx⟩ := planner_ok_spec nodes hval plan hok
  intro d z htd
  induction htd with
  | single hr =>
    obtain ⟨n, hn, rfl, hdep⟩ := hr
    exact hidx n hn d hdep
  | tail hc hr ih =>
    obtain ⟨n, hn, rfl, hdep⟩ := hr
    exact lt_trans ih (hidx n hn _ hdep)

/-- Engine-level effect of a false gate in an otherwise quiet run: the
gated node's outcome stays skipped (zero attempts) in the final metrics
and every transitive dependent carries the blocked outcome record. -/
theorem gate_false_engine (nodes : List DagNode) (hval : ValidNodeSet nodes)
    (plan : DagPlan) (hok : defaultPlanner nodes = .ok plan)
    (nd : DagNode) (gate : Obj → Bool) (hnd : nd ∈ nodes)
    (hg : nd.shouldRun = some gate) (hgate : ∀ c, gate c = false)
    (hothers : ∀ n ∈ nodes, n.id ≠ nd.id →
      n.shouldRun = none ∧ n.validate = none ∧ n.cleanup = none ∧
      ∀ i c, ∃ p, n.execute i c = .ok p)
    (initial : Obj) :
    alGet (execute nodes initial).metrics.nodes nd.id =
      some ⟨0, .skipped, none⟩ ∧
    ∀ d, TransDependent nodes nd.id d →
      alGet (execute nodes initial).metrics.nodes d =
        some ⟨0, .blocked, none⟩ := by
  have hids := hval.1
  obtain ⟨hPok, -, -⟩ := defaultPlanner_master nodes hval
  obtain ⟨hordnd, hperm, hjoin, -, -⟩ := hPok plan hok
  have hndord : nd.id ∈ plan.order :=
    hperm.mem_iff.2 (List.mem_map_of_mem DagNode.id hnd)
  have hndjoin : nd.id ∈ plan.batches.join := by rw [hjoin]; exact hndord
  obtain ⟨b, hbmem, hndb⟩ := List.mem_join.1 hndjoin
  obtain ⟨bsPre, bsPost, hbs⟩ := List.append_of_mem hbmem
  have hjnd : plan.batches.join.Nodup := by rw [hjoin]; exact hordnd
  rw [hbs] at hjnd
  have hjnd' : (bsPre.join ++ (b ++ bsPost.join)).Nodup := by
    simpa using hjnd
  rw [List.nodup_append] at hjnd'
  obtain ⟨-, hmidnd, hdisj⟩ := hjnd'
  rw [List.nodup_append] at hmidnd
  obtain ⟨hbnd, -, hdisjmid⟩ := hmidnd
  have hndnotpre : nd.id ∉ bsPre.join :=
    fun hmem => hdisj hmem (List.mem_append_left _ hndb)
  have hndnotpost3 : nd.id ∉ bsPost.join := hdisjmid hndb
  have hpreben : ∀ b' ∈ bsPre, ∀ n, n ∈ b'.filterMap (lookupNode nodes) →
      n.shouldRun = none ∧ n.validate = none ∧ n.cleanup = none ∧
      ∀ i c, ∃ p, n.execute i c = .ok p := by
    intro b' hb' n hnmem
    obtain ⟨id, hid, hlk⟩ := List.mem_filterMap.1 hnmem
    obtain ⟨hnnodes, hnid⟩ := lookupNode_mem nodes id n hlk
    refine hothers n hnnodes ?_
    rw [hnid]
    intro hideq
    exact hndnotpre (hideq ▸ (List.mem_join.2 ⟨b', hb', hid⟩))
  obtain ⟨st2, hpre, hbl2, htot2⟩ := runBatches_pre_ok nodes bsPre
    (b :: bsPost) (initState nodes initial) hpreben
  have hbl2' : st2.blocked = [] := by simpa [initState] using hbl2
  obtain ⟨pre, post, hbsplit⟩ := List.append_of_mem hndb
  rw [hbsplit] at hbnd
  rw [List.nodup_append] at hbnd
  obtain ⟨-, hconsnd, hdisj2⟩ := hbnd
  have hndnotpre2 : nd.id ∉ pre :=
    fun h => hdisj2 h (List.mem_cons_self nd.id post)
  have hndnotpost : nd.id ∉ post := by
    rw [List.nodup_cons] at hconsnd
    exact hconsnd.1
  have hlkup := lookupNode_of_mem nodes hids nd hnd
  have hfiltid : ∀ l : List DagNode,
      l.filter (fun n => ¬ ([] : List String).contains n.id) = l :=
    fun l => List.filter_eq_self.2 (fun a _ => by simp)
  have hrunnable : runnableOf nodes b st2.blocked =
      pre.filterMap (lookupNode nodes) ++
        nd :: post.filterMap (lookupNode nodes) := by
    rw [hbl2']
    show (b.filterMap (lookupNode nodes)).filter
      (fun n => ¬ ([] : List String).contains n.id) = _
    rw [hfiltid, hbsplit]
    simp [List.filterMap_append, List.filterMap_cons, hlkup]
  have hndrun := runNode_gate_false nd gate st2.ctx st2.metrics hg
    (hgate st2.ctx)
  have hres1 : (runBatchNodes (runnableOf nodes b st2.blocked)
      st2.ctx st2.metrics).1 =
      (pre.filterMap (lookupNode nodes)).map
        (fun n => (n, (runNode n st2.ctx st2.metrics).1)) ++
      (nd, .error (.skipSuccessors nd.id)) ::
      (post.filterMap (lookupNode nodes)).map
        (fun n => (n, (runNode n st2.ctx st2.metrics).1)) := by
    rw [runBatchNodes_fst, hrunnable]
    simp [List.map_append, List.map_cons, hndrun]
  have hresok : ∀ l : List String, nd.id ∉ l →
      ∀ r ∈ (l.filterMap (lookupNode nodes)).map
        (fun n => (n, (runNode n st2.ctx st2.metrics).1)),
      ∃ p, r.2 = .ok p := by
    intro l hl r hr
    obtain ⟨n, hnmem, rfl⟩ := List.mem_map.1 hr
    obtain ⟨id, hid, hlk⟩ := List.mem_filterMap.1 hnmem
    obtain ⟨hnnodes, hnid⟩ := lookupNode_mem nodes id n hlk
    have hidne : n.id ≠ nd.id := by
      rw [hnid]
      intro h
      exact hl (h ▸ hid)
    obtain ⟨hg', hv', hc', hex'⟩ := hothers n hnnodes hidne
    obtain ⟨p, hp⟩ := runNode_benign_ok n hg' hv' hc' hex' st2.ctx st2.metrics
    exact ⟨p, by simp [hp]⟩
  obtain ⟨st', m1, hokmid, hm1, hblmid, hnodesmid⟩ :=
    processResults_skip_mid nodes nd
      ((pre.filterMap (lookupNode nodes)).map
        (fun n => (n, (runNode n st2.ctx st2.metrics).1)))
      ((post.filterMap (lookupNode nodes)).map
        (fun n => (n, (runNode n st2.ctx st2.metrics).1)))
      { st2 with metrics := (runBatchNodes (runnableOf nodes b st2.blocked)
          st2.ctx st2.metrics).2 }
      (hresok pre hndnotpre2) (hresok post hndnotpost)
  have hrb : runBatch nodes b st2 = .ok st' := by
    show processResults nodes
      (runBatchNodes (runnableOf nodes b st2.blocked)
        st2.ctx st2.metrics).1
      { st2 with metrics := (runBatchNodes (runnableOf nodes b st2.blocked)
          st2.ctx st2.metrics).2 } = _
    rw [hres1]
    exact hokmid
  have hpostne : ∀ x ∈ post.filterMap (lookupNode nodes), x.id ≠ nd.id := by
    intro x hx
    obtain ⟨id, hid, hlk⟩ := List.mem_filterMap.1 hx
    obtain ⟨-, hxid⟩ := lookupNode_mem nodes id x hlk
    rw [hxid]
    intro h
    exact hndnotpost (h ▸ hid)
  have hrecnd : alGet ((runBatchNodes (runnableOf nodes b st2.blocked)
      st2.ctx st2.metrics).2).nodes nd.id = some ⟨0, .skipped, none⟩ := by
    rw [hrunnable]
    refine runBatchNodes_record_of (pre.filterMap (lookupNode nodes))
      (post.filterMap (lookupNode nodes)) nd ⟨0, .skipped, none⟩ st2.ctx
      ?_ hpostne st2.metrics
    intro mm
    rw [runNode_gate_false nd gate st2.ctx mm hg (hgate st2.ctx)]
    simp [DagMetrics.setNode, alGet_alSet_self]
  have hblnil : ({ st2 with metrics :=
      (runBatchNodes (runnableOf nodes b st2.blocked)
        st2.ctx st2.metrics).2 } : RunState).blocked = [] := hbl2'
  rw [hblnil] at hblmid hnodesmid
  obtain ⟨ext, hb1, hbnd1, hmemext, hget, -, -, -, -, -⟩ :=
    blockDependents_spec (nodes.length + 1) nd.id nodes [] m1 (by simp)
  have hext1 : (blockDependents (nodes.length + 1) nd.id nodes [] m1).1 =
      ext := by simpa using hb1
  have hndnotext : nd.id ∉ ext := by
    intro hmem
    have hsound := blockDependents_sound (nodes.length + 1) nd.id nodes []
      m1 nd.id (by rw [hext1]; exact hmem)
    rcases hsound with h | h
    · exact absurd h (List.not_mem_nil nd.id)
    · exact absurd (planner_transdep_indexOf nodes hval plan hok nd.id nd.id h)
        (lt_irrefl _)
  have hm1nodes : m1.nodes =
      (runBatchNodes (runnableOf nodes b st2.blocked)
        st2.ctx st2.metrics).2.nodes := hm1
  have hstnd : alGet st'.metrics.nodes nd.id = some ⟨0, .skipped, none⟩ := by
    rw [hnodesmid, hget nd.id, if_neg hndnotext, hm1nodes]
    exact hrecnd
  have hfuel : unblockedCount nodes [] < nodes.length + 1 := by
    have h1 : unblockedCount nodes [] ≤ (nodes.map DagNode.id).length :=
      List.length_filter_le _ _
    have h2 : (nodes.map DagNode.id).length = nodes.length :=
      List.length_map nodes DagNode.id
    omega
  obtain ⟨hdir, hclosure⟩ := blockDependents_complete (nodes.length + 1)
    nd.id nodes [] m1 (by simp) hfuel
  have hclosure' : ∀ x ∈ (blockDependents (nodes.length + 1) nd.id nodes
      [] m1).1, DependentsIn nodes x (blockDependents (nodes.length + 1)
      nd.id nodes [] m1).1 := by
    intro x hx
    rcases hclosure x hx with h | h
    · exact absurd h (List.not_mem_nil x)
    · exact h
  have htransmem : ∀ d, TransDependent nodes nd.id d →
      d ∈ (blockDependents (nodes.length + 1) nd.id nodes [] m1).1 :=
    transdep_in_closed nodes _ nd.id hdir hclosure'
  have hstd : ∀ d, TransDependent nodes nd.id d →
      alGet st'.metrics.nodes d = some ⟨0, .blocked, none⟩ := by
    intro d htd
    have hdext : d ∈ ext := by
      rw [← hext1]
      exact htransmem d htd
    rw [hnodesmid, hget d, if_pos hdext]
  have hpostben : ∀ b' ∈ bsPost, ∀ n, n ∈ b'.filterMap (lookupNode nodes) →
      n.shouldRun = none ∧ n.validate = none ∧ n.cleanup = none ∧
      ∀ i c, ∃ p, n.execute i c = .ok p := by
    intro b' hb' n hnmem
    obtain ⟨id, hid, hlk⟩ := List.mem_filterMap.1 hnmem
    obtain ⟨hnnodes, hnid⟩ := lookupNode_mem nodes id n hlk
    refine hothers n hnnodes ?_
    rw [hnid]
    intro hideq
    exact hndnotpost3 (hideq ▸ (List.mem_join.2 ⟨b', hb', hid⟩))
  obtain ⟨stF, hokF, hblF, hpresF⟩ := runBatches_all_ok_pres nodes bsPost
    st' hpostben
  have hrbs : runBatches nodes plan.batches (initState nodes initial) =
      .ok stF := by
    rw [hbs, hpre,
      show runBatches nodes (b :: bsPost) st2 =
        runBatches nodes bsPost st' by simp [runBatches, hrb]]
    exact hokF
  have hexe : execute nodes initial =
      { success := true, context := stF.ctx, metrics := stF.metrics } := by
    simp [execute, hok, hrbs]
  rw [hexe]
  constructor
  · rw [hpresF nd.id (Or.inr ?_), hstnd]
    intro b' hb' hmem
    exact hndnotpost3 (List.mem_join.2 ⟨b', hb', hmem⟩)
  · intro d htd
    have hdbl : d ∈ st'.blocked := by
      rw [hblmid]
      exact htransmem d htd
    rw [hpresF d (Or.inl hdbl)]
    exact hstd d htd

/-- C7: a false gate records a skipped outcome with zero attempts and
throws `SkipSuccessors` without consulting validation, the work item, or
cleanup (first conjunct — an equation on `runNode` holding for arbitrary
validate/execute/cleanup fields); and at engine level, in an otherwise
quiet run, every transitive dependent of the gated node carries the
blocked outcome record in the final metrics — whatever the gated node's
own error strategy — while the gated node's record stays skipped. -/
theorem gate_false_skips_and_blocks :
    (∀ (node : DagNode) (gate : Obj → Bool) (ctx : Obj) (m : DagMetrics),
      node.shouldRun = some gate → gate ctx = false →
      runNode node ctx m = (.error (.skipSuccessors node.id),
        { m.setNode node.id ⟨0, .skipped, none⟩ with
            skippedNodes := m.skippedNodes + 1 })) ∧
    (∀ (nodes : List DagNode), ValidNodeSet nodes →
      ∀ plan, defaultPlanner nodes = .ok plan →
      ∀ (nd : DagNode) (gate : Obj → Bool), nd ∈ nodes →
        nd.shouldRun = some gate → (∀ c, gate c = false) →
        (∀ n ∈ nodes, n.id ≠ nd.id → n.shouldRun = none ∧
          n.validate = none ∧ n.cleanup = none ∧
          ∀ i c, ∃ p, n.execute i c = .ok p) →
        ∀ initial : Obj,
          alGet (execute nodes initial).metrics.nodes nd.id =
            some ⟨0, .skipped, none⟩ ∧
          ∀ d, TransDependent nodes nd.id d →
            alGet (execute nodes initial).metrics.nodes d =
              some ⟨0, .blocked, none⟩) :=
  ⟨fun node gate ctx m hg hgate =>
    runNode_gate_false node gate ctx m hg hgate,
   fun nodes hval plan hok nd gate hnd hg hgate hothers initial =>
    gate_false_engine nodes hval plan hok nd gate hnd hg hgate hothers
      initial⟩

/-- A three-node chain whose root gates itself off. -/
def gateOffNode : DagNode :=
  { id := "g", shouldRun := some (fun _ => false),
    execute := fun _ _ => .ok [] }

def dep1Node : DagNode :=
  { id := "d1", dependsOn := ["g"], execute := fun _ _ => .ok [] }

def dep2Node : DagNode :=
  { id := "d2", dependsOn := ["d1"], execute := fun _ _ => .ok [] }

def gateNodes : List DagNode := [gateOffNode, dep1Node, dep2Node]

theorem gate_false_skips_and_blocks_witness :
    runNode gateOffNode [("k", 1)] freshMetrics =
      (.error (.skipSuccessors "g"),
       { freshMetrics.setNode "g" ⟨0, .skipped, none⟩ with
           skippedNodes := freshMetrics.skippedNodes + 1 }) ∧
    alGet (execute gateNodes []).metrics.nodes "g" =
      some ⟨0, .skipped, none⟩ ∧
    alGet (execute gateNodes []).metrics.nodes "d2" =
      some ⟨0, .blocked, none⟩ :=
  have hothers : ∀ n ∈ gateNodes, n.id ≠ gateOffNode.id →
      n.shouldRun = none ∧ n.validate = none ∧ n.cleanup = none ∧
      ∀ i c, ∃ p, n.execute i c = .ok p := by
    intro n hn hne
    simp only [gateNodes, List.mem_cons, List.mem_nil_iff, or_false] at hn
    rcases hn with rfl | rfl | rfl
    · exact absurd rfl hne
    · exact ⟨rfl, rfl, rfl, fun i c => ⟨[], rfl⟩⟩
    · exact ⟨rfl, rfl, rfl, fun i c => ⟨[], rfl⟩⟩
  have htd : TransDependent gateNodes "g" "d2" :=
    Relation.TransGen.tail
      (Relation.TransGen.single
        ⟨dep1Node, by simp [gateNodes], rfl, by decide⟩)
      ⟨dep2Node, by simp [gateNodes], rfl, by decide⟩
  ⟨gate_false_skips_and_blocks.1 gateOffNode (fun _ => false) [("k", 1)]
    freshMetrics rfl rfl,
   (gate_false_skips_and_blocks.2 gateNodes
     ⟨by decide, by decide, by decide, by decide⟩
     ⟨["g", "d1", "d2"], [["g"], ["d1"], ["d2"]]⟩ rfl
     gateOffNode (fun _ => false) (by simp [gateNodes]) rfl (fun _ => rfl)
     hothers []).1,
   (gate_false_skips_and_blocks.2 gateNodes
     ⟨by decide, by decide, by decide, by decide⟩
     ⟨["g", "d1", "d2"], [["g"], ["d1"], ["d2"]]⟩ rfl
     gateOffNode (fun _ => false) (by simp [gateNodes]) rfl (fun _ => rfl)
     hothers []).2 "d2" htd⟩
